import Mathlib

/-!
Verification of the B-tree multimap implemented in bTree.c.

The embedding models the C data structures with Lean values:
  * a C array of fixed capacity becomes a Lean list whose length is the
    capacity; stale slots keep their (zeroed) contents, exactly as in C;
  * a pointer that may be NULL becomes an Option;
  * undefined behaviour (dereferencing NULL, reading outside an array)
    is signalled by returning none from the modelled operation;
  * a key_node's value buffer is modelled by the list of stored values
    together with the allocated byte length of the buffer (the C code
    stores the count nVals and a raw pointer; the observable contents of
    the buffer are exactly the first nVals values, which is the list).
Machine integers: keys and values are C int; no arithmetic is performed
on them by the code (only comparisons), so they are modelled by Int.
The counts (nKeys, nVals) and byte sizes are modelled by Nat; the C code
keeps them nonnegative and far below INT_MAX (nKeys <= 500, buffer sizes
grow by 64 per append), so no overflow is reachable and the Nat model is
exact on the reachable states.
-/

set_option maxRecDepth 100000

namespace BTreeC

/-- MAX_KEYS from bTree.c: how many key_nodes fit in a node. -/
def MAX_KEYS : Nat := 500

/-- LINE_SIZE from bTree.c: the size of a cache line in bytes. -/
def LINE_SIZE : Nat := 64

/-- sizeof(multimap_value): a multimap_value is a C int, 4 bytes. -/
def VAL_SIZE : Nat := 4

/-- The key_node struct of bTree.c: the key, and the value buffer.
The C struct stores nVals (the number of live values) and a pointer to
a heap buffer; values is the list of live values (so nVals is
values.length) and alloced is the allocated byte length of the buffer
(0 when the pointer is NULL, i.e. no buffer was ever allocated). -/
structure key_node where
  key : Int
  values : List Int
  alloced : Nat
deriving DecidableEq, Repr

/-- A bzero-ed key_node slot: key 0, nVals 0, values NULL. -/
def key_node.zero : key_node := ⟨0, [], 0⟩

/-- nVals field of the C struct. -/
def key_node.nVals (r : key_node) : Nat := r.values.length

/-- The while loop of mm_add_value that computes spaceAlloced: starting
from s, add LINE_SIZE while below spaceTaken. -/
def allocFill (s spaceTaken : Nat) : Nat :=
  if s < spaceTaken then allocFill (s + LINE_SIZE) spaceTaken else s
termination_by spaceTaken - s
decreasing_by simp only [LINE_SIZE]; omega

/-- The value-append of mm_add_value (bTree.c lines 484-498), acting on
one key record: compute spaceTaken and spaceAlloced, grow the buffer by
one LINE_SIZE when the headroom is below one value, then store the value
at index nVals and increment nVals. -/
def appendValue (value : Int) (r : key_node) : key_node :=
  let spaceTaken := r.values.length * VAL_SIZE
  let spaceAlloced := allocFill 0 spaceTaken
  let alloced2 := if spaceAlloced - spaceTaken < VAL_SIZE
    then spaceAlloced + LINE_SIZE else r.alloced
  { key := r.key, values := r.values ++ [value], alloced := alloced2 }

/-!  Array surgery primitives.  writeL l i seg overwrites the slots
i, i+1, ..., i+seg.length-1 of the array l with seg, the functional
rendering of a memcpy into the array.  memmoveL and bzeroL are the two
uses made by bTree.c: memmove within one array and bzero of a range. -/

/-- Overwrite the slots of l from position i on with seg. -/
def writeL (l : List α) (i : Nat) (seg : List α) : List α :=
  l.take i ++ seg ++ l.drop (i + seg.length)

/-- memmove(&l[dst], &l[src], cnt * sizeof elem) within one array. -/
def memmoveL (l : List α) (dst src cnt : Nat) : List α :=
  writeL l dst ((l.drop src).take cnt)

/-- bzero(&l[i], cnt * sizeof elem): overwrite cnt slots with the zero
value of the element type. -/
def bzeroL (l : List α) (z : α) (i cnt : Nat) : List α :=
  writeL l i (List.replicate cnt z)

theorem writeL_length {l seg : List α} {i : Nat}
    (h : i + seg.length ≤ l.length) : (writeL l i seg).length = l.length := by
  simp [writeL]
  omega

theorem memmoveL_length {l : List α} {dst src cnt : Nat}
    (hsrc : src + cnt ≤ l.length) (hdst : dst + cnt ≤ l.length) :
    (memmoveL l dst src cnt).length = l.length := by
  have : ((l.drop src).take cnt).length = cnt := by
    simp
    omega
  rw [memmoveL, writeL_length]
  omega

theorem bzeroL_length {l : List α} {z : α} {i cnt : Nat}
    (h : i + cnt ≤ l.length) : (bzeroL l z i cnt).length = l.length := by
  rw [bzeroL, writeL_length]
  simpa using h

/-- The mm_node struct of bTree.c: the leaf flag, the count of live key
records, the inline array of MAX_KEYS key_node slots, and the inline
array of MAX_KEYS + 1 child pointers (none is NULL).  The capacity is
not enforced by the type, exactly as a C array access is not bounds
checked; the invariants carry the length facts. -/
inductive mm_node : Type where
  | mk (isLeaf : Bool) (nKeys : Nat) (kNodes : List key_node)
      (kids : List (Option mm_node)) : mm_node
deriving Repr

def mm_node.isLeaf : mm_node → Bool
  | .mk b _ _ _ => b

def mm_node.nKeys : mm_node → Nat
  | .mk _ n _ _ => n

def mm_node.kNodes : mm_node → List key_node
  | .mk _ _ ks _ => ks

def mm_node.kids : mm_node → List (Option mm_node)
  | .mk _ _ _ cs => cs

@[simp] theorem mm_node.isLeaf_mk (b n ks cs) :
    (mm_node.mk b n ks cs).isLeaf = b := rfl

@[simp] theorem mm_node.nKeys_mk (b n ks cs) :
    (mm_node.mk b n ks cs).nKeys = n := rfl

@[simp] theorem mm_node.kNodes_mk (b n ks cs) :
    (mm_node.mk b n ks cs).kNodes = ks := rfl

@[simp] theorem mm_node.kids_mk (b n ks cs) :
    (mm_node.mk b n ks cs).kids = cs := rfl

theorem mm_node.eta (nd : mm_node) :
    mm_node.mk nd.isLeaf nd.nKeys nd.kNodes nd.kids = nd := by
  cases nd; rfl

/-- The entry point struct multimap: a pointer to the root (none = NULL). -/
structure multimap where
  root : Option mm_node

/-- alloc_node of bTree.c: malloc an mm_node and bzero it, so isLeaf is
0, nKeys is 0, every key_node slot is zeroed, every child pointer NULL. -/
def alloc_node : mm_node :=
  mm_node.mk false 0 (List.replicate MAX_KEYS key_node.zero)
    (List.replicate (MAX_KEYS + 1) none)

/-!  Structural height of a node, used only as a termination measure for
the recursive functions modelled from the C code (the C functions
terminate because the pointer structure is finite; nheight makes that
measure explicit). -/

mutual

def nheight : mm_node → Nat
  | .mk _ _ _ cs => kheight cs + 1

def kheight : List (Option mm_node) → Nat
  | [] => 0
  | none :: t => kheight t
  | some c :: t => max (nheight c) (kheight t)

end

theorem nheight_mk (b n ks cs) : nheight (mm_node.mk b n ks cs) = kheight cs + 1 := by
  rw [nheight]

@[simp] theorem kheight_nil : kheight ([] : List (Option mm_node)) = 0 := by
  rw [kheight]

@[simp] theorem kheight_cons_none (t : List (Option mm_node)) :
    kheight (none :: t) = kheight t := by
  rw [kheight]

@[simp] theorem kheight_cons_some (c : mm_node) (t : List (Option mm_node)) :
    kheight (some c :: t) = max (nheight c) (kheight t) := by
  rw [kheight]

theorem nheight_le_kheight_of_mem {c : mm_node} {l : List (Option mm_node)}
    (h : some c ∈ l) : nheight c ≤ kheight l := by
  induction l with
  | nil => simp at h
  | cons a t ih =>
    rcases List.mem_cons.mp h with h1 | h1
    · subst h1; simp
    · cases a with
      | none => simpa using ih h1
      | some d => simp; exact Or.inr (ih h1)

theorem kheight_le_of_subset {l l2 : List (Option mm_node)}
    (h : ∀ c : mm_node, some c ∈ l2 → some c ∈ l) : kheight l2 ≤ kheight l := by
  induction l2 with
  | nil => simp
  | cons a t ih =>
    cases a with
    | none =>
      simp only [kheight_cons_none]
      exact ih fun c hc => h c (List.mem_cons_of_mem _ hc)
    | some d =>
      simp only [kheight_cons_some, max_le_iff]
      constructor
      · exact nheight_le_kheight_of_mem (h d (List.mem_cons_self _ _))
      · exact ih fun c hc => h c (List.mem_cons_of_mem _ hc)

/-!  getD lemma kit: the C code reads arrays by index; the model reads
lists with getD.  All in-bounds reads are characterised here. -/

theorem getD_append_left {l1 l2 : List α} {i : Nat} (d : α) (h : i < l1.length) :
    (l1 ++ l2).getD i d = l1.getD i d := by
  simp [List.getD_eq_getElem?_getD, List.getElem?_append_left h]

theorem getD_append_right {l1 l2 : List α} {i : Nat} (d : α) (h : l1.length ≤ i) :
    (l1 ++ l2).getD i d = l2.getD (i - l1.length) d := by
  simp [List.getD_eq_getElem?_getD, List.getElem?_append_right h]

theorem getD_take {l : List α} {i n : Nat} (d : α) (h : i < n) :
    (l.take n).getD i d = l.getD i d := by
  simp [List.getD_eq_getElem?_getD, List.getElem?_take_of_lt h]

theorem getD_drop {l : List α} (d : α) (n i : Nat) :
    (l.drop n).getD i d = l.getD (n + i) d := by
  simp [List.getD_eq_getElem?_getD, List.getElem?_drop]

theorem getD_set_eq {l : List α} {i : Nat} (a d : α) (h : i < l.length) :
    (l.set i a).getD i d = a := by
  simp [List.getD_eq_getElem?_getD, List.getElem?_set_self, h]

theorem getD_set_ne {l : List α} {i j : Nat} (a d : α) (h : i ≠ j) :
    (l.set i a).getD j d = l.getD j d := by
  simp [List.getD_eq_getElem?_getD, List.getElem?_set_ne h]

theorem getD_replicate {i n : Nat} (a d : α) (h : i < n) :
    (List.replicate n a).getD i d = a := by
  simp [List.getD_eq_getElem?_getD, List.getElem?_replicate, h]

theorem getD_replicate_self (i n : Nat) (a : α) :
    (List.replicate n a).getD i a = a := by
  rcases Nat.lt_or_ge i n with h | h
  · exact getD_replicate a a h
  · rw [List.getD_eq_default]
    simpa using h

theorem set_getD_self {l : List α} {i : Nat} (d : α) :
    l.set i (l.getD i d) = l := by
  induction l generalizing i with
  | nil => rfl
  | cons a t ih =>
    cases i with
    | zero => simp [List.getD_cons_zero]
    | succ j =>
      have := ih (i := j)
      simp only [List.getD_eq_getElem?_getD] at this
      simp [this]

theorem getD_eq_getD_of_ne_default {l : List α} {i : Nat} {d d2 : α}
    (h : l.getD i d ≠ d) : l.getD i d2 = l.getD i d := by
  rcases Nat.lt_or_ge i l.length with hi | hi
  · simp [List.getD_eq_getElem?_getD, List.getElem?_eq_getElem hi]
  · rw [List.getD_eq_default _ _ hi] at h
    exact absurd rfl h

@[simp] theorem writeL_nil_seg (l : List α) (i : Nat) :
    writeL l i ([] : List α) = l := by
  simp [writeL]

theorem getD_writeL_lt {l seg : List α} {i j : Nat} (d : α)
    (hin : i + seg.length ≤ l.length) (hj : j < i) :
    (writeL l i seg).getD j d = l.getD j d := by
  have h1 : (l.take i).length = i := by simp; omega
  rw [writeL, List.append_assoc, getD_append_left d (by omega), getD_take d hj]

theorem getD_writeL_mid {l seg : List α} {i j : Nat} (d : α)
    (hin : i + seg.length ≤ l.length) (hlo : i ≤ j) (hhi : j < i + seg.length) :
    (writeL l i seg).getD j d = seg.getD (j - i) d := by
  have h1 : (l.take i).length = i := by simp; omega
  rw [writeL, List.append_assoc, getD_append_right d (by omega), h1,
    getD_append_left d (by omega)]

theorem writeL_length_ge (l : List α) (i : Nat) (seg : List α) :
    min i l.length ≤ (writeL l i seg).length := by
  simp [writeL]

theorem getD_writeL_lt2 {l seg : List α} {i0 j : Nat} (d : α)
    (hi0 : i0 ≤ l.length) (hj : j < i0) :
    (writeL l i0 seg).getD j d = l.getD j d := by
  have h1 : (l.take i0).length = i0 := by simp; omega
  rw [writeL, List.append_assoc, getD_append_left d (by omega), getD_take d hj]

theorem getD_writeL_mid2 {l seg : List α} {i0 j : Nat} (d : α)
    (hi0 : i0 ≤ l.length) (hlo : i0 ≤ j) (hhi : j < i0 + seg.length) :
    (writeL l i0 seg).getD j d = seg.getD (j - i0) d := by
  have h1 : (l.take i0).length = i0 := by simp; omega
  rw [writeL, List.append_assoc, getD_append_right d (by omega), h1,
    getD_append_left d (by omega)]

theorem mem_of_getD {l : List α} {i : Nat} {d a : α} (h : l.getD i d = a) :
    a ∈ l ∨ a = d := by
  rcases Nat.lt_or_ge i l.length with hi | hi
  · left
    have hg : l.getD i d = l[i] := by
      simp [List.getD_eq_getElem?_getD, List.getElem?_eq_getElem hi]
    rw [hg] at h
    exact h ▸ List.getElem_mem hi
  · right
    rw [List.getD_eq_default _ _ hi] at h
    exact h.symm

theorem mem_writeL {l seg : List α} {i : Nat} {a : α} (h : a ∈ writeL l i seg) :
    a ∈ l ∨ a ∈ seg := by
  rw [writeL] at h
  rcases List.mem_append.mp h with h1 | h1
  · rcases List.mem_append.mp h1 with h2 | h2
    · exact Or.inl (List.mem_of_mem_take h2)
    · exact Or.inr h2
  · exact Or.inl (List.mem_of_mem_drop h1)

theorem getD_writeL_ge {l seg : List α} {i j : Nat} (d : α)
    (hin : i + seg.length ≤ l.length) (hj : i + seg.length ≤ j) :
    (writeL l i seg).getD j d = l.getD j d := by
  have h1 : (l.take i).length = i := by simp; omega
  rw [writeL, List.append_assoc, getD_append_right d (by omega), h1,
    getD_append_right d (by omega), getD_drop]
  congr 1
  omega

/-- A child retrieved from a kids array is structurally lower. -/
theorem nheight_lt_of_getD {cs : List (Option mm_node)} {i : Nat} {c : mm_node}
    (h : cs.getD i none = some c) : nheight c < kheight cs + 1 := by
  have hm : some c ∈ cs := by
    rcases Nat.lt_or_ge i cs.length with hi | hi
    · have hg : cs.getD i none = cs[i] := by
        simp [List.getD_eq_getElem?_getD, List.getElem?_eq_getElem hi]
      rw [hg] at h
      exact h ▸ List.getElem_mem hi
    · rw [List.getD_eq_default _ _ hi] at h
      cases h
  exact Nat.lt_succ_of_le (nheight_le_kheight_of_mem hm)

/-!  searchInNode (bTree.c lines 212-222): scan the live key records in
order and return the index of the first one whose key is at least the
query key, or nKeys when every live key is below the query key.  The C
loop reads kNodes[i] for i = 0 .. nKeys-1; the model walks the list of
live records (the first nKeys slots). -/

def searchInKeys (key : Int) : List key_node → Nat
  | [] => 0
  | r :: rs => if key ≤ r.key then 0 else searchInKeys key rs + 1

def searchInNode (node : mm_node) (key : Int) : Nat :=
  searchInKeys key (node.kNodes.take node.nKeys)

theorem searchInKeys_le_length (key : Int) (l : List key_node) :
    searchInKeys key l ≤ l.length := by
  induction l with
  | nil => simp [searchInKeys]
  | cons r rs ih =>
    rw [searchInKeys]
    split
    · simp
    · simpa using ih

theorem searchInKeys_before {key : Int} {l : List key_node} {j : Nat}
    (h : j < searchInKeys key l) : ((l.getD j key_node.zero).key < key) := by
  induction l generalizing j with
  | nil => simp [searchInKeys] at h
  | cons r rs ih =>
    rw [searchInKeys] at h
    by_cases hc : key ≤ r.key
    · simp [hc] at h
    · simp only [if_neg hc] at h
      cases j with
      | zero => simpa [List.getD_cons_zero] using not_le.mp hc
      | succ j2 => simpa [List.getD_cons_succ] using ih (by omega)

theorem searchInKeys_at {key : Int} {l : List key_node}
    (h : searchInKeys key l < l.length) :
    key ≤ (l.getD (searchInKeys key l) key_node.zero).key := by
  induction l with
  | nil => simp at h
  | cons r rs ih =>
    rw [searchInKeys] at h ⊢
    by_cases hc : key ≤ r.key
    · simp only [if_pos hc, List.getD_cons_zero]
      exact hc
    · simp only [if_neg hc] at h ⊢
      simpa [List.getD_cons_succ] using ih (by simpa using h)

/-- First-index uniqueness: any index with the same stopping properties
is the result of the scan. -/
theorem searchInKeys_eq_of {key : Int} {l : List key_node} {j : Nat}
    (hle : j ≤ l.length)
    (hbefore : ∀ i, i < j → (l.getD i key_node.zero).key < key)
    (hat : j = l.length ∨ key ≤ (l.getD j key_node.zero).key) :
    searchInKeys key l = j := by
  induction l generalizing j with
  | nil =>
    rw [searchInKeys]
    simp at hle
    omega
  | cons r rs ih =>
    rw [searchInKeys]
    cases j with
    | zero =>
      rcases hat with hat | hat
      · simp at hat
      · simp [List.getD_cons_zero] at hat
        simp [hat]
    | succ j2 =>
      have h0 : r.key < key := by simpa [List.getD_cons_zero] using hbefore 0 (by omega)
      rw [if_neg (not_le.mpr h0)]
      have := ih (j := j2) (by simpa using hle)
        (fun i hi => by simpa [List.getD_cons_succ] using hbefore (i + 1) (by omega))
        (by rcases hat with hat | hat
            · left; simpa using hat
            · right; simpa [List.getD_cons_succ] using hat)
      omega

/-!  splitNode (bTree.c lines 267-328).  The C function mutates the
parent in place and mutates the elder child through the pointer stored
at parent->kids[pos]; the model returns the new parent value, with the
updated elder written back into the kids slot it was read from.  It
returns none when parent->kids[pos] is NULL (the C code would
dereference a null elder).  The steps follow the C code in order:
shift the parent arrays (step 1), move the separator up and hook in the
new child (step 2), fill the freshly allocated younger node (step 3),
truncate the elder and zero the moved-out slots (step 4). -/
/-- Step 3 of splitNode: the freshly allocated younger node after its
fields are filled: nKeys is elder.nKeys - (mid + 1), the first yn
key_node slots are copied from elder.kNodes[mid+1 ..], the leaf flag is
copied, and for a non-leaf the first yn + 1 child slots are copied from
elder.kids[mid+1 ..]; all other slots keep the zero of alloc_node. -/
def splitYounger (elder : mm_node) : mm_node :=
  mm_node.mk elder.isLeaf (elder.nKeys - (elder.nKeys / 2 + 1))
    (writeL alloc_node.kNodes 0
      ((elder.kNodes.drop (elder.nKeys / 2 + 1)).take (elder.nKeys - (elder.nKeys / 2 + 1))))
    (if elder.isLeaf then alloc_node.kids
     else writeL alloc_node.kids 0
       ((elder.kids.drop (elder.nKeys / 2 + 1)).take (elder.nKeys - (elder.nKeys / 2 + 1) + 1)))

/-- Step 4 of splitNode: the elder after truncation: nKeys becomes mid,
the yn + 1 key_node slots from mid on are zeroed, and for a non-leaf
the yn + 1 child slots from mid + 1 on are zeroed. -/
def splitElder (elder : mm_node) : mm_node :=
  mm_node.mk elder.isLeaf (elder.nKeys / 2)
    (bzeroL elder.kNodes key_node.zero (elder.nKeys / 2)
      (elder.nKeys - (elder.nKeys / 2 + 1) + 1))
    (if elder.isLeaf then elder.kids
     else bzeroL elder.kids none (elder.nKeys / 2 + 1)
       (elder.nKeys - (elder.nKeys / 2 + 1) + 1))

def splitNode (parent : mm_node) (pos : Nat) : Option mm_node :=
  match parent.kids.getD pos none with
  | none => none
  | some elder =>
    some (mm_node.mk parent.isLeaf (parent.nKeys + 1)
      ((memmoveL parent.kNodes (pos + 1) pos (parent.nKeys - pos)).set pos
        (elder.kNodes.getD (elder.nKeys / 2) key_node.zero))
      (((memmoveL parent.kids (pos + 2) (pos + 1) (parent.nKeys - pos)).set (pos + 1)
        (some (splitYounger elder))).set pos (some (splitElder elder))))

theorem splitNode_eq {parent : mm_node} {pos : Nat} {elder : mm_node}
    (h : parent.kids.getD pos none = some elder) :
    splitNode parent pos = some (mm_node.mk parent.isLeaf (parent.nKeys + 1)
      ((memmoveL parent.kNodes (pos + 1) pos (parent.nKeys - pos)).set pos
        (elder.kNodes.getD (elder.nKeys / 2) key_node.zero))
      (((memmoveL parent.kids (pos + 2) (pos + 1) (parent.nKeys - pos)).set (pos + 1)
        (some (splitYounger elder))).set pos (some (splitElder elder)))) := by
  rw [splitNode, h]

theorem splitNode_none {parent : mm_node} {pos : Nat}
    (h : parent.kids.getD pos none = none) : splitNode parent pos = none := by
  rw [splitNode, h]

/-- Is the child about to be descended into full?  The second component
of the termination measure of searchAndInsert. -/
def descendFull (node : mm_node) (key : Int) : Nat :=
  if node.isLeaf = true then 0
  else match node.kids.getD (searchInNode node key) none with
    | none => 0
    | some c => if c.nKeys = MAX_KEYS then 1 else 0

theorem descendFull_le_one (node : mm_node) (key : Int) :
    descendFull node key ≤ 1 := by
  rw [descendFull]
  split
  · omega
  · split
    · omega
    · split <;> omega

theorem lt_length_of_getD_ne {l : List α} {i : Nat} {d : α}
    (h : l.getD i d ≠ d) : i < l.length := by
  by_contra hge
  exact h (List.getD_eq_default _ _ (by omega))

theorem kheight_le_of_forall {l : List (Option mm_node)} {B : Nat}
    (h : ∀ c : mm_node, some c ∈ l → nheight c ≤ B) : kheight l ≤ B := by
  induction l with
  | nil => simp
  | cons a t ih =>
    cases a with
    | none =>
      simp only [kheight_cons_none]
      exact ih fun c hc => h c (List.mem_cons_of_mem _ hc)
    | some d =>
      simp only [kheight_cons_some, max_le_iff]
      exact ⟨h d (List.mem_cons_self _ _), ih fun c hc => h c (List.mem_cons_of_mem _ hc)⟩

theorem not_mem_replicate_none (n : Nat) (c : mm_node) :
    some c ∉ List.replicate n (none : Option mm_node) := by
  intro h
  have := List.eq_of_mem_replicate h
  cases this

theorem nheight_splitElder_le (elder : mm_node) :
    nheight (splitElder elder) ≤ nheight elder := by
  rw [splitElder]
  cases elder with
  | mk b n ks cs =>
    simp only [mm_node.isLeaf_mk, mm_node.nKeys_mk, mm_node.kNodes_mk, mm_node.kids_mk,
      nheight_mk]
    cases b with
    | true => simp
    | false =>
      simp only [Bool.false_eq_true, if_false]
      have : kheight (bzeroL cs none (n / 2 + 1) (n - (n / 2 + 1) + 1)) ≤ kheight cs := by
        apply kheight_le_of_forall
        intro c hc
        rcases mem_writeL hc with h1 | h1
        · exact nheight_le_kheight_of_mem h1
        · exact absurd h1 (not_mem_replicate_none _ _)
      omega

theorem nheight_splitYounger_le (elder : mm_node) :
    nheight (splitYounger elder) ≤ nheight elder := by
  rw [splitYounger]
  cases elder with
  | mk b n ks cs =>
    simp only [mm_node.isLeaf_mk, mm_node.nKeys_mk, mm_node.kNodes_mk, mm_node.kids_mk,
      nheight_mk]
    cases b with
    | true =>
      simp only [if_true]
      have : kheight alloc_node.kids ≤ kheight cs := by
        apply kheight_le_of_forall
        intro c hc
        exact absurd hc (not_mem_replicate_none _ _)
      omega
    | false =>
      simp only [Bool.false_eq_true, if_false]
      have : kheight (writeL alloc_node.kids 0
          ((cs.drop (n / 2 + 1)).take (n - (n / 2 + 1) + 1))) ≤ kheight cs := by
        apply kheight_le_of_forall
        intro c hc
        rcases mem_writeL hc with h1 | h1
        · exact absurd h1 (not_mem_replicate_none _ _)
        · exact nheight_le_kheight_of_mem (List.mem_of_mem_drop (List.mem_of_mem_take h1))
      omega

theorem searchInNode_mk (b : Bool) (n : Nat) (ks : List key_node)
    (cs : List (Option mm_node)) (key : Int) :
    searchInNode (mm_node.mk b n ks cs) key = searchInKeys key (ks.take n) := rfl

theorem splitNode_nheight_le {parent p2 : mm_node} {pos : Nat}
    (h : splitNode parent pos = some p2) : nheight p2 ≤ nheight parent := by
  cases hget : parent.kids.getD pos none with
  | none => rw [splitNode_none hget] at h; cases h
  | some elder =>
    rw [splitNode_eq hget] at h
    have helder : some elder ∈ parent.kids := by
      rcases mem_of_getD hget with h1 | h1
      · exact h1
      · cases h1
    have helderh : nheight elder ≤ kheight parent.kids :=
      nheight_le_kheight_of_mem helder
    cases h
    cases parent with
    | mk b n ks cs =>
      simp only [mm_node.kids_mk, mm_node.nKeys_mk, mm_node.kNodes_mk, mm_node.isLeaf_mk,
        nheight_mk] at *
      have hbound : kheight (((memmoveL cs (pos + 2) (pos + 1) (n - pos)).set (pos + 1)
          (some (splitYounger elder))).set pos (some (splitElder elder))) ≤ kheight cs := by
        apply kheight_le_of_forall
        intro c hc
        rcases List.mem_or_eq_of_mem_set hc with hc1 | hc1
        · rcases List.mem_or_eq_of_mem_set hc1 with hc2 | hc2
          · rcases mem_writeL hc2 with hc3 | hc3
            · exact nheight_le_kheight_of_mem hc3
            · exact nheight_le_kheight_of_mem
                (List.mem_of_mem_drop (List.mem_of_mem_take hc3))
          · have : c = splitYounger elder := by injection hc2
            rw [this]
            exact le_trans (nheight_splitYounger_le elder) helderh
        · have : c = splitElder elder := by injection hc1
          rw [this]
          exact le_trans (nheight_splitElder_le elder) helderh
      omega

theorem splitElder_nKeys_ne (elder : mm_node) (hfull : elder.nKeys = MAX_KEYS) :
    (splitElder elder).nKeys ≠ MAX_KEYS := by
  rw [splitElder]
  simp only [mm_node.nKeys_mk, hfull]
  rw [MAX_KEYS]
  omega

theorem splitYounger_nKeys_ne (elder : mm_node) (hfull : elder.nKeys = MAX_KEYS) :
    (splitYounger elder).nKeys ≠ MAX_KEYS := by
  rw [splitYounger]
  simp only [mm_node.nKeys_mk, hfull]
  rw [MAX_KEYS]
  omega

/-- After splitting the full child the search is about to descend into,
the child the rescan descends into is never full: the rescan lands
either on the truncated elder or on the new younger sibling (or on an
empty slot).  This holds for arbitrary nodes, so it can serve the
termination proof of searchAndInsert. -/
theorem split_descendFull {node p2 nextNode : mm_node} {key : Int}
    (hleaf : node.isLeaf = false)
    (hnx : node.kids.getD (searchInNode node key) none = some nextNode)
    (hfull : nextNode.nKeys = MAX_KEYS)
    (hsplit : splitNode node (searchInNode node key) = some p2) :
    descendFull p2 key = 0 := by
  cases node with
  | mk b n ks cs =>
  simp only [mm_node.isLeaf_mk] at hleaf
  subst hleaf
  rw [splitNode_eq hnx] at hsplit
  simp only [mm_node.isLeaf_mk, mm_node.nKeys_mk, mm_node.kNodes_mk, mm_node.kids_mk,
    searchInNode_mk, Option.some.injEq] at hsplit hnx
  cases hsplit
  rw [descendFull]
  simp only [mm_node.isLeaf_mk, mm_node.kids_mk, mm_node.nKeys_mk, mm_node.kNodes_mk,
    searchInNode_mk, Bool.false_eq_true, if_false]
  have hposle : searchInKeys key (ks.take n) ≤ min n ks.length := by
    have h1 := searchInKeys_le_length key (ks.take n)
    simpa using h1
  have hbef : ∀ i, i < searchInKeys key (ks.take n) →
      ((ks.take n).getD i key_node.zero).key < key :=
    fun i hi => searchInKeys_before hi
  have hatt : searchInKeys key (ks.take n) < (ks.take n).length →
      key ≤ ((ks.take n).getD (searchInKeys key (ks.take n)) key_node.zero).key :=
    fun h => searchInKeys_at h
  generalize searchInKeys key (ks.take n) = pos at hnx hposle hbef hatt
  have hn : pos ≤ n := by omega
  have hL : pos ≤ ks.length := by omega
  have hLc : pos < cs.length := lt_length_of_getD_ne (by rw [hnx]; simp)
  generalize nextNode.kNodes.getD (nextNode.nKeys / 2) key_node.zero = sep
  have hpk1 : ∀ i, i ≤ pos → (memmoveL ks (pos + 1) pos (n - pos)).getD i key_node.zero
      = ks.getD i key_node.zero := by
    intro i hi
    rcases Nat.lt_or_ge pos ks.length with hl | hl
    · rw [memmoveL]
      exact getD_writeL_lt2 key_node.zero (by omega) (by omega)
    · have hseg : (ks.drop pos).take (n - pos) = ([] : List key_node) := by
        rw [List.drop_eq_nil_of_le hl]
        simp
      rw [memmoveL, hseg, writeL_nil_seg]
  have hF2 : ∀ i, i < pos →
      ((((memmoveL ks (pos + 1) pos (n - pos)).set pos sep).take (n + 1)).getD i
        key_node.zero).key < key := by
    intro i hi
    rw [getD_take _ (by omega), getD_set_ne _ _ (by omega), hpk1 i (by omega)]
    have h2 := hbef i hi
    rwa [getD_take _ (by omega)] at h2
  have hPKlen : pos ≤ ((memmoveL ks (pos + 1) pos (n - pos)).set pos sep).length := by
    have h2 := writeL_length_ge ks (pos + 1) ((ks.drop pos).take (n - pos))
    rw [List.length_set, memmoveL]
    omega
  have hPKat : pos + 1 < (((memmoveL ks (pos + 1) pos (n - pos)).set pos sep).take
        (n + 1)).length →
      key ≤ ((((memmoveL ks (pos + 1) pos (n - pos)).set pos sep).take (n + 1)).getD
        (pos + 1) key_node.zero).key := by
    intro hD
    have h1 : (((memmoveL ks (pos + 1) pos (n - pos)).set pos sep).take (n + 1)).length
        ≤ n + 1 := by
      simp
    have hposn2 : pos < n := by omega
    have hposL2 : pos < ks.length := by
      by_contra hcon
      push_neg at hcon
      have hseg : (ks.drop pos).take (n - pos) = ([] : List key_node) := by
        rw [List.drop_eq_nil_of_le hcon]
        simp
      have hpk1eq : memmoveL ks (pos + 1) pos (n - pos) = ks := by
        rw [memmoveL, hseg, writeL_nil_seg]
      rw [hpk1eq, List.length_take, List.length_set] at hD
      omega
    rw [getD_take _ (by omega), getD_set_ne _ _ (by omega), memmoveL,
      getD_writeL_mid2 _ (by omega) (by omega)
        (by rw [List.length_take, List.length_drop]; omega)]
    have hsub : pos + 1 - (pos + 1) = 0 := by omega
    rw [hsub, getD_take _ (by omega), getD_drop]
    have hat2 := hatt (by rw [List.length_take]; omega)
    rw [getD_take _ (by omega)] at hat2
    simpa using hat2
  have hPC1 : pos < (memmoveL cs (pos + 2) (pos + 1) (n - pos)).length := by
    have h2 := writeL_length_ge cs (pos + 2) ((cs.drop (pos + 1)).take (n - pos))
    rw [memmoveL]
    omega
  have hy := splitYounger_nKeys_ne nextNode hfull
  have he := splitElder_nKeys_ne nextNode hfull
  generalize (memmoveL ks (pos + 1) pos (n - pos)).set pos sep = PK
    at hF2 hPKlen hPKat
  generalize memmoveL cs (pos + 2) (pos + 1) (n - pos) = PC1 at hPC1
  generalize splitYounger nextNode = Y at hy
  generalize splitElder nextNode = E at he
  have hlen2a : pos ≤ (PK.take (n + 1)).length := by
    rw [List.length_take]
    omega
  rcases Nat.lt_or_ge pos (PK.take (n + 1)).length with hC | hC
  · by_cases hC2 : key ≤ ((PK.take (n + 1)).getD pos key_node.zero).key
    · have hstop : searchInKeys key (PK.take (n + 1)) = pos :=
        searchInKeys_eq_of (by omega) hF2 (Or.inr hC2)
      rw [hstop]
      have hkid : ((PC1.set (pos + 1) (some Y)).set pos (some E)).getD pos none = some E :=
        getD_set_eq _ _ (by rw [List.length_set]; omega)
      rw [hkid]
      show (if E.nKeys = MAX_KEYS then 1 else 0) = 0
      rw [if_neg he]
    · have hstop : searchInKeys key (PK.take (n + 1)) = pos + 1 := by
        apply searchInKeys_eq_of hC
        · intro i hi
          rcases Nat.lt_or_ge i pos with h2 | h2
          · exact hF2 i h2
          · have hieq : i = pos := by omega
            rw [hieq]
            exact not_le.mp hC2
        · rcases Nat.lt_or_ge (pos + 1) (PK.take (n + 1)).length with hD | hD
          · exact Or.inr (hPKat hD)
          · exact Or.inl (by omega)
      rw [hstop]
      have hne : pos ≠ pos + 1 := by omega
      rcases Nat.lt_or_ge (pos + 1) PC1.length with hE | hE
      · have hkid : ((PC1.set (pos + 1) (some Y)).set pos (some E)).getD (pos + 1) none
            = some Y := by
          rw [getD_set_ne _ _ hne, getD_set_eq _ _ hE]
        rw [hkid]
        show (if Y.nKeys = MAX_KEYS then 1 else 0) = 0
        rw [if_neg hy]
      · have hkid : ((PC1.set (pos + 1) (some Y)).set pos (some E)).getD (pos + 1) none
            = none := by
          rw [getD_set_ne _ _ hne]
          apply List.getD_eq_default
          rw [List.length_set]
          omega
        rw [hkid]
  · have hstop : searchInKeys key (PK.take (n + 1)) = pos :=
      searchInKeys_eq_of (by omega) hF2 (Or.inl (by omega))
    rw [hstop]
    have hkid : ((PC1.set (pos + 1) (some Y)).set pos (some E)).getD pos none = some E :=
      getD_set_eq _ _ (by rw [List.length_set]; omega)
    rw [hkid]
    show (if E.nKeys = MAX_KEYS then 1 else 0) = 0
    rw [if_neg he]

theorem nheight_eq (nd : mm_node) : nheight nd = kheight nd.kids + 1 := by
  cases nd with
  | mk b n ks cs => rw [nheight_mk, mm_node.kids_mk]

theorem descendFull_eq_one {node nextNode : mm_node} {key : Int}
    (hleaf : node.isLeaf = false)
    (hnx : node.kids.getD (searchInNode node key) none = some nextNode)
    (hfull : nextNode.nKeys = MAX_KEYS) :
    descendFull node key = 1 := by
  rw [descendFull, if_neg (by simp [hleaf]), hnx]
  show (if nextNode.nKeys = MAX_KEYS then 1 else 0) = 1
  rw [if_pos hfull]

theorem split_measure {node p2 nextNode : mm_node} {key : Int}
    (hleaf : node.isLeaf = false)
    (hnx : node.kids.getD (searchInNode node key) none = some nextNode)
    (hfull : nextNode.nKeys = MAX_KEYS)
    (hsplit : splitNode node (searchInNode node key) = some p2) :
    2 * nheight p2 + descendFull p2 key < 2 * nheight node + descendFull node key := by
  have h1 := splitNode_nheight_le hsplit
  have h2 := split_descendFull hleaf hnx hfull hsplit
  have h3 := descendFull_eq_one hleaf hnx hfull
  omega

/-- searchAndInsert (bTree.c lines 331-365).  The C function returns a
pointer to the found or created key_node inside the tree, through which
mm_add_value then appends one value before anything else observes the
tree.  The model takes that pending through-the-pointer update u
(u is the identity for pure lookups) and applies it at the record the C
code would return; it returns the record as the C caller observes it,
the updated subtree, and the number of alloc_node calls performed.
none signals undefined behaviour (descending into a NULL child). -/
def searchAndInsert (u : key_node → key_node) (node : mm_node) (key : Int) (create : Bool) :
    Option (Option key_node × mm_node × Nat) :=
  if searchInNode node key < node.nKeys ∧
      (node.kNodes.getD (searchInNode node key) key_node.zero).key = key then
    some (some (u (node.kNodes.getD (searchInNode node key) key_node.zero)),
      mm_node.mk node.isLeaf node.nKeys
        (node.kNodes.set (searchInNode node key)
          (u (node.kNodes.getD (searchInNode node key) key_node.zero))) node.kids, 0)
  else if hlf : node.isLeaf = true then
    if create then
      some (some (u { key_node.zero with key := key }),
        mm_node.mk node.isLeaf (node.nKeys + 1)
          ((memmoveL node.kNodes (searchInNode node key + 1) (searchInNode node key)
            (node.nKeys - searchInNode node key)).set (searchInNode node key)
            (u { key_node.zero with key := key })) node.kids, 0)
    else
      some (none, node, 0)
  else
    match hnx : node.kids.getD (searchInNode node key) none with
    | none => none
    | some nextNode =>
      if hcf : create = true ∧ nextNode.nKeys = MAX_KEYS then
        match hsp : splitNode node (searchInNode node key) with
        | none => none
        | some node2 =>
          (searchAndInsert u node2 key create).map (fun x => (x.1, x.2.1, x.2.2 + 1))
      else
        (searchAndInsert u nextNode key create).map
          (fun x => (x.1, mm_node.mk node.isLeaf node.nKeys node.kNodes
            (node.kids.set (searchInNode node key) (some x.2.1)), x.2.2))
termination_by 2 * nheight node + descendFull node key
decreasing_by
  · have hleaf : node.isLeaf = false := by
      cases h : node.isLeaf
      · rfl
      · exact absurd h hlf
    exact split_measure hleaf hnx hcf.2 hsp
  · have h1 := nheight_lt_of_getD hnx
    rw [nheight_eq node] at *
    have h2 := descendFull_le_one nextNode key
    have h3 := descendFull_le_one node key
    omega

/-- kNode_traverse (bTree.c lines 550-558): deliver (key, values[i])
for i = 0 .. nVals-1, in stored order.  The model returns the list of
delivered pairs instead of invoking a callback. -/
def kNode_traverse (r : key_node) : List (Int × Int) :=
  r.values.map (fun v => (r.key, v))

/-!  mm_traverse_helper (bTree.c lines 565-586): for i = 0 .. nKeys-1,
visit the subtree kids[i] (when not a leaf) then the record kNodes[i];
after the loop visit kids[nKeys] (when not a leaf).  travGo node i is
the loop from iteration i on, including the trailing child visit.
none signals a NULL child dereference. -/

mutual

def mm_traverse_helper (node : mm_node) : Option (List (Int × Int)) :=
  travGo node 0
termination_by (nheight node, node.nKeys + 2)
decreasing_by
  apply Prod.Lex.right
  omega

def travGo (node : mm_node) (i : Nat) : Option (List (Int × Int)) :=
  if i < node.nKeys then
    if node.isLeaf = true then
      match travGo node (i + 1) with
      | none => none
      | some rest => some (kNode_traverse (node.kNodes.getD i key_node.zero) ++ rest)
    else
      match hnx : node.kids.getD i none with
      | none => none
      | some child =>
        match mm_traverse_helper child with
        | none => none
        | some front =>
          match travGo node (i + 1) with
          | none => none
          | some rest =>
            some (front ++ kNode_traverse (node.kNodes.getD i key_node.zero) ++ rest)
  else
    if node.isLeaf = true then some []
    else
      match hnx : node.kids.getD node.nKeys none with
      | none => none
      | some child => mm_traverse_helper child
termination_by (nheight node, node.nKeys + 1 - i)
decreasing_by
  · apply Prod.Lex.right
    omega
  · apply Prod.Lex.left
    have h1 := nheight_lt_of_getD hnx
    rw [nheight_eq node]
    exact h1
  · apply Prod.Lex.right
    omega
  · apply Prod.Lex.left
    have h1 := nheight_lt_of_getD hnx
    rw [nheight_eq node]
    exact h1

end

/-- mm_traverse (bTree.c lines 593-596): calls the helper on mm->root
unconditionally; on an empty multimap the helper dereferences the NULL
root (it reads node->nKeys), which is undefined behaviour: none. -/
def mm_traverse (mm : multimap) : Option (List (Int × Int)) :=
  match mm.root with
  | none => none
  | some root => mm_traverse_helper root

/-- What find_node returns: the C function returns a key_node pointer,
which is NULL, or a valid pointer to a record (returned by value here),
or - on the empty tree without create - the address
of mm->root->kNodes[0] computed from a NULL mm->root: a non-null
dangling pointer (offsetof(mm_node, kNodes) is 8), formed without
dereferencing anything. -/
inductive FindResult where
  | nullPtr : FindResult
  | dangling : FindResult
  | found : key_node → FindResult
deriving DecidableEq, Repr

def FindResult.ofPtr : Option key_node → FindResult
  | none => .nullPtr
  | some r => .found r

/-- find_node (bTree.c lines 376-415).  As for searchAndInsert, u is
the pending through-the-pointer update the caller performs on the
returned record (the identity for pure lookups); the Nat counts
alloc_node calls. -/
def find_node (mm : multimap) (key : Int) (create : Bool) (u : key_node → key_node) :
    Option (FindResult × multimap × Nat) :=
  match mm.root with
  | none =>
    if create then
      some (.found (u { key_node.zero with key := key }),
        ⟨some (mm_node.mk true 1
          ((List.replicate MAX_KEYS key_node.zero).set 0 (u { key_node.zero with key := key }))
          (List.replicate (MAX_KEYS + 1) none))⟩, 1)
    else
      some (.dangling, mm, 0)
  | some root =>
    if root.nKeys = MAX_KEYS ∧ create = true then
      match splitNode (mm_node.mk false 0 (List.replicate MAX_KEYS key_node.zero)
          ((List.replicate (MAX_KEYS + 1) none).set 0 (some root))) 0 with
      | none => none
      | some root2 =>
        (searchAndInsert u root2 key create).map
          (fun x => (FindResult.ofPtr x.1, ⟨some x.2.1⟩, x.2.2 + 2))
    else
      (searchAndInsert u root key create).map
        (fun x => (FindResult.ofPtr x.1, ⟨some x.2.1⟩, x.2.2))

/-- mm_add_value (bTree.c lines 465-499): look up the key node with
create set, then append the value through the returned pointer. -/
def mm_add_value (mm : multimap) (key value : Int) : Option multimap :=
  (find_node mm key true (appendValue value)).map (fun x => x.2.1)

/-- mm_contains_key (bTree.c lines 506-508): nonzero iff the returned
pointer is not NULL. -/
def mm_contains_key (mm : multimap) (key : Int) : Option Bool :=
  (find_node mm key false (fun r => r)).map (fun x => decide (x.1 ≠ FindResult.nullPtr))

/-- The value scan loop of mm_contains_pair (bTree.c lines 525-534). -/
def scanVals (value : Int) : List Int → Bool
  | [] => false
  | v :: rest => if v = value then true else scanVals value rest

/-- mm_contains_pair (bTree.c lines 515-535): find the key node, then
scan its value buffer.  On the empty tree the returned dangling pointer
is dereferenced (kNodePtr->nVals is read): undefined behaviour. -/
def mm_contains_pair (mm : multimap) (key value : Int) : Option Bool :=
  match find_node mm key false (fun r => r) with
  | none => none
  | some x =>
    match x.1 with
    | .nullPtr => some false
    | .dangling => none
    | .found r => some (scanVals value r.values)

/-- init_multimap (bTree.c lines 444-449): an empty multimap, no root. -/
def init_multimap : multimap := ⟨none⟩

/-- clear_multimap (bTree.c lines 453-461): free the whole tree via
free_multimap_node (deallocation has no observable effect in the
model) and set the root pointer back to NULL; the handle survives. -/
def clear_multimap (mm : multimap) : multimap :=
  match mm.root with
  | none => ⟨none⟩
  | some _ => ⟨none⟩

/-- Run a sequence of mm_add_value calls against a multimap. -/
def runAdds (ps : List (Int × Int)) (mm : multimap) : Option multimap :=
  match ps with
  | [] => some mm
  | (k, v) :: rest =>
    match mm_add_value mm k v with
    | none => none
    | some mm2 => runAdds rest mm2

/-- The public operations of the multimap interface (after init). -/
inductive MMOp where
  | addValue : Int → Int → MMOp
  | containsKey : Int → MMOp
  | containsPair : Int → Int → MMOp
  | clearAll : MMOp
deriving DecidableEq, Repr

/-- Apply one public operation to the current state.  The contains
queries return no new state in C; applying one means running it (a
crash, modelled by none, stops the run) and keeping the state. -/
def applyOp (mm : multimap) : MMOp → Option multimap
  | .addValue k v => mm_add_value mm k v
  | .containsKey k =>
    match mm_contains_key mm k with
    | none => none
    | some _ => some mm
  | .containsPair k v =>
    match mm_contains_pair mm k v with
    | none => none
    | some _ => some mm
  | .clearAll => some (clear_multimap mm)

/-- Run a sequence of public operations against a multimap. -/
def runOps (ops : List MMOp) (mm : multimap) : Option multimap :=
  match ops with
  | [] => some mm
  | op :: rest =>
    match applyOp mm op with
    | none => none
    | some mm2 => runOps rest mm2

/-!  Claim theorems begin here. -/

/-- C7: for every node with n strictly increasing keys and every query
key, searchInNode returns the first index i in [0, n] such that either
i = n or key is at most keys[i].key; consequently it returns n exactly
when every live key in the node is less than the query key. -/
theorem C7_searchInNode_first_index (node : mm_node) (key : Int)
    (hlen : node.nKeys ≤ node.kNodes.length)
    (hsorted : ∀ j, j < node.nKeys → ∀ i, i < j →
      (node.kNodes.getD i key_node.zero).key < (node.kNodes.getD j key_node.zero).key) :
    searchInNode node key ≤ node.nKeys ∧
    (searchInNode node key = node.nKeys ∨
      key ≤ (node.kNodes.getD (searchInNode node key) key_node.zero).key) ∧
    (∀ j, j < searchInNode node key → (node.kNodes.getD j key_node.zero).key < key) ∧
    (searchInNode node key = node.nKeys ↔
      ∀ j, j < node.nKeys → (node.kNodes.getD j key_node.zero).key < key) := by
  cases node with
  | mk b n ks cs =>
  simp only [mm_node.nKeys_mk, mm_node.kNodes_mk, searchInNode_mk] at *
  have hlen2 : (ks.take n).length = n := by
    rw [List.length_take]
    omega
  have hle : searchInKeys key (ks.take n) ≤ n := by
    have h1 := searchInKeys_le_length key (ks.take n)
    omega
  have hbef : ∀ j, j < searchInKeys key (ks.take n) →
      (ks.getD j key_node.zero).key < key := by
    intro j hj
    have h1 := searchInKeys_before hj
    rwa [getD_take _ (by omega)] at h1
  refine ⟨hle, ?_, hbef, ?_⟩
  · rcases Nat.lt_or_ge (searchInKeys key (ks.take n)) n with h1 | h1
    · right
      have h2 : key ≤ ((ks.take n).getD (searchInKeys key (ks.take n))
          key_node.zero).key :=
        searchInKeys_at (by omega)
      rwa [getD_take _ (by omega)] at h2
    · left
      omega
  · constructor
    · intro h1 j hj
      exact hbef j (by omega)
    · intro h1
      apply searchInKeys_eq_of (by omega)
      · intro i hi
        rw [getD_take _ (by omega)]
        exact h1 i (by omega)
      · left
        omega

/-- A concrete node for the C7 witness. -/
def c7node : mm_node :=
  mm_node.mk true 3 [⟨1, [5], 64⟩, ⟨4, [6], 64⟩, ⟨9, [7], 64⟩] [none, none, none, none]

theorem C7_witness :
    (c7node.nKeys ≤ c7node.kNodes.length ∧ (∀ j, j < c7node.nKeys → ∀ i, i < j →
      (c7node.kNodes.getD i key_node.zero).key < (c7node.kNodes.getD j key_node.zero).key)) ∧
    (searchInNode c7node 5 ≤ c7node.nKeys ∧
    (searchInNode c7node 5 = c7node.nKeys ∨
      5 ≤ (c7node.kNodes.getD (searchInNode c7node 5) key_node.zero).key) ∧
    (∀ j, j < searchInNode c7node 5 → (c7node.kNodes.getD j key_node.zero).key < 5) ∧
    (searchInNode c7node 5 = c7node.nKeys ↔
      ∀ j, j < c7node.nKeys → (c7node.kNodes.getD j key_node.zero).key < 5)) :=
  ⟨⟨by decide, by decide⟩, C7_searchInNode_first_index c7node 5 (by decide) (by decide)⟩

/-- C4 (code bug): on the empty multimap, find_node with create unset
returns the non-null dangling pointer to mm->root->kNodes[0] computed
from the NULL root instead of reporting not-found, so mm_contains_key
returns nonzero (true) for every key, and mm_contains_pair goes on to
read nVals through that dangling pointer (undefined behaviour, modelled
by none).  The claim - and spec section 4.4 - requires not-found /
false for both. -/
theorem C4_empty_lookup_bug :
    find_node init_multimap 7 false (fun r => r) =
      some (FindResult.dangling, init_multimap, 0) ∧
    mm_contains_key init_multimap 7 = some true ∧
    mm_contains_pair init_multimap 7 0 = none :=
  ⟨rfl, rfl, rfl⟩

/-- C8 (code bug): clear_multimap is idempotent, leaves the multimap
empty and the handle reusable, but a traverse performed after clear
passes the NULL root to mm_traverse_helper, which reads node->nKeys
from a null pointer (undefined behaviour, modelled by none) instead of
visiting nothing. -/
theorem C8_clear_traverse_bug (mm : multimap) :
    clear_multimap (clear_multimap mm) = clear_multimap mm ∧
    (clear_multimap mm).root = none ∧
    mm_traverse (clear_multimap mm) = none := by
  cases mm with
  | mk root => cases root <;> exact ⟨rfl, rfl, rfl⟩

theorem set_writeL_at {l seg : List α} {pos : Nat} (x : α) (h : pos < l.length) :
    (writeL l (pos + 1) seg).set pos x =
      l.take pos ++ [x] ++ seg ++ l.drop (pos + 1 + seg.length) := by
  rw [writeL]
  have h1 : pos < (l.take (pos + 1)).length := by
    rw [List.length_take]
    omega
  rw [List.append_assoc, List.set_append_left _ _ h1]
  have h2 : (l.take (pos + 1)).set pos x = l.take pos ++ [x] := by
    rw [← List.take_concat_get' l pos h,
      List.set_append_right _ _ (by rw [List.length_take]; omega)]
    have h3 : pos - (l.take pos).length = 0 := by
      rw [List.length_take]
      omega
    rw [h3]
    rfl
  rw [h2]
  simp [List.append_assoc]

theorem set2_writeL_at {l seg : List α} {pos : Nat} (x y : α) (h : pos + 1 < l.length) :
    ((writeL l (pos + 2) seg).set (pos + 1) y).set pos x =
      l.take pos ++ [x] ++ [y] ++ seg ++ l.drop (pos + 2 + seg.length) := by
  rw [writeL]
  have h1 : pos + 1 < (l.take (pos + 2)).length := by
    rw [List.length_take]
    omega
  rw [List.append_assoc, List.set_append_left _ _ h1,
    List.set_append_left _ _ (by rw [List.length_set, List.length_take]; omega)]
  have h2 : ((l.take (pos + 2)).set (pos + 1) y).set pos x = l.take pos ++ [x] ++ [y] := by
    rw [← List.take_concat_get' l (pos + 1) h,
      List.set_append_right _ _ (by rw [List.length_take]; omega)]
    have h3 : pos + 1 - (l.take (pos + 1)).length = 0 := by
      rw [List.length_take]
      omega
    rw [h3]
    have h5 : [l[pos + 1]].set 0 y = [y] := rfl
    rw [h5, List.set_append_left _ _ (by rw [List.length_take]; omega)]
    show ((l.take (pos + 1)).set pos x ++ [y]) = l.take pos ++ [x] ++ [y]
    rw [← List.take_concat_get' l pos (by omega),
      List.set_append_right _ _ (by rw [List.length_take]; omega)]
    have h4 : pos - (l.take pos).length = 0 := by
      rw [List.length_take]
      omega
    rw [h4]
    rfl
  rw [h2]
  simp [List.append_assoc]

theorem splitElder_closed (elder : mm_node)
    (heL : elder.kNodes.length = MAX_KEYS) (heC : elder.kids.length = MAX_KEYS + 1)
    (hfull : elder.nKeys = MAX_KEYS) :
    splitElder elder = mm_node.mk elder.isLeaf (elder.nKeys / 2)
      (elder.kNodes.take (elder.nKeys / 2)
        ++ List.replicate (MAX_KEYS - elder.nKeys / 2) key_node.zero)
      (if elder.isLeaf then elder.kids
       else elder.kids.take (elder.nKeys / 2 + 1)
         ++ List.replicate (MAX_KEYS - elder.nKeys / 2) none) := by
  rw [splitElder, hfull]
  rw [MAX_KEYS] at heL heC ⊢
  norm_num
  constructor
  · rw [bzeroL, writeL, List.length_replicate]
    rw [List.drop_eq_nil_of_le (by omega)]
    rw [List.append_nil]
  · cases hl : elder.isLeaf
    · simp only [Bool.false_eq_true, if_false]
      rw [bzeroL, writeL, List.length_replicate]
      rw [List.drop_eq_nil_of_le (by omega)]
      rw [List.append_nil]
    · rfl

theorem splitYounger_closed (elder : mm_node)
    (heL : elder.kNodes.length = MAX_KEYS) (heC : elder.kids.length = MAX_KEYS + 1)
    (hfull : elder.nKeys = MAX_KEYS) :
    splitYounger elder = mm_node.mk elder.isLeaf (elder.nKeys - (elder.nKeys / 2 + 1))
      ((elder.kNodes.drop (elder.nKeys / 2 + 1)).take (elder.nKeys - (elder.nKeys / 2 + 1))
        ++ List.replicate (MAX_KEYS - (elder.nKeys - (elder.nKeys / 2 + 1))) key_node.zero)
      (if elder.isLeaf then List.replicate (MAX_KEYS + 1) none
       else (elder.kids.drop (elder.nKeys / 2 + 1)).take
           (elder.nKeys - (elder.nKeys / 2 + 1) + 1)
         ++ List.replicate (MAX_KEYS - (elder.nKeys - (elder.nKeys / 2 + 1))) none) := by
  rw [splitYounger, hfull]
  rw [MAX_KEYS] at heL heC ⊢
  norm_num
  constructor
  · rw [alloc_node, MAX_KEYS]
    simp only [mm_node.kNodes_mk]
    rw [writeL]
    have h1 : ((elder.kNodes.drop 251).take 249).length = 249 := by
      rw [List.length_take, List.length_drop, heL]
      omega
    rw [h1]
    simp only [List.take_zero, List.nil_append, Nat.zero_add, List.drop_replicate]
  · cases hl : elder.isLeaf
    · simp only [Bool.false_eq_true, if_false]
      rw [alloc_node, MAX_KEYS]
      simp only [mm_node.kids_mk]
      rw [writeL]
      have h1 : ((elder.kids.drop 251).take 250).length = 250 := by
        rw [List.length_take, List.length_drop, heC]
        omega
      rw [h1]
      simp only [List.take_zero, List.nil_append, Nat.zero_add, List.drop_replicate]
    · rw [alloc_node, MAX_KEYS]
      rfl

/-- The conclusion of claim C3, spelled out: splitNode takes
mid = elder.nKeys / 2, moves elder.kNodes[mid] up as the separator at
parent.kNodes[pos] while shifting the keys from pos and the children
from pos + 1 one slot to the right and incrementing parent.nKeys;
the truncated elder (nKeys = mid, moved-out slots zeroed) stays at
kids[pos], and the new younger sibling sits at kids[pos + 1] with
nKeys = elder.nKeys - mid - 1, the key slots elder.kNodes[mid+1 ..]
and, when not a leaf, the child slots elder.kids[mid+1 ..]; its leaf
flag is copied from elder and all its remaining slots are zero. -/
def SplitNodeSpec (parent : mm_node) (pos : Nat) (elder : mm_node) : Prop :=
  splitNode parent pos = some (mm_node.mk parent.isLeaf (parent.nKeys + 1)
    (parent.kNodes.take pos
      ++ [elder.kNodes.getD (elder.nKeys / 2) key_node.zero]
      ++ (parent.kNodes.drop pos).take (parent.nKeys - pos)
      ++ parent.kNodes.drop (parent.nKeys + 1))
    (parent.kids.take pos
      ++ [some (mm_node.mk elder.isLeaf (elder.nKeys / 2)
            (elder.kNodes.take (elder.nKeys / 2)
              ++ List.replicate (MAX_KEYS - elder.nKeys / 2) key_node.zero)
            (if elder.isLeaf then elder.kids
             else elder.kids.take (elder.nKeys / 2 + 1)
               ++ List.replicate (MAX_KEYS - elder.nKeys / 2) none))]
      ++ [some (mm_node.mk elder.isLeaf (elder.nKeys - (elder.nKeys / 2 + 1))
            ((elder.kNodes.drop (elder.nKeys / 2 + 1)).take
                (elder.nKeys - (elder.nKeys / 2 + 1))
              ++ List.replicate (MAX_KEYS - (elder.nKeys - (elder.nKeys / 2 + 1)))
                  key_node.zero)
            (if elder.isLeaf then List.replicate (MAX_KEYS + 1) none
             else (elder.kids.drop (elder.nKeys / 2 + 1)).take
                 (elder.nKeys - (elder.nKeys / 2 + 1) + 1)
               ++ List.replicate (MAX_KEYS - (elder.nKeys - (elder.nKeys / 2 + 1))) none))]
      ++ (parent.kids.drop (pos + 1)).take (parent.nKeys - pos)
      ++ parent.kids.drop (parent.nKeys + 2)))

/-- The closed form of splitNode on in-range arguments: arrays as
take/drop/append surgery.  (Also the content of claim C3.) -/
theorem splitNode_closed (parent elder : mm_node) (pos : Nat)
    (hpL : parent.kNodes.length = MAX_KEYS) (hpC : parent.kids.length = MAX_KEYS + 1)
    (heL : elder.kNodes.length = MAX_KEYS) (heC : elder.kids.length = MAX_KEYS + 1)
    (hnotfull : parent.nKeys < MAX_KEYS) (hpos : pos ≤ parent.nKeys)
    (hget : parent.kids.getD pos none = some elder)
    (hfull : elder.nKeys = MAX_KEYS) :
    SplitNodeSpec parent pos elder := by
  rw [SplitNodeSpec, splitNode_eq hget,
    ← splitElder_closed elder heL heC hfull, ← splitYounger_closed elder heL heC hfull]
  refine congrArg some ?_
  have hposL : pos < parent.kNodes.length := by omega
  have hposC : pos + 1 < parent.kids.length := by omega
  congr 1
  · rw [memmoveL, set_writeL_at _ hposL]
    have h1 : ((parent.kNodes.drop pos).take (parent.nKeys - pos)).length
        = parent.nKeys - pos := by
      rw [List.length_take, List.length_drop, hpL]
      omega
    rw [h1]
    have h2 : pos + 1 + (parent.nKeys - pos) = parent.nKeys + 1 := by omega
    rw [h2]
  · rw [memmoveL, set2_writeL_at _ _ hposC]
    have h1 : ((parent.kids.drop (pos + 1)).take (parent.nKeys - pos)).length
        = parent.nKeys - pos := by
      rw [List.length_take, List.length_drop, hpC]
      omega
    rw [h1]
    have h2 : pos + 2 + (parent.nKeys - pos) = parent.nKeys + 2 := by omega
    rw [h2]

/-- C3: for every parent node that is not full and whose child at
position pos is full, splitNode(parent, pos) performs exactly the
redistribution described by SplitNodeSpec: separator
elder.kNodes[elder.nKeys / 2] moved up at parent.kNodes[pos], parent
keys and children shifted right by one, parent.nKeys incremented, the
younger sibling at kids[pos + 1] holding the tail of elder (keys from
mid + 1, children from mid + 1 when not a leaf, leaf flag copied),
and elder truncated to mid keys with its moved-out tail slots
cleared. -/
theorem C3_splitNode_correct (parent elder : mm_node) (pos : Nat)
    (hpL : parent.kNodes.length = MAX_KEYS) (hpC : parent.kids.length = MAX_KEYS + 1)
    (heL : elder.kNodes.length = MAX_KEYS) (heC : elder.kids.length = MAX_KEYS + 1)
    (hnotfull : parent.nKeys < MAX_KEYS) (hpos : pos ≤ parent.nKeys)
    (hget : parent.kids.getD pos none = some elder)
    (hfull : elder.nKeys = MAX_KEYS) :
    SplitNodeSpec parent pos elder :=
  splitNode_closed parent elder pos hpL hpC heL heC hnotfull hpos hget hfull

/-- A concrete full leaf child for the C3 witness: 500 records with
keys 0, 1, ..., 499. -/
def c3elder : mm_node :=
  mm_node.mk true MAX_KEYS
    ((List.range MAX_KEYS).map (fun i => key_node.mk (i : Int) [0] 64))
    (List.replicate (MAX_KEYS + 1) none)

/-- A concrete non-full parent holding c3elder at position 0. -/
def c3parent : mm_node :=
  mm_node.mk false 1
    ((List.replicate MAX_KEYS key_node.zero).set 0 ⟨1000, [0], 64⟩)
    (((List.replicate (MAX_KEYS + 1) none).set 0 (some c3elder)).set 1 (some c3elder))

theorem C3_witness :
    (c3parent.kNodes.length = MAX_KEYS ∧ c3parent.kids.length = MAX_KEYS + 1 ∧
     c3elder.kNodes.length = MAX_KEYS ∧ c3elder.kids.length = MAX_KEYS + 1 ∧
     c3parent.nKeys < MAX_KEYS ∧ 0 ≤ c3parent.nKeys ∧
     c3parent.kids.getD 0 none = some c3elder ∧ c3elder.nKeys = MAX_KEYS) ∧
    SplitNodeSpec c3parent 0 c3elder := by
  have h1 : c3parent.kNodes.length = MAX_KEYS := by
    rw [c3parent]
    simp only [mm_node.kNodes_mk, List.length_set, List.length_replicate]
  have h2 : c3parent.kids.length = MAX_KEYS + 1 := by
    rw [c3parent]
    simp only [mm_node.kids_mk, List.length_set, List.length_replicate]
  have h3 : c3elder.kNodes.length = MAX_KEYS := by decide
  have h4 : c3elder.kids.length = MAX_KEYS + 1 := by
    rw [c3elder]
    simp only [mm_node.kids_mk, List.length_replicate]
  have h5 : c3parent.nKeys < MAX_KEYS := by decide
  have h7 : c3parent.kids.getD 0 none = some c3elder := by
    rw [c3parent]
    simp only [mm_node.kids_mk]
    rw [getD_set_ne _ _ (by omega),
      getD_set_eq _ _ (by rw [List.length_replicate]; omega)]
  have h8 : c3elder.nKeys = MAX_KEYS := rfl
  exact ⟨⟨h1, h2, h3, h4, h5, Nat.zero_le _, h7, h8⟩,
    C3_splitNode_correct c3parent c3elder 0 h1 h2 h3 h4 h5 (Nat.zero_le _) h7 h8⟩

/-!  The reasoning abstraction: the in-order sequence of live key
records of a subtree, and the shape invariant Good maintained by the
code.  These are proof devices, not translations of C code. -/

theorem sizeOf_take_le [SizeOf α] (l : List α) (k : Nat) : sizeOf (l.take k) ≤ sizeOf l := by
  induction l generalizing k with
  | nil => cases k <;> simp
  | cons a t ih =>
    cases k with
    | zero => simp; omega
    | succ k2 =>
      simp only [List.take_succ_cons, List.cons.sizeOf_spec]
      have := ih k2
      omega

mutual

/-- The in-order sequence of live key records of a subtree. -/
def entries : mm_node → List key_node
  | .mk true n ks _ => ks.take n
  | .mk false n ks cs => inter (ks.take n) (cs.take (n + 1))
termination_by nd => sizeOf nd
decreasing_by
  have h1 := sizeOf_take_le ks n
  have h2 := sizeOf_take_le cs (n + 1)
  simp only [mm_node.mk.sizeOf_spec]
  omega

/-- Records of an optional child (a NULL child holds nothing). -/
def entA : Option mm_node → List key_node
  | none => []
  | some nd => entries nd
termination_by o => sizeOf o
decreasing_by
  simp only [Option.some.sizeOf_spec]
  omega

/-- Interleave children and separators: child 0, key 0, child 1,
key 1, ..., key n-1, child n. -/
def inter : List key_node → List (Option mm_node) → List key_node
  | _, [] => []
  | ks, c :: cs =>
    entA c ++ (match ks with
      | [] => []
      | k :: ks2 => k :: inter ks2 cs)
termination_by ks cs => sizeOf ks + sizeOf cs
decreasing_by
  · simp only [List.cons.sizeOf_spec]
    omega
  · simp only [List.cons.sizeOf_spec]
    omega

end

@[simp] theorem entries_leaf (n : Nat) (ks : List key_node) (cs : List (Option mm_node)) :
    entries (mm_node.mk true n ks cs) = ks.take n := by
  rw [entries]

@[simp] theorem entries_node (n : Nat) (ks : List key_node) (cs : List (Option mm_node)) :
    entries (mm_node.mk false n ks cs) = inter (ks.take n) (cs.take (n + 1)) := by
  rw [entries]

@[simp] theorem entA_none : entA none = [] := by rw [entA]

@[simp] theorem entA_some (nd : mm_node) : entA (some nd) = entries nd := by rw [entA]

@[simp] theorem inter_nil_right (ks : List key_node) :
    inter ks ([] : List (Option mm_node)) = [] := by
  rw [inter]

@[simp] theorem inter_cons_cons (k : key_node) (ks : List key_node)
    (c : Option mm_node) (cs : List (Option mm_node)) :
    inter (k :: ks) (c :: cs) = entA c ++ k :: inter ks cs := by
  rw [inter]

@[simp] theorem inter_nil_cons (c : Option mm_node) (cs : List (Option mm_node)) :
    inter [] (c :: cs) = entA c := by
  rw [inter]
  simp

theorem inter_append {ks1 ks2 : List key_node} {cs1 cs2 : List (Option mm_node)}
    (h : ks1.length = cs1.length) :
    inter (ks1 ++ ks2) (cs1 ++ cs2) = inter ks1 cs1 ++ inter ks2 cs2 := by
  induction ks1 generalizing cs1 with
  | nil =>
    cases cs1 with
    | nil => simp
    | cons c cs1b => simp at h
  | cons k ks1b ih =>
    cases cs1 with
    | nil => simp at h
    | cons c cs1b =>
      simp only [List.cons_append, inter_cons_cons]
      rw [ih (by simpa using h)]
      simp

/-- Membership in an interleave. -/
theorem mem_inter {r : key_node} {ks : List key_node} {cs : List (Option mm_node)}
    (h : r ∈ inter ks cs) :
    r ∈ ks ∨ ∃ c : mm_node, some c ∈ cs ∧ r ∈ entries c := by
  induction cs generalizing ks with
  | nil => simp at h
  | cons c cs2 ih =>
    rw [inter.eq_def] at h
    rcases List.mem_append.mp h with h1 | h1
    · cases c with
      | none => simp at h1
      | some nd =>
        rw [entA_some] at h1
        exact Or.inr ⟨nd, List.mem_cons_self _ _, h1⟩
    · cases ks with
      | nil => simp at h1
      | cons k ks2 =>
        simp only at h1
        rcases List.mem_cons.mp h1 with h2 | h2
        · exact Or.inl (h2 ▸ List.mem_cons_self _ _)
        · rcases ih h2 with h3 | ⟨c2, h3, h4⟩
          · exact Or.inl (List.mem_cons_of_mem _ h3)
          · exact Or.inr ⟨c2, List.mem_cons_of_mem _ h3, h4⟩

theorem getD_eq_getElem {l : List α} {i : Nat} (d : α) (h : i < l.length) :
    l.getD i d = l[i] := by
  simp [List.getD_eq_getElem?_getD, List.getElem?_eq_getElem h]

/-- Strictness against an optional exclusive lower bound. -/
def loLt : Option Int → Int → Prop
  | none, _ => True
  | some a, k => a < k

/-- Strictness against an optional exclusive upper bound. -/
def hiGt : Option Int → Int → Prop
  | none, _ => True
  | some b, k => k < b

@[simp] theorem loLt_none (k : Int) : loLt none k := trivial

@[simp] theorem hiGt_none (k : Int) : hiGt none k := trivial

@[simp] theorem loLt_some (a k : Int) : loLt (some a) k ↔ a < k := Iff.rfl

@[simp] theorem hiGt_some (b k : Int) : hiGt (some b) k ↔ k < b := Iff.rfl

/-- The record invariant maintained by mm_add_value: every record in
the tree has been populated by at least one append, and its allocated
byte length is exactly the least multiple of LINE_SIZE computed by the
growth loop for its value count. -/
def RecOK (r : key_node) : Prop :=
  r.values ≠ [] ∧ r.alloced = allocFill 0 (r.values.length * VAL_SIZE)

/-- The exclusive lower bound for keys in child i of an internal node. -/
def bndL (lo : Option Int) (ks : List key_node) (i : Nat) : Option Int :=
  match i with
  | 0 => lo
  | j + 1 => some ((ks.getD j key_node.zero).key)

/-- The exclusive upper bound for keys in child i of an internal node
with n live keys. -/
def bndH (hi : Option Int) (ks : List key_node) (n i : Nat) : Option Int :=
  if i = n then hi else some ((ks.getD i key_node.zero).key)

/-- The shape invariant of the B-tree code, relative to exclusive key
bounds (lo, hi) and a uniform height: array lengths are the declared
capacities, 1 <= nKeys <= MAX_KEYS, the live keys are strictly
increasing and within bounds, every live record satisfies RecOK, the
stale slots are zeroed (bzero-ed by splitNode / alloc_node), leaves
have no children, and an internal node has a good child of height h
strictly between consecutive separators at every live child slot. -/
inductive Good : Option Int → Option Int → Nat → mm_node → Prop where
  | leaf (lo hi : Option Int) (n : Nat) (ks : List key_node)
      (hlen : ks.length = MAX_KEYS)
      (hn1 : 1 ≤ n) (hn2 : n ≤ MAX_KEYS)
      (hsort : ∀ i, i + 1 < n →
        (ks.getD i key_node.zero).key < (ks.getD (i + 1) key_node.zero).key)
      (hbnd : ∀ i, i < n → loLt lo (ks.getD i key_node.zero).key ∧
        hiGt hi (ks.getD i key_node.zero).key)
      (hrec : ∀ i, i < n → RecOK (ks.getD i key_node.zero))
      (hstale : ks.drop n = List.replicate (MAX_KEYS - n) key_node.zero) :
      Good lo hi 0 (mm_node.mk true n ks (List.replicate (MAX_KEYS + 1) none))
  | node (lo hi : Option Int) (h n : Nat) (ks : List key_node) (cs : List (Option mm_node))
      (hlen : ks.length = MAX_KEYS) (hlenc : cs.length = MAX_KEYS + 1)
      (hn1 : 1 ≤ n) (hn2 : n ≤ MAX_KEYS)
      (hsort : ∀ i, i + 1 < n →
        (ks.getD i key_node.zero).key < (ks.getD (i + 1) key_node.zero).key)
      (hbnd : ∀ i, i < n → loLt lo (ks.getD i key_node.zero).key ∧
        hiGt hi (ks.getD i key_node.zero).key)
      (hrec : ∀ i, i < n → RecOK (ks.getD i key_node.zero))
      (hstale : ks.drop n = List.replicate (MAX_KEYS - n) key_node.zero)
      (hstalec : cs.drop (n + 1) = List.replicate (MAX_KEYS - n) none)
      (hkids : ∀ i c, i ≤ n → cs.getD i none = some c →
        Good (bndL lo ks i) (bndH hi ks n i) h c)
      (hnn : ∀ i, i ≤ n → cs.getD i none ≠ none) :
      Good lo hi (h + 1) (mm_node.mk false n ks cs)

/-- Transitive closure of the adjacent sortedness condition. -/
theorem sort_trans {ks : List key_node} {n : Nat}
    (hsort : ∀ i, i + 1 < n →
      (ks.getD i key_node.zero).key < (ks.getD (i + 1) key_node.zero).key) :
    ∀ i j, i < j → j < n →
      (ks.getD i key_node.zero).key < (ks.getD j key_node.zero).key := by
  intro i j hij hj
  induction j with
  | zero => omega
  | succ j2 ih =>
    rcases Nat.lt_or_ge i j2 with h1 | h1
    · exact lt_trans (ih h1 (by omega)) (hsort j2 (by omega))
    · have hi : i = j2 := by omega
      rw [hi]
      exact hsort j2 (by omega)

theorem allocFill_of_ge {s t : Nat} (h : t ≤ s) : allocFill s t = s := by
  rw [allocFill, if_neg (by omega)]

theorem allocFill_ge (s t : Nat) : t ≤ allocFill s t ∧ s ≤ allocFill s t := by
  by_cases h : s < t
  · rw [allocFill, if_pos h]
    have h2 := allocFill_ge (s + LINE_SIZE) t
    rw [LINE_SIZE] at *
    omega
  · rw [allocFill, if_neg h]
    omega
termination_by t - s
decreasing_by rw [LINE_SIZE]; omega

theorem allocFill_lt {s t : Nat} (h : s < t + LINE_SIZE) :
    allocFill s t < t + LINE_SIZE := by
  by_cases h2 : s < t
  · rw [allocFill, if_pos h2]
    exact allocFill_lt (by rw [LINE_SIZE] at *; omega)
  · rw [allocFill, if_neg h2]
    omega
termination_by t - s
decreasing_by rw [LINE_SIZE] at *; omega

theorem allocFill_mod {s t : Nat} (h : s % LINE_SIZE = 0) :
    allocFill s t % LINE_SIZE = 0 := by
  by_cases h2 : s < t
  · rw [allocFill, if_pos h2]
    exact allocFill_mod (by simp only [LINE_SIZE] at *; omega)
  · rw [allocFill, if_neg h2]
    exact h
termination_by t - s
decreasing_by rw [LINE_SIZE] at *; omega

/-- The growth loop started at 0 computes the least multiple of
LINE_SIZE at least t. -/
theorem allocFill_zero_unique (t m : Nat) (h1 : m % LINE_SIZE = 0) (h2 : t ≤ m)
    (h3 : m < t + LINE_SIZE) : allocFill 0 t = m := by
  have ha := allocFill_ge 0 t
  have hb := allocFill_lt (s := 0) (t := t) (by rw [LINE_SIZE]; omega)
  have hc := allocFill_mod (s := 0) (t := t) (by rw [LINE_SIZE])
  rw [LINE_SIZE] at *
  omega

theorem appendValue_key (v : Int) (r : key_node) : (appendValue v r).key = r.key := rfl

theorem appendValue_values (v : Int) (r : key_node) :
    (appendValue v r).values = r.values ++ [v] := rfl

/-- How one append changes the allocated byte length: it grows by
exactly one LINE_SIZE exactly when the headroom of the least multiple
of LINE_SIZE at least nVals * sizeof(value) is below one value. -/
theorem appendValue_alloced (v : Int) (r : key_node) :
    (appendValue v r).alloced =
      if allocFill 0 (r.values.length * VAL_SIZE) - r.values.length * VAL_SIZE < VAL_SIZE
      then allocFill 0 (r.values.length * VAL_SIZE) + LINE_SIZE
      else r.alloced := rfl

/-- The first append to a fresh record allocates one LINE_SIZE. -/
theorem RecOK_appendValue_fresh (v : Int) (k : Int) :
    RecOK (appendValue v (key_node.mk k [] 0)) ∧
    (appendValue v (key_node.mk k [] 0)).alloced = LINE_SIZE := by
  have h0 : allocFill 0 0 = 0 := allocFill_of_ge (by omega)
  have h1 : (appendValue v (key_node.mk k [] 0)).alloced = LINE_SIZE := by
    rw [appendValue_alloced]
    simp only [List.length_nil, Nat.zero_mul, h0]
    rw [if_pos (by rw [VAL_SIZE]; omega)]
    omega
  refine ⟨⟨by simp [appendValue_values], ?_⟩, h1⟩
  rw [h1, appendValue_values]
  simp only [List.length_append, List.length_nil, List.length_cons, Nat.zero_add]
  refine (allocFill_zero_unique _ _ (by rw [LINE_SIZE]) ?_ ?_).symm
  · rw [LINE_SIZE, VAL_SIZE]
    omega
  · rw [LINE_SIZE, VAL_SIZE]
    omega

/-- Appending preserves the record invariant. -/
theorem RecOK_appendValue (v : Int) (r : key_node) (h : RecOK r) :
    RecOK (appendValue v r) := by
  obtain ⟨hne, hall⟩ := h
  have hn1 : 1 ≤ r.values.length := List.length_pos.mpr hne
  have ha := allocFill_ge 0 (r.values.length * VAL_SIZE)
  have hb := allocFill_lt (s := 0) (t := r.values.length * VAL_SIZE)
    (by rw [LINE_SIZE]; omega)
  have hc := allocFill_mod (s := 0) (t := r.values.length * VAL_SIZE)
    (by rw [LINE_SIZE])
  constructor
  · rw [appendValue_values]
    simp
  · rw [appendValue_alloced, appendValue_values, List.length_append, List.length_cons,
      List.length_nil, Nat.zero_add]
    by_cases hd : allocFill 0 (r.values.length * VAL_SIZE) - r.values.length * VAL_SIZE
        < VAL_SIZE
    · rw [if_pos hd]
      refine (allocFill_zero_unique _ _ ?_ ?_ ?_).symm
      · simp only [LINE_SIZE] at *
        omega
      · simp only [LINE_SIZE, VAL_SIZE] at *
        omega
      · simp only [LINE_SIZE, VAL_SIZE] at *
        omega
    · rw [if_neg hd, hall]
      refine (allocFill_zero_unique _ _ hc ?_ ?_).symm
      · simp only [LINE_SIZE, VAL_SIZE] at *
        omega
      · simp only [LINE_SIZE, VAL_SIZE] at *
        omega

/-- The allocated length of a well-formed nonempty record is a
positive multiple of LINE_SIZE with room for all stored values. -/
theorem RecOK_bounds (r : key_node) (h : RecOK r) :
    r.alloced % LINE_SIZE = 0 ∧ r.values.length * VAL_SIZE ≤ r.alloced ∧ 0 < r.alloced := by
  obtain ⟨hne, hall⟩ := h
  have hn1 : 1 ≤ r.values.length := List.length_pos.mpr hne
  have ha := allocFill_ge 0 (r.values.length * VAL_SIZE)
  have hc := allocFill_mod (s := 0) (t := r.values.length * VAL_SIZE)
    (by rw [LINE_SIZE])
  refine ⟨hall ▸ hc, hall ▸ ha.1, ?_⟩
  rw [hall]
  simp only [VAL_SIZE] at *
  omega

theorem loLt_trans {lo : Option Int} {a b : Int} (h1 : loLt lo a) (h2 : a < b) :
    loLt lo b := by
  cases lo with
  | none => trivial
  | some x => exact lt_trans h1 h2

theorem hiGt_trans {hi : Option Int} {a b : Int} (h1 : b < a) (h2 : hiGt hi a) :
    hiGt hi b := by
  cases hi with
  | none => trivial
  | some x => exact lt_trans h1 h2

theorem take_drop_cons {l : List α} {i n : Nat} (d : α) (hi : i < n) (hn : n ≤ l.length) :
    (l.take n).drop i = l.getD i d :: (l.take n).drop (i + 1) := by
  have h1 : i < (l.take n).length := by
    rw [List.length_take]
    omega
  rw [List.drop_eq_getElem_cons h1, List.getElem_take, getD_eq_getElem d (by omega)]

theorem inter_take_unfold {ks : List key_node} {cs : List (Option mm_node)} {n i : Nat}
    (hi : i < n) (hkn : n ≤ ks.length) (hcn : n + 1 ≤ cs.length) :
    inter ((ks.take n).drop i) ((cs.take (n + 1)).drop i) =
      entA (cs.getD i none) ++ (ks.getD i key_node.zero) ::
        inter ((ks.take n).drop (i + 1)) ((cs.take (n + 1)).drop (i + 1)) := by
  rw [take_drop_cons key_node.zero hi hkn, take_drop_cons none (by omega) hcn,
    inter_cons_cons]

theorem inter_take_last {ks : List key_node} {cs : List (Option mm_node)} {n : Nat}
    (hkn : n ≤ ks.length) (hcn : n + 1 ≤ cs.length) :
    inter ((ks.take n).drop n) ((cs.take (n + 1)).drop n) = entA (cs.getD n none) := by
  rw [take_drop_cons none (by omega) hcn]
  have h1 : (ks.take n).drop n = [] := by
    apply List.drop_eq_nil_of_le
    rw [List.length_take]
    omega
  have h2 : (cs.take (n + 1)).drop (n + 1) = [] := by
    apply List.drop_eq_nil_of_le
    rw [List.length_take]
    omega
  rw [h1, h2, inter_nil_cons]

/-- A Good subtree has a nonempty, strictly sorted entry sequence whose
keys lie strictly between the bounds, with every record well formed. -/
theorem good_entries {lo hi : Option Int} {hh : Nat} {nd : mm_node}
    (hg : Good lo hi hh nd) :
    entries nd ≠ [] ∧
    (∀ r, r ∈ entries nd → loLt lo r.key ∧ hiGt hi r.key ∧ RecOK r) ∧
    (entries nd).Pairwise (fun a b => a.key < b.key) := by
  induction hg with
  | leaf lo hi n ks hlen hn1 hn2 hsort hbnd hrec hstale =>
    rw [entries_leaf]
    have hlen2 : (ks.take n).length = n := by
      rw [List.length_take]
      omega
    refine ⟨?_, ?_, ?_⟩
    · intro hcon
      rw [← List.length_eq_zero] at hcon
      omega
    · intro r hr
      rcases List.mem_iff_getElem.mp hr with ⟨i, hilt, hieq⟩
      have hirw : (ks.take n)[i] = ks.getD i key_node.zero := by
        rw [List.getElem_take, getD_eq_getElem key_node.zero (by omega)]
      rw [← hieq, hirw]
      have hb := hbnd i (by omega)
      exact ⟨hb.1, hb.2, hrec i (by omega)⟩
    · rw [List.pairwise_iff_getElem]
      intro i j hi hj hij
      have hirw : (ks.take n)[i] = ks.getD i key_node.zero := by
        rw [List.getElem_take, getD_eq_getElem key_node.zero (by omega)]
      have hjrw : (ks.take n)[j] = ks.getD j key_node.zero := by
        rw [List.getElem_take, getD_eq_getElem key_node.zero (by omega)]
      rw [hirw, hjrw]
      exact sort_trans hsort i j hij (by omega)
  | node lo hi h n ks cs hlen hlenc hn1 hn2 hsort hbnd hrec hstale hstalec hkids hnn IH =>
    have hkey_bndL : ∀ i, i < n → loLt (bndL lo ks i) (ks.getD i key_node.zero).key := by
      intro i hi
      cases i with
      | zero => exact (hbnd 0 (by omega)).1
      | succ j =>
        rw [bndL]
        exact hsort j (by omega)
    have main : ∀ d i, i + d = n →
        inter ((ks.take n).drop i) ((cs.take (n + 1)).drop i) ≠ [] ∧
        (∀ r, r ∈ inter ((ks.take n).drop i) ((cs.take (n + 1)).drop i) →
          loLt (bndL lo ks i) r.key ∧ hiGt hi r.key ∧ RecOK r) ∧
        (inter ((ks.take n).drop i) ((cs.take (n + 1)).drop i)).Pairwise
          (fun a b => a.key < b.key) := by
      intro d
      induction d with
      | zero =>
        intro i hieq
        have hin : n = i := by omega
        subst hin
        rw [inter_take_last (by omega) (by omega)]
        cases hcn : cs.getD n none with
        | none => exact absurd hcn (hnn n (by omega))
        | some c =>
          rw [entA_some]
          have hgood := hkids n c (by omega) hcn
          have hc := IH n c (by omega) hcn
          have hbh : bndH hi ks n n = hi := by
            rw [bndH, if_pos rfl]
          rw [hbh] at hc
          exact hc
      | succ d2 ihd =>
        intro i hieq
        have hin : i < n := by omega
        have hQ := ihd (i + 1) (by omega)
        rw [inter_take_unfold hin (by omega) (by omega)]
        cases hcn : cs.getD i none with
        | none => exact absurd hcn (hnn i (by omega))
        | some c =>
          rw [entA_some]
          have hgood := hkids i c (by omega) hcn
          have hc := IH i c (by omega) hcn
          have hbh : bndH hi ks n i = some (ks.getD i key_node.zero).key := by
            rw [bndH, if_neg (by omega)]
          rw [hbh] at hc
          have hbl1 : bndL lo ks (i + 1) = some (ks.getD i key_node.zero).key := by
            rw [bndL]
          rw [hbl1] at hQ
          obtain ⟨hcne, hcmem, hcpair⟩ := hc
          obtain ⟨hqne, hqmem, hqpair⟩ := hQ
          have hki := hbnd i hin
          refine ⟨by simp, ?_, ?_⟩
          · intro r hr
            rcases List.mem_append.mp hr with h1 | h1
            · have := hcmem r h1
              exact ⟨this.1, hiGt_trans this.2.1 hki.2, this.2.2⟩
            · rcases List.mem_cons.mp h1 with h2 | h2
              · rw [h2]
                exact ⟨hkey_bndL i hin, hki.2, hrec i hin⟩
              · have := hqmem r h2
                have hgt : (ks.getD i key_node.zero).key < r.key := this.1
                exact ⟨loLt_trans (hkey_bndL i hin) hgt,
                  this.2.1, this.2.2⟩
          · rw [List.pairwise_append]
            refine ⟨hcpair, ?_, ?_⟩
            · rw [List.pairwise_cons]
              refine ⟨?_, hqpair⟩
              intro b hb
              exact (hqmem b hb).1
            · intro a ha b hb
              have halt : a.key < (ks.getD i key_node.zero).key := (hcmem a ha).2.1
              rcases List.mem_cons.mp hb with h2 | h2
              · rw [h2]
                exact halt
              · exact lt_trans halt (hqmem b h2).1
    have h0 := main n 0 (by omega)
    rw [List.drop_zero, List.drop_zero] at h0
    have hbl0 : bndL lo ks 0 = lo := by rw [bndL]
    rw [hbl0] at h0
    rw [entries_node]
    exact h0

/-!  The abstract sorted-sequence view of lookups and inserts. -/

/-- Look up the first record with the given key in a record sequence. -/
def lookupE : List key_node → Int → Option key_node
  | [], _ => none
  | r :: rs, k => if r.key = k then some r else lookupE rs k

/-- The abstract effect on the in-order record sequence of a
find-or-create of key k followed by the pending record update u. -/
def upsert (u : key_node → key_node) (k : Int) : List key_node → List key_node
  | [] => [u (key_node.mk k [] 0)]
  | r :: rs =>
    if k < r.key then u (key_node.mk k [] 0) :: r :: rs
    else if r.key = k then u r :: rs
    else r :: upsert u k rs

@[simp] theorem lookupE_nil (k : Int) : lookupE [] k = none := by rw [lookupE]

theorem lookupE_cons (r : key_node) (rs : List key_node) (k : Int) :
    lookupE (r :: rs) k = if r.key = k then some r else lookupE rs k := by
  rw [lookupE]

theorem lookupE_none_of_forall {l : List key_node} {k : Int}
    (h : ∀ r, r ∈ l → r.key ≠ k) : lookupE l k = none := by
  induction l with
  | nil => simp
  | cons r rs ih =>
    rw [lookupE_cons, if_neg (h r (List.mem_cons_self _ _))]
    exact ih fun r2 hr2 => h r2 (List.mem_cons_of_mem _ hr2)

theorem lookupE_some_mem {l : List key_node} {k : Int} {r : key_node}
    (h : lookupE l k = some r) : r ∈ l ∧ r.key = k := by
  induction l with
  | nil => simp at h
  | cons a rs ih =>
    rw [lookupE_cons] at h
    by_cases ha : a.key = k
    · rw [if_pos ha] at h
      cases h
      exact ⟨List.mem_cons_self _ _, ha⟩
    · rw [if_neg ha] at h
      have := ih h
      exact ⟨List.mem_cons_of_mem _ this.1, this.2⟩

theorem lookupE_append_none {l1 l2 : List key_node} {k : Int}
    (h : ∀ r, r ∈ l1 → r.key ≠ k) : lookupE (l1 ++ l2) k = lookupE l2 k := by
  induction l1 with
  | nil => simp
  | cons r rs ih =>
    rw [List.cons_append, lookupE_cons, if_neg (h r (List.mem_cons_self _ _))]
    exact ih fun r2 hr2 => h r2 (List.mem_cons_of_mem _ hr2)

theorem lookupE_append_some {l1 l2 : List key_node} {k : Int} {r : key_node}
    (h : lookupE l1 k = some r) : lookupE (l1 ++ l2) k = some r := by
  induction l1 with
  | nil => simp at h
  | cons a rs ih =>
    rw [lookupE_cons] at h
    rw [List.cons_append, lookupE_cons]
    by_cases ha : a.key = k
    · rw [if_pos ha] at h ⊢
      exact h
    · rw [if_neg ha] at h ⊢
      exact ih h

/-- In a strictly sorted sequence, lookup finds exactly the member with
the key. -/
theorem lookupE_of_mem_sorted {l : List key_node} {r : key_node}
    (hpair : l.Pairwise (fun a b => a.key < b.key)) (hr : r ∈ l) :
    lookupE l r.key = some r := by
  induction l with
  | nil => simp at hr
  | cons a rs ih =>
    rw [List.pairwise_cons] at hpair
    rw [lookupE_cons]
    rcases List.mem_cons.mp hr with h1 | h1
    · rw [h1, if_pos rfl]
    · have hlt : a.key < r.key := hpair.1 r h1
      rw [if_neg (by omega)]
      exact ih hpair.2 h1

theorem upsert_nil (u : key_node → key_node) (k : Int) :
    upsert u k [] = [u (key_node.mk k [] 0)] := by rw [upsert]

theorem upsert_cons (u : key_node → key_node) (k : Int) (r : key_node)
    (rs : List key_node) :
    upsert u k (r :: rs) =
      if k < r.key then u (key_node.mk k [] 0) :: r :: rs
      else if r.key = k then u r :: rs
      else r :: upsert u k rs := by
  rw [upsert]

/-- Insertion in front when every element is above the key. -/
theorem upsert_all_gt {l : List key_node} {k : Int} (u : key_node → key_node)
    (h : ∀ r, r ∈ l → k < r.key) :
    upsert u k l = u (key_node.mk k [] 0) :: l := by
  cases l with
  | nil => rw [upsert_nil]
  | cons r rs =>
    rw [upsert_cons, if_pos (h r (List.mem_cons_self _ _))]

theorem upsert_append_left {l1 l2 : List key_node} {k : Int} (u : key_node → key_node)
    (h : ∀ r, r ∈ l1 → r.key < k) :
    upsert u k (l1 ++ l2) = l1 ++ upsert u k l2 := by
  induction l1 with
  | nil => simp
  | cons r rs ih =>
    have hr := h r (List.mem_cons_self _ _)
    rw [List.cons_append, upsert_cons, if_neg (by omega), if_neg (by omega)]
    rw [ih fun r2 hr2 => h r2 (List.mem_cons_of_mem _ hr2)]
    simp

theorem upsert_append_right {l1 l2 : List key_node} {k : Int} (u : key_node → key_node)
    (h : ∀ r, r ∈ l2 → k < r.key) (hne : l1 ≠ []) :
    upsert u k (l1 ++ l2) = upsert u k l1 ++ l2 := by
  induction l1 with
  | nil => exact absurd rfl hne
  | cons r rs ih =>
    rw [List.cons_append, upsert_cons, upsert_cons]
    by_cases h1 : k < r.key
    · rw [if_pos h1, if_pos h1]
      simp
    · rw [if_neg h1, if_neg h1]
      by_cases h2 : r.key = k
      · rw [if_pos h2, if_pos h2]
        simp
      · rw [if_neg h2, if_neg h2]
        cases rs with
        | nil =>
          rw [List.nil_append, upsert_nil, upsert_all_gt u h]
          simp
        | cons r2 rs2 =>
          rw [List.cons_append]
          rw [← List.cons_append, ih (by simp)]
          simp

/-- Replacement in place when the head below pos is all below the key
and the record at pos carries the key. -/
theorem upsert_found {l : List key_node} {pos : Nat} {k : Int} (u : key_node → key_node)
    (hpos : pos < l.length) (hkey : (l.getD pos key_node.zero).key = k)
    (hbefore : ∀ j, j < pos → (l.getD j key_node.zero).key < k) :
    upsert u k l = l.set pos (u (l.getD pos key_node.zero)) := by
  induction l generalizing pos with
  | nil => simp at hpos
  | cons r rs ih =>
    cases pos with
    | zero =>
      rw [List.getD_cons_zero] at hkey
      rw [upsert_cons, if_neg (by omega), if_pos hkey, List.getD_cons_zero, List.set_cons_zero]
    | succ pos2 =>
      have hr := hbefore 0 (by omega)
      rw [List.getD_cons_zero] at hr
      rw [List.getD_cons_succ] at hkey
      rw [upsert_cons, if_neg (by omega), if_neg (by omega), List.getD_cons_succ,
        List.set_cons_succ]
      rw [ih (by simpa using hpos) hkey]
      intro j hj
      have := hbefore (j + 1) (by omega)
      rwa [List.getD_cons_succ] at this

/-!  Branch equations for searchAndInsert. -/

theorem searchAndInsert_found (u : key_node → key_node) (node : mm_node) (key : Int)
    (create : Bool)
    (hf : searchInNode node key < node.nKeys ∧
      (node.kNodes.getD (searchInNode node key) key_node.zero).key = key) :
    searchAndInsert u node key create =
      some (some (u (node.kNodes.getD (searchInNode node key) key_node.zero)),
        mm_node.mk node.isLeaf node.nKeys
          (node.kNodes.set (searchInNode node key)
            (u (node.kNodes.getD (searchInNode node key) key_node.zero))) node.kids, 0) := by
  rw [searchAndInsert, if_pos hf]

theorem searchAndInsert_leaf_create (u : key_node → key_node) (node : mm_node) (key : Int)
    (hnf : ¬(searchInNode node key < node.nKeys ∧
      (node.kNodes.getD (searchInNode node key) key_node.zero).key = key))
    (hleaf : node.isLeaf = true) :
    searchAndInsert u node key true =
      some (some (u { key_node.zero with key := key }),
        mm_node.mk node.isLeaf (node.nKeys + 1)
          ((memmoveL node.kNodes (searchInNode node key + 1) (searchInNode node key)
            (node.nKeys - searchInNode node key)).set (searchInNode node key)
            (u { key_node.zero with key := key })) node.kids, 0) := by
  rw [searchAndInsert, if_neg hnf, dif_pos hleaf, if_pos rfl]

theorem searchAndInsert_leaf_nocreate (u : key_node → key_node) (node : mm_node) (key : Int)
    (hnf : ¬(searchInNode node key < node.nKeys ∧
      (node.kNodes.getD (searchInNode node key) key_node.zero).key = key))
    (hleaf : node.isLeaf = true) :
    searchAndInsert u node key false = some (none, node, 0) := by
  rw [searchAndInsert, if_neg hnf, dif_pos hleaf]
  rfl

theorem searchAndInsert_null_child (u : key_node → key_node) (node : mm_node) (key : Int)
    (create : Bool)
    (hnf : ¬(searchInNode node key < node.nKeys ∧
      (node.kNodes.getD (searchInNode node key) key_node.zero).key = key))
    (hleaf : node.isLeaf = false)
    (hnx : node.kids.getD (searchInNode node key) none = none) :
    searchAndInsert u node key create = none := by
  rw [searchAndInsert, if_neg hnf, dif_neg (by rw [hleaf]; exact Bool.false_ne_true)]
  split
  · rfl
  · rename_i nextNode heq
    rw [hnx] at heq
    cases heq

theorem searchAndInsert_descend (u : key_node → key_node) (node : mm_node) (key : Int)
    (create : Bool) (nextNode : mm_node)
    (hnf : ¬(searchInNode node key < node.nKeys ∧
      (node.kNodes.getD (searchInNode node key) key_node.zero).key = key))
    (hleaf : node.isLeaf = false)
    (hnx : node.kids.getD (searchInNode node key) none = some nextNode)
    (hncf : ¬(create = true ∧ nextNode.nKeys = MAX_KEYS)) :
    searchAndInsert u node key create =
      (searchAndInsert u nextNode key create).map
        (fun x => (x.1, mm_node.mk node.isLeaf node.nKeys node.kNodes
          (node.kids.set (searchInNode node key) (some x.2.1)), x.2.2)) := by
  rw [searchAndInsert, if_neg hnf, dif_neg (by rw [hleaf]; exact Bool.false_ne_true)]
  split
  · rename_i heq
    rw [hnx] at heq
    cases heq
  · rename_i nextNode2 heq
    rw [hnx] at heq
    cases heq
    rw [dif_neg hncf]

theorem searchAndInsert_split (u : key_node → key_node) (node : mm_node) (key : Int)
    (create : Bool) (nextNode node2 : mm_node)
    (hnf : ¬(searchInNode node key < node.nKeys ∧
      (node.kNodes.getD (searchInNode node key) key_node.zero).key = key))
    (hleaf : node.isLeaf = false)
    (hnx : node.kids.getD (searchInNode node key) none = some nextNode)
    (hcf : create = true ∧ nextNode.nKeys = MAX_KEYS)
    (hsp : splitNode node (searchInNode node key) = some node2) :
    searchAndInsert u node key create =
      (searchAndInsert u node2 key create).map (fun x => (x.1, x.2.1, x.2.2 + 1)) := by
  rw [searchAndInsert, if_neg hnf, dif_neg (by rw [hleaf]; exact Bool.false_ne_true)]
  split
  · rename_i heq
    rw [hnx] at heq
    cases heq
  · rename_i nextNode2 heq
    rw [hnx] at heq
    cases heq
    rw [dif_pos hcf]
    split
    · rename_i heq2
      rw [hsp] at heq2
      cases heq2
    · rename_i node3 heq2
      rw [hsp] at heq2
      cases heq2
      rfl

/-!  Index views of take/drop membership and the prefix/suffix
decomposition of an interleave at a scan position. -/

theorem mem_take_drop_index {l : List α} {n i : Nat} {a : α} (d : α)
    (h : a ∈ (l.take n).drop i) :
    ∃ j, i ≤ j ∧ j < n ∧ j < l.length ∧ l.getD j d = a := by
  rcases List.mem_iff_getElem.mp h with ⟨m, hm, heq⟩
  have hm2 : m < ((l.take n).drop i).length := hm
  rw [List.length_drop, List.length_take] at hm2
  have hga : ((l.take n).drop i).getD m d = a := by
    rw [getD_eq_getElem d hm, heq]
  rw [getD_drop, getD_take d (by omega)] at hga
  exact ⟨i + m, by omega, by omega, by omega, hga⟩

theorem mem_take_index {l : List α} {n : Nat} {a : α} (d : α) (h : a ∈ l.take n) :
    ∃ j, j < n ∧ j < l.length ∧ l.getD j d = a := by
  have h2 : a ∈ (l.take n).drop 0 := by rwa [List.drop_zero]
  rcases mem_take_drop_index d h2 with ⟨j, _, h1, h2, h3⟩
  exact ⟨j, h1, h2, h3⟩

/-- Split the interleave of the live slots at scan position i. -/
theorem inter_split {ks : List key_node} {cs : List (Option mm_node)} {n i : Nat}
    (hi : i ≤ n) (hkn : n ≤ ks.length) (hcn : n + 1 ≤ cs.length) :
    inter (ks.take n) (cs.take (n + 1)) =
      inter (ks.take i) (cs.take i) ++
        inter ((ks.take n).drop i) ((cs.take (n + 1)).drop i) := by
  have h1 : (ks.take n).take i = ks.take i := by
    rw [List.take_take]
    congr 1
    omega
  have h2 : (cs.take (n + 1)).take i = cs.take i := by
    rw [List.take_take]
    congr 1
    omega
  conv_lhs => rw [← List.take_append_drop i (ks.take n)]
  conv_lhs => rw [← List.take_append_drop i (cs.take (n + 1))]
  rw [inter_append (by
    rw [List.length_take, List.length_take, List.length_take, List.length_take]
    omega)]
  rw [h1, h2]

/-- Keys strictly before the scan bound at slot i are below anything the
lower bound of child i is below. -/
theorem keys_lt_of_bndL {lo : Option Int} {n : Nat} {ks : List key_node} {i : Nat}
    {k2 : Int}
    (hsort : ∀ a, a + 1 < n →
      (ks.getD a key_node.zero).key < (ks.getD (a + 1) key_node.zero).key)
    (hi : i ≤ n) (hk2 : loLt (bndL lo ks i) k2) :
    ∀ j, j < i → (ks.getD j key_node.zero).key < k2 := by
  intro j hj
  cases i with
  | zero => omega
  | succ m =>
    rw [bndL] at hk2
    simp only [loLt_some] at hk2
    rcases Nat.lt_or_ge j m with h1 | h1
    · exact lt_trans (sort_trans hsort j m h1 (by omega)) hk2
    · have hjm : j = m := by omega
      rw [hjm]
      exact hk2

/-- Every record in the interleave prefix before slot i has its key
below anything the lower bound of child i is below. -/
theorem inter_prefix_keys_lt {lo hi : Option Int} {hch n : Nat} {ks : List key_node}
    {cs : List (Option mm_node)} {i : Nat} {k2 : Int}
    (hsort : ∀ a, a + 1 < n →
      (ks.getD a key_node.zero).key < (ks.getD (a + 1) key_node.zero).key)
    (hkids : ∀ a c, a ≤ n → cs.getD a none = some c →
      Good (bndL lo ks a) (bndH hi ks n a) hch c)
    (hin : i ≤ n) (hk2 : loLt (bndL lo ks i) k2) :
    ∀ r, r ∈ inter (ks.take i) (cs.take i) → r.key < k2 := by
  have hkey := keys_lt_of_bndL hsort hin hk2
  intro r hr
  rcases mem_inter hr with hks | ⟨c, hc, hrc⟩
  · rcases mem_take_index key_node.zero hks with ⟨j, hj, hjl, hjeq⟩
    rw [← hjeq]
    exact hkey j hj
  · rcases mem_take_index none hc with ⟨j, hj, hjl, hjeq⟩
    have hgood := hkids j c (by omega) hjeq
    have hent := ((good_entries hgood).2.1 r hrc).2.1
    have hbh : bndH hi ks n j = some (ks.getD j key_node.zero).key := by
      rw [bndH, if_neg (by omega)]
    rw [hbh] at hent
    simp only [hiGt_some] at hent
    exact lt_trans hent (hkey j hj)

/-- Every record in the interleave suffix from slot i on has its key
above the lower bound of child i. -/
theorem inter_suffix_keys_gt {lo hi : Option Int} {hch n : Nat} {ks : List key_node}
    {cs : List (Option mm_node)} {i : Nat}
    (hkn : n ≤ ks.length)
    (hsort : ∀ a, a + 1 < n →
      (ks.getD a key_node.zero).key < (ks.getD (a + 1) key_node.zero).key)
    (hbnd : ∀ a, a < n → loLt lo (ks.getD a key_node.zero).key ∧
      hiGt hi (ks.getD a key_node.zero).key)
    (hkids : ∀ a c, a ≤ n → cs.getD a none = some c →
      Good (bndL lo ks a) (bndH hi ks n a) hch c)
    (hin : i ≤ n) :
    ∀ r, r ∈ inter ((ks.take n).drop i) ((cs.take (n + 1)).drop i) →
      loLt (bndL lo ks i) r.key := by
  have hkey_ge : ∀ j, i ≤ j → j < n →
      loLt (bndL lo ks i) (ks.getD j key_node.zero).key := by
    intro j hij hjn
    cases i with
    | zero =>
      rw [bndL]
      exact (hbnd j hjn).1
    | succ m =>
      rw [bndL]
      simp only [loLt_some]
      exact sort_trans hsort m j (by omega) hjn
  intro r hr
  rcases mem_inter hr with hks | ⟨c, hc, hrc⟩
  · rcases mem_take_drop_index key_node.zero hks with ⟨j, hij, hjn, hjl, hjeq⟩
    rw [← hjeq]
    exact hkey_ge j hij hjn
  · rcases mem_take_drop_index none hc with ⟨j, hij, hjn, hjl, hjeq⟩
    have hgood := hkids j c (by omega) hjeq
    have hent := ((good_entries hgood).2.1 r hrc).1
    rcases Nat.eq_or_lt_of_le hij with heq | hlt
    · rw [heq]
      exact hent
    · cases j with
      | zero => omega
      | succ m =>
        rw [bndL] at hent
        simp only [loLt_some] at hent
        exact loLt_trans (hkey_ge m (by omega) (by omega)) hent

theorem lookupE_none_forall {l : List key_node} {k : Int} (h : lookupE l k = none) :
    ∀ r, r ∈ l → r.key ≠ k := by
  induction l with
  | nil => simp
  | cons a rs ih =>
    rw [lookupE_cons] at h
    by_cases ha : a.key = k
    · rw [if_pos ha] at h
      cases h
    · rw [if_neg ha] at h
      intro r hr
      rcases List.mem_cons.mp hr with h1 | h1
      · rw [h1]
        exact ha
      · exact ih h r h1

/-- Lookup in a three-part sequence where the flanks never carry the
key. -/
theorem lookupE_middle {l1 l2 l3 : List key_node} {k : Int}
    (h1 : ∀ r, r ∈ l1 → r.key ≠ k) (h3 : ∀ r, r ∈ l3 → r.key ≠ k) :
    lookupE (l1 ++ l2 ++ l3) k = lookupE l2 k := by
  rw [List.append_assoc, lookupE_append_none h1]
  cases hl : lookupE l2 k with
  | none =>
    rw [lookupE_append_none (lookupE_none_forall hl), lookupE_none_of_forall h3]
  | some r =>
    rw [lookupE_append_some hl]

/-!  The pure lookup path: with the identity update and create = 0,
searchAndInsert returns exactly the record lookupE finds in the
in-order sequence, hands the subtree back unchanged, and never calls
alloc_node. -/

theorem searchAndInsert_lookup {lo hi : Option Int} {hh : Nat} {node : mm_node} {key : Int}
    (hg : Good lo hi hh node) :
    loLt lo key → hiGt hi key →
    searchAndInsert (fun r => r) node key false =
      some (lookupE (entries node) key, node, 0) := by
  induction hg with
  | leaf lo hi n ks hlen hn1 hn2 hsort hbnd hrec hstale =>
    intro hlo hhi
    have hg2 : Good lo hi 0 (mm_node.mk true n ks (List.replicate (MAX_KEYS + 1) none)) :=
      Good.leaf lo hi n ks hlen hn1 hn2 hsort hbnd hrec hstale
    have hpair := (good_entries hg2).2.2
    rw [entries_leaf] at hpair
    by_cases hf : searchInNode (mm_node.mk true n ks (List.replicate (MAX_KEYS + 1) none)) key
          < (mm_node.mk true n ks (List.replicate (MAX_KEYS + 1) none)).nKeys ∧
        ((mm_node.mk true n ks (List.replicate (MAX_KEYS + 1) none)).kNodes.getD
          (searchInNode (mm_node.mk true n ks (List.replicate (MAX_KEYS + 1) none)) key)
          key_node.zero).key = key
    · rw [searchAndInsert_found _ _ _ _ hf]
      simp only [searchInNode_mk, mm_node.nKeys_mk, mm_node.kNodes_mk] at hf
      obtain ⟨hf1, hf2⟩ := hf
      have hposlen : searchInKeys key (ks.take n) < (ks.take n).length := by
        rw [List.length_take]
        omega
      have hmem : ks.getD (searchInKeys key (ks.take n)) key_node.zero ∈ ks.take n := by
        have hEq : (ks.take n).get ⟨searchInKeys key (ks.take n), hposlen⟩ =
            ks.getD (searchInKeys key (ks.take n)) key_node.zero := by
          rw [List.get_eq_getElem, List.getElem_take,
            getD_eq_getElem key_node.zero (by omega)]
        exact hEq ▸ List.get_mem _ _ _
      have hlk : lookupE (ks.take n) key =
          some (ks.getD (searchInKeys key (ks.take n)) key_node.zero) := by
        have hlk0 := lookupE_of_mem_sorted hpair hmem
        rwa [hf2] at hlk0
      simp only [searchInNode_mk, mm_node.nKeys_mk, mm_node.kNodes_mk, mm_node.kids_mk,
        mm_node.isLeaf_mk, entries_leaf, hlk, set_getD_self]
    · rw [searchAndInsert_leaf_nocreate _ _ _ hf rfl]
      simp only [searchInNode_mk, mm_node.nKeys_mk, mm_node.kNodes_mk] at hf
      have hnone : lookupE (ks.take n) key = none := by
        apply lookupE_none_of_forall
        intro r hr
        rcases mem_take_index key_node.zero hr with ⟨j, hj, hjl, hjeq⟩
        rw [← hjeq]
        rcases Nat.lt_or_ge j (searchInKeys key (ks.take n)) with h1 | h1
        · have hbef := searchInKeys_before h1
          rw [getD_take key_node.zero hj] at hbef
          omega
        · have hposn : searchInKeys key (ks.take n) < n := by omega
          have hat : key ≤ ((ks.take n).getD (searchInKeys key (ks.take n))
              key_node.zero).key :=
            searchInKeys_at (by rw [List.length_take]; omega)
          rw [getD_take key_node.zero hposn] at hat
          have hne : (ks.getD (searchInKeys key (ks.take n)) key_node.zero).key ≠ key :=
            fun hcon => hf ⟨hposn, hcon⟩
          rcases Nat.eq_or_lt_of_le h1 with h2 | h2
          · rw [← h2]
            exact hne
          · have hst := sort_trans hsort _ j h2 hj
            omega
      rw [entries_leaf, hnone]
  | node lo hi h n ks cs hlen hlenc hn1 hn2 hsort hbnd hrec hstale hstalec hkids hnn IH =>
    intro hlo hhi
    have hg2 : Good lo hi (h + 1) (mm_node.mk false n ks cs) :=
      Good.node lo hi h n ks cs hlen hlenc hn1 hn2 hsort hbnd hrec hstale hstalec hkids hnn
    have hpair := (good_entries hg2).2.2
    rw [entries_node] at hpair
    by_cases hf : searchInNode (mm_node.mk false n ks cs) key
          < (mm_node.mk false n ks cs).nKeys ∧
        ((mm_node.mk false n ks cs).kNodes.getD
          (searchInNode (mm_node.mk false n ks cs) key) key_node.zero).key = key
    · rw [searchAndInsert_found _ _ _ _ hf]
      simp only [searchInNode_mk, mm_node.nKeys_mk, mm_node.kNodes_mk] at hf
      obtain ⟨hf1, hf2⟩ := hf
      have hsp : inter (ks.take n) (cs.take (n + 1)) =
          inter (ks.take (searchInKeys key (ks.take n)))
              (cs.take (searchInKeys key (ks.take n))) ++
            inter ((ks.take n).drop (searchInKeys key (ks.take n)))
              ((cs.take (n + 1)).drop (searchInKeys key (ks.take n))) :=
        inter_split (le_of_lt hf1) (by omega) (by omega)
      have hun : inter ((ks.take n).drop (searchInKeys key (ks.take n)))
            ((cs.take (n + 1)).drop (searchInKeys key (ks.take n))) =
          entA (cs.getD (searchInKeys key (ks.take n)) none) ++
            (ks.getD (searchInKeys key (ks.take n)) key_node.zero) ::
            inter ((ks.take n).drop (searchInKeys key (ks.take n) + 1))
              ((cs.take (n + 1)).drop (searchInKeys key (ks.take n) + 1)) :=
        inter_take_unfold hf1 (by omega) (by omega)
      have hmem : ks.getD (searchInKeys key (ks.take n)) key_node.zero ∈
          inter (ks.take n) (cs.take (n + 1)) := by
        rw [hsp, hun]
        simp [List.mem_append]
      have hlk : lookupE (inter (ks.take n) (cs.take (n + 1))) key =
          some (ks.getD (searchInKeys key (ks.take n)) key_node.zero) := by
        have hlk0 := lookupE_of_mem_sorted hpair hmem
        rwa [hf2] at hlk0
      simp only [searchInNode_mk, mm_node.nKeys_mk, mm_node.kNodes_mk, mm_node.kids_mk,
        mm_node.isLeaf_mk, entries_node, hlk, set_getD_self]
    · simp only [searchInNode_mk, mm_node.nKeys_mk, mm_node.kNodes_mk] at hf
      have hposle : searchInKeys key (ks.take n) ≤ n := by
        have hle := searchInKeys_le_length key (ks.take n)
        rw [List.length_take] at hle
        omega
      have hidx : searchInKeys key (ks.take n) = n ∨
          (searchInKeys key (ks.take n) < n ∧
            key < (ks.getD (searchInKeys key (ks.take n)) key_node.zero).key) := by
        rcases Nat.eq_or_lt_of_le hposle with heq | hlt
        · exact Or.inl heq
        · right
          refine ⟨hlt, ?_⟩
          have hat : key ≤ ((ks.take n).getD (searchInKeys key (ks.take n))
              key_node.zero).key :=
            searchInKeys_at (by rw [List.length_take]; omega)
          rw [getD_take key_node.zero hlt] at hat
          have hne : (ks.getD (searchInKeys key (ks.take n)) key_node.zero).key ≠ key :=
            fun hcon => hf ⟨hlt, hcon⟩
          omega
      have hblo : loLt (bndL lo ks (searchInKeys key (ks.take n))) key := by
        cases hpos : searchInKeys key (ks.take n) with
        | zero =>
          rw [bndL]
          exact hlo
        | succ m =>
          rw [bndL]
          simp only [loLt_some]
          have hm : m < searchInKeys key (ks.take n) := by omega
          have hbef := searchInKeys_before hm
          rw [getD_take key_node.zero (by omega)] at hbef
          exact hbef
      have hbhi : hiGt (bndH hi ks n (searchInKeys key (ks.take n))) key := by
        rcases hidx with heq | ⟨hlt, hklt⟩
        · rw [bndH, if_pos heq]
          exact hhi
        · rw [bndH, if_neg (by omega)]
          simp only [hiGt_some]
          exact hklt
      cases hcn : cs.getD (searchInKeys key (ks.take n)) none with
      | none => exact absurd hcn (hnn _ hposle)
      | some c =>
        have hcn2 : (mm_node.mk false n ks cs).kids.getD
            (searchInNode (mm_node.mk false n ks cs) key) none = some c := hcn
        rw [searchAndInsert_descend (fun r => r) (mm_node.mk false n ks cs) key false c
          hf rfl hcn2 (by simp)]
        rw [IH _ c hposle hcn hblo hbhi]
        simp only [Option.map_some']
        simp only [searchInNode_mk, mm_node.nKeys_mk, mm_node.kNodes_mk, mm_node.kids_mk,
          mm_node.isLeaf_mk]
        rw [← hcn, set_getD_self]
        have hdec : lookupE (inter (ks.take n) (cs.take (n + 1))) key =
            lookupE (entries c) key := by
          rcases hidx with heq | ⟨hlt, hklt⟩
          · have hsp : inter (ks.take n) (cs.take (n + 1)) =
                inter (ks.take (searchInKeys key (ks.take n)))
                    (cs.take (searchInKeys key (ks.take n))) ++
                  inter ((ks.take n).drop (searchInKeys key (ks.take n)))
                    ((cs.take (n + 1)).drop (searchInKeys key (ks.take n))) :=
              inter_split hposle (by omega) (by omega)
            have hlast : inter ((ks.take n).drop n) ((cs.take (n + 1)).drop n) =
                entA (cs.getD n none) :=
              inter_take_last (by omega) (by omega)
            have hcnn : cs.getD n none = some c := heq ▸ hcn
            rw [hsp, heq, hlast, hcnn, entA_some]
            apply lookupE_append_none
            intro r hr
            have hrk : r.key < key :=
              inter_prefix_keys_lt hsort hkids hposle hblo r (by rw [← heq] at hr; exact hr)
            omega
          · have hsp : inter (ks.take n) (cs.take (n + 1)) =
                inter (ks.take (searchInKeys key (ks.take n)))
                    (cs.take (searchInKeys key (ks.take n))) ++
                  inter ((ks.take n).drop (searchInKeys key (ks.take n)))
                    ((cs.take (n + 1)).drop (searchInKeys key (ks.take n))) :=
              inter_split hposle (by omega) (by omega)
            have hun : inter ((ks.take n).drop (searchInKeys key (ks.take n)))
                  ((cs.take (n + 1)).drop (searchInKeys key (ks.take n))) =
                entA (cs.getD (searchInKeys key (ks.take n)) none) ++
                  (ks.getD (searchInKeys key (ks.take n)) key_node.zero) ::
                  inter ((ks.take n).drop (searchInKeys key (ks.take n) + 1))
                    ((cs.take (n + 1)).drop (searchInKeys key (ks.take n) + 1)) :=
              inter_take_unfold hlt (by omega) (by omega)
            rw [hsp, hun, hcn, entA_some, ← List.append_assoc]
            apply lookupE_middle
            · intro r hr
              have hrk : r.key < key :=
                inter_prefix_keys_lt hsort hkids hposle hblo r hr
              omega
            · intro r hr
              rcases List.mem_cons.mp hr with h1 | h1
              · rw [h1]
                omega
              · have hgt : loLt (bndL lo ks (searchInKeys key (ks.take n) + 1)) r.key :=
                  inter_suffix_keys_gt (by omega) hsort hbnd hkids (by omega) r h1
                rw [bndL] at hgt
                simp only [loLt_some] at hgt
                omega
        rw [entries_node, hdec]

/-!  Splitting a full Good child: both halves are Good on either side of
the separator, and the in-order records are preserved. -/

theorem take_append_replicate_getD {l : List α} {m j : Nat} (d : α) (cnt : Nat)
    (hj : j < m) (hm : m ≤ l.length) :
    (l.take m ++ List.replicate cnt d).getD j d = l.getD j d := by
  rw [getD_append_left _ (by rw [List.length_take]; omega), getD_take _ hj]

theorem drop_take_append_replicate_getD {l : List α} {k m j : Nat} (d : α) (cnt : Nat)
    (hj : j < m) (hm : k + m ≤ l.length) :
    ((l.drop k).take m ++ List.replicate cnt d).getD j d = l.getD (k + j) d := by
  rw [getD_append_left _ (by rw [List.length_take, List.length_drop]; omega),
    getD_take _ hj, getD_drop]

theorem good_split {lo2 hi2 : Option Int} {h : Nat} {elder : mm_node}
    (hg : Good lo2 hi2 h elder) (hfull : elder.nKeys = MAX_KEYS) :
    Good lo2 (some ((elder.kNodes.getD 250 key_node.zero).key)) h (splitElder elder) ∧
    Good (some ((elder.kNodes.getD 250 key_node.zero).key)) hi2 h (splitYounger elder) ∧
    loLt lo2 (elder.kNodes.getD 250 key_node.zero).key ∧
    hiGt hi2 (elder.kNodes.getD 250 key_node.zero).key ∧
    RecOK (elder.kNodes.getD 250 key_node.zero) ∧
    entries elder = entries (splitElder elder) ++
      (elder.kNodes.getD 250 key_node.zero) :: entries (splitYounger elder) ∧
    (splitElder elder).nKeys = 250 ∧ (splitYounger elder).nKeys = 249 ∧
    (splitElder elder).isLeaf = elder.isLeaf ∧ (splitYounger elder).isLeaf = elder.isLeaf := by
  cases hg with
  | leaf lo2 hi2 n ks hlen hn1 hn2 hsort hbnd hrec hstale =>
    have hfn : n = 500 := by simpa [MAX_KEYS] using hfull
    subst hfn
    have hlen5 : ks.length = 500 := by simpa [MAX_KEYS] using hlen
    have hE : splitElder (mm_node.mk true 500 ks (List.replicate (MAX_KEYS + 1) none)) =
        mm_node.mk true 250 (bzeroL ks key_node.zero 250 250)
          (List.replicate (MAX_KEYS + 1) none) := by
      rw [splitElder]
      simp only [mm_node.isLeaf_mk, mm_node.nKeys_mk, mm_node.kNodes_mk, mm_node.kids_mk,
        if_true]
    have hY : splitYounger (mm_node.mk true 500 ks (List.replicate (MAX_KEYS + 1) none)) =
        mm_node.mk true 249 (writeL alloc_node.kNodes 0 ((ks.drop 251).take 249))
          alloc_node.kids := by
      rw [splitYounger]
      simp only [mm_node.isLeaf_mk, mm_node.nKeys_mk, mm_node.kNodes_mk, mm_node.kids_mk,
        if_true]
    have hKS2 : bzeroL ks key_node.zero 250 250 =
        ks.take 250 ++ List.replicate 250 key_node.zero := by
      rw [bzeroL, writeL, List.length_replicate,
        List.drop_eq_nil_of_le (by omega), List.append_nil]
    have hlen3 : ((ks.drop 251).take 249).length = 249 := by
      rw [List.length_take, List.length_drop]
      omega
    have hKS3 : writeL alloc_node.kNodes 0 ((ks.drop 251).take 249) =
        (ks.drop 251).take 249 ++ List.replicate 251 key_node.zero := by
      rw [writeL, hlen3]
      simp only [List.take_zero, List.nil_append, Nat.zero_add]
      rw [alloc_node]
      simp only [mm_node.kNodes_mk, List.drop_replicate]
      rfl
    have hKid : alloc_node.kids = List.replicate (MAX_KEYS + 1) none := rfl
    rw [hE, hY, hKS2, hKS3, hKid]
    simp only [mm_node.kNodes_mk, entries_leaf]
    have hget2 : ∀ j, j < 250 →
        (ks.take 250 ++ List.replicate 250 key_node.zero).getD j key_node.zero =
          ks.getD j key_node.zero :=
      fun j hj => take_append_replicate_getD key_node.zero 250 hj (by omega)
    have hget3 : ∀ j, j < 249 →
        ((ks.drop 251).take 249 ++ List.replicate 251 key_node.zero).getD j key_node.zero =
          ks.getD (251 + j) key_node.zero :=
      fun j hj => drop_take_append_replicate_getD key_node.zero 251 hj (by omega)
    refine ⟨?_, ?_, (hbnd 250 (by omega)).1, (hbnd 250 (by omega)).2, hrec 250 (by omega),
      ?_, rfl, rfl, rfl, rfl⟩
    · apply Good.leaf
      · rw [List.length_append, List.length_take, List.length_replicate, MAX_KEYS]
        omega
      · omega
      · rw [MAX_KEYS]
        omega
      · intro i hi
        rw [hget2 i (by omega), hget2 (i + 1) (by omega)]
        exact hsort i (by omega)
      · intro i hi
        rw [hget2 i (by omega)]
        refine ⟨(hbnd i (by omega)).1, ?_⟩
        simp only [hiGt_some]
        exact sort_trans hsort i 250 (by omega) (by omega)
      · intro i hi
        rw [hget2 i (by omega)]
        exact hrec i (by omega)
      · rw [List.drop_left' (by rw [List.length_take]; omega)]
        rfl
    · apply Good.leaf
      · rw [List.length_append, List.length_take, List.length_drop,
          List.length_replicate, MAX_KEYS]
        omega
      · omega
      · rw [MAX_KEYS]
        omega
      · intro i hi
        rw [hget3 i (by omega), hget3 (i + 1) (by omega)]
        have he : 251 + (i + 1) = 251 + i + 1 := by omega
        rw [he]
        exact hsort (251 + i) (by omega)
      · intro i hi
        rw [hget3 i (by omega)]
        constructor
        · simp only [loLt_some]
          exact sort_trans hsort 250 (251 + i) (by omega) (by omega)
        · exact (hbnd (251 + i) (by omega)).2
      · intro i hi
        rw [hget3 i (by omega)]
        exact hrec (251 + i) (by omega)
      · rw [List.drop_left' hlen3]
        rfl
    · rw [List.take_left' (by rw [List.length_take]; omega),
        List.take_left' hlen3]
      have hT : ks.take 500 = ks := List.take_of_length_le (by omega)
      have hT2 : (ks.drop 251).take 249 = ks.drop 251 :=
        List.take_of_length_le (by rw [List.length_drop]; omega)
      rw [hT, hT2]
      have htail : ks.drop 250 = ks.getD 250 key_node.zero :: ks.drop 251 := by
        rw [getD_eq_getElem key_node.zero (by omega),
          List.drop_eq_getElem_cons (by omega : 250 < ks.length)]
      conv_lhs => rw [← List.take_append_drop 250 ks, htail]
  | node lo2 hi2 g n ks cs hlen hlenc hn1 hn2 hsort hbnd hrec hstale hstalec hkids hnn =>
    have hfn : n = 500 := by simpa [MAX_KEYS] using hfull
    subst hfn
    have hlen5 : ks.length = 500 := by simpa [MAX_KEYS] using hlen
    have hlenc5 : cs.length = 501 := by simpa [MAX_KEYS] using hlenc
    have hE : splitElder (mm_node.mk false 500 ks cs) =
        mm_node.mk false 250 (bzeroL ks key_node.zero 250 250)
          (bzeroL cs none 251 250) := by
      rw [splitElder]
      simp only [mm_node.isLeaf_mk, mm_node.nKeys_mk, mm_node.kNodes_mk, mm_node.kids_mk,
        Bool.false_eq_true, if_false]
    have hY : splitYounger (mm_node.mk false 500 ks cs) =
        mm_node.mk false 249 (writeL alloc_node.kNodes 0 ((ks.drop 251).take 249))
          (writeL alloc_node.kids 0 ((cs.drop 251).take 250)) := by
      rw [splitYounger]
      simp only [mm_node.isLeaf_mk, mm_node.nKeys_mk, mm_node.kNodes_mk, mm_node.kids_mk,
        Bool.false_eq_true, if_false]
    have hKS2 : bzeroL ks key_node.zero 250 250 =
        ks.take 250 ++ List.replicate 250 key_node.zero := by
      rw [bzeroL, writeL, List.length_replicate,
        List.drop_eq_nil_of_le (by omega), List.append_nil]
    have hCS2 : bzeroL cs none 251 250 = cs.take 251 ++ List.replicate 250 none := by
      rw [bzeroL, writeL, List.length_replicate,
        List.drop_eq_nil_of_le (by omega), List.append_nil]
    have hlen3 : ((ks.drop 251).take 249).length = 249 := by
      rw [List.length_take, List.length_drop]
      omega
    have hlenc3 : ((cs.drop 251).take 250).length = 250 := by
      rw [List.length_take, List.length_drop]
      omega
    have hKS3 : writeL alloc_node.kNodes 0 ((ks.drop 251).take 249) =
        (ks.drop 251).take 249 ++ List.replicate 251 key_node.zero := by
      rw [writeL, hlen3]
      simp only [List.take_zero, List.nil_append, Nat.zero_add]
      rw [alloc_node]
      simp only [mm_node.kNodes_mk, List.drop_replicate]
      rfl
    have hCS3 : writeL alloc_node.kids 0 ((cs.drop 251).take 250) =
        (cs.drop 251).take 250 ++ List.replicate 251 none := by
      rw [writeL, hlenc3]
      simp only [List.take_zero, List.nil_append, Nat.zero_add]
      rw [alloc_node]
      simp only [mm_node.kids_mk, List.drop_replicate]
      rfl
    rw [hE, hY, hKS2, hCS2, hKS3, hCS3]
    simp only [mm_node.kNodes_mk, entries_node]
    have hget2 : ∀ j, j < 250 →
        (ks.take 250 ++ List.replicate 250 key_node.zero).getD j key_node.zero =
          ks.getD j key_node.zero :=
      fun j hj => take_append_replicate_getD key_node.zero 250 hj (by omega)
    have hget3 : ∀ j, j < 249 →
        ((ks.drop 251).take 249 ++ List.replicate 251 key_node.zero).getD j key_node.zero =
          ks.getD (251 + j) key_node.zero :=
      fun j hj => drop_take_append_replicate_getD key_node.zero 251 hj (by omega)
    have hgetc2 : ∀ j, j < 251 →
        (cs.take 251 ++ List.replicate 250 none).getD j none = cs.getD j none := by
      intro j hj
      rw [getD_append_left _ (by rw [List.length_take]; omega), getD_take _ hj]
    have hgetc3 : ∀ j, j < 250 →
        ((cs.drop 251).take 250 ++ List.replicate 251 none).getD j none =
          cs.getD (251 + j) none := by
      intro j hj
      rw [getD_append_left _ (by rw [List.length_take, List.length_drop]; omega),
        getD_take _ hj, getD_drop]
    refine ⟨?_, ?_, (hbnd 250 (by omega)).1, (hbnd 250 (by omega)).2, hrec 250 (by omega),
      ?_, rfl, rfl, rfl, rfl⟩
    · apply Good.node
      · rw [List.length_append, List.length_take, List.length_replicate, MAX_KEYS]
        omega
      · rw [List.length_append, List.length_take, List.length_replicate, MAX_KEYS]
        omega
      · omega
      · rw [MAX_KEYS]
        omega
      · intro i hi
        rw [hget2 i (by omega), hget2 (i + 1) (by omega)]
        exact hsort i (by omega)
      · intro i hi
        rw [hget2 i (by omega)]
        refine ⟨(hbnd i (by omega)).1, ?_⟩
        simp only [hiGt_some]
        exact sort_trans hsort i 250 (by omega) (by omega)
      · intro i hi
        rw [hget2 i (by omega)]
        exact hrec i (by omega)
      · rw [List.drop_left' (by rw [List.length_take]; omega)]
        rfl
      · rw [List.drop_left' (by rw [List.length_take]; omega)]
        rfl
      · intro i c hile hc
        rw [hgetc2 i (by omega)] at hc
        have horig := hkids i c (by omega) hc
        have hbl : bndL lo2 (ks.take 250 ++ List.replicate 250 key_node.zero) i =
            bndL lo2 ks i := by
          cases i with
          | zero => rfl
          | succ m =>
            rw [bndL, bndL, hget2 m (by omega)]
        have hbh : bndH (some ((ks.getD 250 key_node.zero).key))
              (ks.take 250 ++ List.replicate 250 key_node.zero) 250 i =
            bndH hi2 ks 500 i := by
          by_cases hieq : i = 250
          · subst hieq
            rw [bndH, if_pos rfl, bndH, if_neg (by omega)]
          · rw [bndH, if_neg hieq, bndH, if_neg (by omega), hget2 i (by omega)]
        rw [hbl, hbh]
        exact horig
      · intro i hile
        rw [hgetc2 i (by omega)]
        exact hnn i (by omega)
    · apply Good.node
      · rw [List.length_append, List.length_take, List.length_drop,
          List.length_replicate, MAX_KEYS]
        omega
      · rw [List.length_append, List.length_take, List.length_drop,
          List.length_replicate, MAX_KEYS]
        omega
      · omega
      · rw [MAX_KEYS]
        omega
      · intro i hi
        rw [hget3 i (by omega), hget3 (i + 1) (by omega)]
        have he : 251 + (i + 1) = 251 + i + 1 := by omega
        rw [he]
        exact hsort (251 + i) (by omega)
      · intro i hi
        rw [hget3 i (by omega)]
        constructor
        · simp only [loLt_some]
          exact sort_trans hsort 250 (251 + i) (by omega) (by omega)
        · exact (hbnd (251 + i) (by omega)).2
      · intro i hi
        rw [hget3 i (by omega)]
        exact hrec (251 + i) (by omega)
      · rw [List.drop_left' hlen3]
        rfl
      · rw [List.drop_left' hlenc3]
        rfl
      · intro i c hile hc
        rw [hgetc3 i (by omega)] at hc
        have horig := hkids (251 + i) c (by omega) hc
        have hbl : bndL (some ((ks.getD 250 key_node.zero).key))
              ((ks.drop 251).take 249 ++ List.replicate 251 key_node.zero) i =
            bndL lo2 ks (251 + i) := by
          cases i with
          | zero =>
            have he : 251 + 0 = 250 + 1 := by omega
            rw [he, bndL, bndL]
          | succ m =>
            have he : 251 + (m + 1) = (251 + m) + 1 := by omega
            rw [he, bndL, bndL, hget3 m (by omega)]
        have hbh : bndH hi2 ((ks.drop 251).take 249 ++ List.replicate 251 key_node.zero)
              249 i = bndH hi2 ks 500 (251 + i) := by
          by_cases hieq : i = 249
          · subst hieq
            rw [bndH, if_pos rfl, bndH, if_pos (by omega)]
          · rw [bndH, if_neg hieq, bndH, if_neg (by omega), hget3 i (by omega)]
        rw [hbl, hbh]
        exact horig
      · intro i hile
        rw [hgetc3 i (by omega)]
        exact hnn (251 + i) (by omega)
    · rw [List.take_left' (by rw [List.length_take]; omega),
        List.take_left' (by rw [List.length_take]; omega),
        List.take_left' hlen3, List.take_left' hlenc3]
      have hsp : inter (ks.take 500) (cs.take (500 + 1)) =
          inter (ks.take 250) (cs.take 250) ++
            inter ((ks.take 500).drop 250) ((cs.take (500 + 1)).drop 250) :=
        inter_split (by omega) (by omega) (by omega)
      have hun : inter ((ks.take 500).drop 250) ((cs.take (500 + 1)).drop 250) =
          entA (cs.getD 250 none) ++ (ks.getD 250 key_node.zero) ::
            inter ((ks.take 500).drop (250 + 1)) ((cs.take (500 + 1)).drop (250 + 1)) :=
        inter_take_unfold (by omega) (by omega) (by omega)
      have hsp2 : inter (ks.take 250) (cs.take (250 + 1)) =
          inter (ks.take 250) (cs.take 250) ++
            inter ((ks.take 250).drop 250) ((cs.take (250 + 1)).drop 250) :=
        inter_split (by omega) (by omega) (by omega)
      have hlast : inter ((ks.take 250).drop 250) ((cs.take (250 + 1)).drop 250) =
          entA (cs.getD 250 none) :=
        inter_take_last (by omega) (by omega)
      have hd1 : (ks.take 500).drop (250 + 1) = (ks.drop 251).take 249 := by
        rw [List.drop_take]
      have hd2 : (cs.take (500 + 1)).drop (250 + 1) = (cs.drop 251).take 250 := by
        rw [List.drop_take]
      rw [hsp, hun, hd1, hd2]
      have h251 : (250 : Nat) + 1 = 251 := by norm_num
      rw [h251] at hsp2
      rw [hsp2, hlast, List.append_assoc]

theorem good_lengths {lo hi : Option Int} {h : Nat} {nd : mm_node} (hg : Good lo hi h nd) :
    nd.kNodes.length = MAX_KEYS ∧ nd.kids.length = MAX_KEYS + 1 ∧
    1 ≤ nd.nKeys ∧ nd.nKeys ≤ MAX_KEYS := by
  cases hg with
  | leaf lo hi n ks hlen hn1 hn2 hsort hbnd hrec hstale =>
    exact ⟨hlen, by simp, hn1, hn2⟩
  | node lo hi g n ks cs hlen hlenc hn1 hn2 hsort hbnd hrec hstale hstalec hkids hnn =>
    exact ⟨hlen, hlenc, hn1, hn2⟩

/-- Splitting the full child at the scan position of a non-full Good
internal node keeps the node Good at the same height and leaves the
in-order records unchanged. -/
theorem splitNode_good {lo hi : Option Int} {g n pos : Nat} {ks : List key_node}
    {cs : List (Option mm_node)} {elder p2 : mm_node}
    (hg : Good lo hi (g + 1) (mm_node.mk false n ks cs))
    (hpos : pos ≤ n) (hnotfull : n < MAX_KEYS)
    (hnx : cs.getD pos none = some elder)
    (hfull : elder.nKeys = MAX_KEYS)
    (hsp : splitNode (mm_node.mk false n ks cs) pos = some p2) :
    Good lo hi (g + 1) p2 ∧ entries p2 = entries (mm_node.mk false n ks cs) ∧
    p2.isLeaf = false ∧ p2.nKeys = n + 1 := by
  cases hg with
  | node lo hi g n ks cs hlen hlenc hn1 hn2 hsort hbnd hrec hstale hstalec hkids hnn =>
  have hM : MAX_KEYS = 500 := rfl
  have helder : Good (bndL lo ks pos) (bndH hi ks n pos) g elder := hkids pos elder hpos hnx
  obtain ⟨heL, heC, hen1, hen2⟩ := good_lengths helder
  obtain ⟨hE2good, hYgood, hseplo, hsephi, hseprec, hentE, hE2n, hYn, hE2lf, hYlf⟩ :=
    good_split helder hfull
  have hspec := splitNode_closed (mm_node.mk false n ks cs) elder pos hlen hlenc heL heC
    hnotfull hpos hnx hfull
  rw [SplitNodeSpec, ← splitElder_closed elder heL heC hfull,
    ← splitYounger_closed elder heL heC hfull] at hspec
  simp only [mm_node.isLeaf_mk, mm_node.nKeys_mk, mm_node.kNodes_mk, mm_node.kids_mk] at hspec
  rw [hfull, show MAX_KEYS / 2 = 250 by norm_num [MAX_KEYS]] at hspec
  rw [hspec] at hsp
  have hp2 := (Option.some.inj hsp).symm
  subst hp2
  have hA : (ks.take pos).length = pos := by
    rw [List.length_take]
    omega
  have hC : ((ks.drop pos).take (n - pos)).length = n - pos := by
    rw [List.length_take, List.length_drop]
    omega
  have hAc : (cs.take pos).length = pos := by
    rw [List.length_take]
    omega
  have hCc : ((cs.drop (pos + 1)).take (n - pos)).length = n - pos := by
    rw [List.length_take, List.length_drop]
    omega
  have hAB : (ks.take pos ++ [elder.kNodes.getD 250 key_node.zero]).length = pos + 1 := by
    rw [List.length_append, hA, List.length_singleton]
  have hABC : ((ks.take pos ++ [elder.kNodes.getD 250 key_node.zero])
      ++ (ks.drop pos).take (n - pos)).length = n + 1 := by
    rw [List.length_append, hAB, hC]
    omega
  have hcAB : (cs.take pos ++ [some (splitElder elder)]).length = pos + 1 := by
    rw [List.length_append, hAc, List.length_singleton]
  have hcABY : ((cs.take pos ++ [some (splitElder elder)])
      ++ [some (splitYounger elder)]).length = pos + 2 := by
    rw [List.length_append, hcAB, List.length_singleton]
  have hcABYC : (((cs.take pos ++ [some (splitElder elder)])
      ++ [some (splitYounger elder)]) ++ (cs.drop (pos + 1)).take (n - pos)).length
      = n + 1 + 1 := by
    rw [List.length_append, hcABY, hCc]
    omega
  have hgk_lt : ∀ j, j < pos →
      (ks.take pos ++ [elder.kNodes.getD 250 key_node.zero]
        ++ (ks.drop pos).take (n - pos) ++ ks.drop (n + 1)).getD j key_node.zero =
      ks.getD j key_node.zero := by
    intro j hj
    rw [getD_append_left _ (by rw [hABC]; omega), getD_append_left _ (by rw [hAB]; omega),
      getD_append_left _ (by rw [hA]; omega), getD_take _ hj]
  have hgk_eq :
      (ks.take pos ++ [elder.kNodes.getD 250 key_node.zero]
        ++ (ks.drop pos).take (n - pos) ++ ks.drop (n + 1)).getD pos key_node.zero =
      elder.kNodes.getD 250 key_node.zero := by
    rw [getD_append_left _ (by rw [hABC]; omega), getD_append_left _ (by rw [hAB]; omega),
      getD_append_right _ (by rw [hA]), hA, Nat.sub_self, List.getD_cons_zero]
  have hgk_mid : ∀ j, pos < j → j ≤ n →
      (ks.take pos ++ [elder.kNodes.getD 250 key_node.zero]
        ++ (ks.drop pos).take (n - pos) ++ ks.drop (n + 1)).getD j key_node.zero =
      ks.getD (j - 1) key_node.zero := by
    intro j hj1 hj2
    rw [getD_append_left _ (by rw [hABC]; omega), getD_append_right _ (by rw [hAB]; omega),
      hAB, getD_take _ (by omega), getD_drop]
    congr 1
    omega
  have hgc_lt : ∀ j, j < pos →
      (cs.take pos ++ [some (splitElder elder)] ++ [some (splitYounger elder)]
        ++ (cs.drop (pos + 1)).take (n - pos) ++ cs.drop (n + 2)).getD j none =
      cs.getD j none := by
    intro j hj
    rw [getD_append_left _ (by rw [hcABYC]; omega), getD_append_left _ (by rw [hcABY]; omega),
      getD_append_left _ (by rw [hcAB]; omega), getD_append_left _ (by rw [hAc]; omega),
      getD_take _ hj]
  have hgc_eq :
      (cs.take pos ++ [some (splitElder elder)] ++ [some (splitYounger elder)]
        ++ (cs.drop (pos + 1)).take (n - pos) ++ cs.drop (n + 2)).getD pos none =
      some (splitElder elder) := by
    rw [getD_append_left _ (by rw [hcABYC]; omega), getD_append_left _ (by rw [hcABY]; omega),
      getD_append_left _ (by rw [hcAB]; omega), getD_append_right _ (by rw [hAc]),
      hAc, Nat.sub_self, List.getD_cons_zero]
  have hgc_eq2 :
      (cs.take pos ++ [some (splitElder elder)] ++ [some (splitYounger elder)]
        ++ (cs.drop (pos + 1)).take (n - pos) ++ cs.drop (n + 2)).getD (pos + 1) none =
      some (splitYounger elder) := by
    rw [getD_append_left _ (by rw [hcABYC]; omega), getD_append_left _ (by rw [hcABY]; omega),
      getD_append_right _ (by rw [hcAB]), hcAB, Nat.sub_self, List.getD_cons_zero]
  have hgc_mid : ∀ j, pos + 2 ≤ j → j ≤ n + 1 →
      (cs.take pos ++ [some (splitElder elder)] ++ [some (splitYounger elder)]
        ++ (cs.drop (pos + 1)).take (n - pos) ++ cs.drop (n + 2)).getD j none =
      cs.getD (j - 1) none := by
    intro j hj1 hj2
    rw [getD_append_left _ (by rw [hcABYC]; omega), getD_append_right _ (by rw [hcABY]; omega),
      hcABY, getD_take _ (by omega), getD_drop]
    congr 1
    omega
  refine ⟨?_, ?_, rfl, rfl⟩
  · apply Good.node
    · rw [List.length_append, List.length_append, List.length_append, hA,
        List.length_singleton, hC, List.length_drop]
      omega
    · rw [List.length_append, List.length_append, List.length_append, List.length_append,
        hAc, List.length_singleton, List.length_singleton, hCc, List.length_drop]
      omega
    · omega
    · omega
    · intro i hi
      rcases Nat.lt_trichotomy (i + 1) pos with h1 | h1 | h1
      · rw [hgk_lt i (by omega), hgk_lt (i + 1) (by omega)]
        exact hsort i (by omega)
      · rw [hgk_lt i (by omega), h1, hgk_eq]
        have h2 := hseplo
        rw [← h1, bndL] at h2
        simpa using h2
      · rcases Nat.eq_or_lt_of_le (show pos ≤ i by omega) with h2 | h2
        · rw [← h2, hgk_eq]
          have h3 : pos + 1 ≤ n := by omega
          rw [hgk_mid (pos + 1) (by omega) h3, show pos + 1 - 1 = pos by omega]
          have h4 := hsephi
          rw [bndH, if_neg (by omega)] at h4
          simpa using h4
        · rw [hgk_mid i (by omega) (by omega), hgk_mid (i + 1) (by omega) (by omega),
            show i + 1 - 1 = (i - 1) + 1 by omega]
          exact hsort (i - 1) (by omega)
    · intro i hi
      rcases Nat.lt_trichotomy i pos with h1 | h1 | h1
      · rw [hgk_lt i h1]
        exact hbnd i (by omega)
      · rw [h1, hgk_eq]
        constructor
        · cases hp : pos with
          | zero =>
            have h2 := hseplo
            rw [hp, bndL] at h2
            exact h2
          | succ m =>
            have h2 := hseplo
            rw [hp, bndL] at h2
            simp only [loLt_some] at h2
            exact loLt_trans (hbnd m (by omega)).1 h2
        · by_cases hp : pos = n
          · have h2 := hsephi
            rw [hp, bndH, if_pos rfl] at h2
            exact h2
          · have h2 := hsephi
            rw [bndH, if_neg hp] at h2
            simp only [hiGt_some] at h2
            exact hiGt_trans h2 (hbnd pos (by omega)).2
      · rw [hgk_mid i (by omega) (by omega)]
        exact hbnd (i - 1) (by omega)
    · intro i hi
      rcases Nat.lt_trichotomy i pos with h1 | h1 | h1
      · rw [hgk_lt i h1]
        exact hrec i (by omega)
      · rw [h1, hgk_eq]
        exact hseprec
      · rw [hgk_mid i (by omega) (by omega)]
        exact hrec (i - 1) (by omega)
    · rw [List.drop_left' hABC, ← List.drop_drop, hstale, List.drop_replicate]
      congr 1
    · rw [List.drop_left' hcABYC, show n + 2 = n + 1 + 1 by omega, ← List.drop_drop,
        hstalec, List.drop_replicate]
      congr 1
    · intro i c hile hci
      rcases Nat.lt_trichotomy i pos with h1 | h1 | h1
      · rw [hgc_lt i h1] at hci
        have horig := hkids i c (by omega) hci
        have hbl : bndL lo (ks.take pos ++ [elder.kNodes.getD 250 key_node.zero]
            ++ (ks.drop pos).take (n - pos) ++ ks.drop (n + 1)) i = bndL lo ks i := by
          cases i with
          | zero => rfl
          | succ m => rw [bndL, bndL, hgk_lt m (by omega)]
        have hbh : bndH hi (ks.take pos ++ [elder.kNodes.getD 250 key_node.zero]
            ++ (ks.drop pos).take (n - pos) ++ ks.drop (n + 1)) (n + 1) i
            = bndH hi ks n i := by
          rw [bndH, if_neg (by omega), bndH, if_neg (by omega), hgk_lt i (by omega)]
        rw [hbl, hbh]
        exact horig
      · subst h1
        rw [hgc_eq] at hci
        have hc2 := (Option.some.inj hci).symm
        subst hc2
        have hbl : bndL lo (ks.take i ++ [elder.kNodes.getD 250 key_node.zero]
            ++ (ks.drop i).take (n - i) ++ ks.drop (n + 1)) i = bndL lo ks i := by
          cases i with
          | zero => rfl
          | succ m => rw [bndL, bndL, hgk_lt m (by omega)]
        have hbh : bndH hi (ks.take i ++ [elder.kNodes.getD 250 key_node.zero]
            ++ (ks.drop i).take (n - i) ++ ks.drop (n + 1)) (n + 1) i
            = some ((elder.kNodes.getD 250 key_node.zero).key) := by
          rw [bndH, if_neg (by omega), hgk_eq]
        rw [hbl, hbh]
        exact hE2good
      · rcases Nat.eq_or_lt_of_le (show pos + 1 ≤ i by omega) with h2 | h2
        · rw [← h2] at hci ⊢
          rw [hgc_eq2] at hci
          have hc2 := (Option.some.inj hci).symm
          subst hc2
          have hbl : bndL lo (ks.take pos ++ [elder.kNodes.getD 250 key_node.zero]
              ++ (ks.drop pos).take (n - pos) ++ ks.drop (n + 1)) (pos + 1)
              = some ((elder.kNodes.getD 250 key_node.zero).key) := by
            rw [bndL, hgk_eq]
          have hbh : bndH hi (ks.take pos ++ [elder.kNodes.getD 250 key_node.zero]
              ++ (ks.drop pos).take (n - pos) ++ ks.drop (n + 1)) (n + 1) (pos + 1)
              = bndH hi ks n pos := by
            by_cases hp : pos = n
            · subst hp
              rw [bndH, if_pos rfl, bndH, if_pos rfl]
            · rw [bndH, if_neg (by omega), bndH, if_neg hp,
                hgk_mid (pos + 1) (by omega) (by omega), show pos + 1 - 1 = pos by omega]
          rw [hbl, hbh]
          exact hYgood
        · rw [hgc_mid i (by omega) (by omega)] at hci
          have horig := hkids (i - 1) c (by omega) hci
          have hbl : bndL lo (ks.take pos ++ [elder.kNodes.getD 250 key_node.zero]
              ++ (ks.drop pos).take (n - pos) ++ ks.drop (n + 1)) i = bndL lo ks (i - 1) := by
            obtain ⟨m, rfl⟩ : ∃ m, i = m + 1 := ⟨i - 1, by omega⟩
            rw [bndL]
            obtain ⟨m2, rfl⟩ : ∃ m2, m = m2 + 1 := ⟨m - 1, by omega⟩
            rw [show m2 + 1 + 1 - 1 = m2 + 1 by omega, bndL,
              hgk_mid (m2 + 1) (by omega) (by omega), show m2 + 1 - 1 = m2 by omega]
          have hbh : bndH hi (ks.take pos ++ [elder.kNodes.getD 250 key_node.zero]
              ++ (ks.drop pos).take (n - pos) ++ ks.drop (n + 1)) (n + 1) i
              = bndH hi ks n (i - 1) := by
            by_cases hp : i = n + 1
            · subst hp
              rw [bndH, if_pos rfl, bndH, if_pos (by omega)]
            · rw [bndH, if_neg hp, bndH, if_neg (by omega), hgk_mid i (by omega) (by omega)]
          rw [hbl, hbh]
          exact horig
    · intro i hile
      rcases Nat.lt_trichotomy i pos with h1 | h1 | h1
      · rw [hgc_lt i h1]
        exact hnn i (by omega)
      · rw [h1, hgc_eq]
        simp
      · rcases Nat.eq_or_lt_of_le (show pos + 1 ≤ i by omega) with h2 | h2
        · rw [← h2, hgc_eq2]
          simp
        · rw [hgc_mid i (by omega) (by omega)]
          exact hnn (i - 1) (by omega)
  · simp only [entries_node]
    rw [List.take_left' hABC, List.take_left' hcABYC]
    rw [List.append_assoc (ks.take pos) [elder.kNodes.getD 250 key_node.zero]
      ((ks.drop pos).take (n - pos))]
    rw [List.append_assoc (cs.take pos) [some (splitElder elder)] [some (splitYounger elder)]]
    rw [List.append_assoc (cs.take pos) ([some (splitElder elder)]
      ++ [some (splitYounger elder)]) ((cs.drop (pos + 1)).take (n - pos))]
    rw [List.append_assoc [some (splitElder elder)] [some (splitYounger elder)]
      ((cs.drop (pos + 1)).take (n - pos))]
    rw [inter_append (by rw [hA, hAc])]
    rw [List.singleton_append, List.singleton_append, List.singleton_append]
    rw [inter_cons_cons, entA_some]
    rcases Nat.eq_or_lt_of_le hpos with hpn | hpn
    · subst hpn
      rw [Nat.sub_self, List.take_zero, inter_nil_cons, entA_some]
      have hsp1 : inter (ks.take pos) (cs.take (pos + 1)) =
          inter (ks.take pos) (cs.take pos) ++
            inter ((ks.take pos).drop pos) ((cs.take (pos + 1)).drop pos) :=
        inter_split (by omega) (by omega) (by omega)
      have hlast : inter ((ks.take pos).drop pos) ((cs.take (pos + 1)).drop pos) =
          entA (cs.getD pos none) := inter_take_last (by omega) (by omega)
      rw [hsp1, hlast, hnx, entA_some, hentE]
    · have hC1 : (ks.drop pos).take (n - pos) = ks.getD pos key_node.zero ::
          (ks.drop (pos + 1)).take (n - (pos + 1)) := by
        rw [show n - pos = (n - (pos + 1)) + 1 by omega,
          List.drop_eq_getElem_cons (by omega : pos < ks.length), List.take_succ_cons]
        congr 1
        exact (getD_eq_getElem key_node.zero (by omega)).symm
      rw [hC1, inter_cons_cons, entA_some]
      have hsp1 : inter (ks.take n) (cs.take (n + 1)) =
          inter (ks.take pos) (cs.take pos) ++
            inter ((ks.take n).drop pos) ((cs.take (n + 1)).drop pos) :=
        inter_split (by omega) (by omega) (by omega)
      have hun : inter ((ks.take n).drop pos) ((cs.take (n + 1)).drop pos) =
          entA (cs.getD pos none) ++ (ks.getD pos key_node.zero) ::
            inter ((ks.take n).drop (pos + 1)) ((cs.take (n + 1)).drop (pos + 1)) :=
        inter_take_unfold (by omega) (by omega) (by omega)
      have hd1 : (ks.take n).drop (pos + 1) = (ks.drop (pos + 1)).take (n - (pos + 1)) := by
        rw [List.drop_take]
      have hd2 : (cs.take (n + 1)).drop (pos + 1) = (cs.drop (pos + 1)).take (n - pos) := by
        rw [List.drop_take]
        congr 1
        omega
      rw [hsp1, hun, hnx, entA_some, hentE, hd1, hd2]
      simp only [List.append_assoc, List.cons_append]

theorem drop_set_of_lt {l : List α} {i n : Nat} (a : α) (h : i < n) :
    (l.set i a).drop n = l.drop n := by
  rw [List.drop_set, if_pos h]

theorem getD_set_key {ks : List key_node} {pos : Nat} {x : key_node}
    (hlen : pos < ks.length)
    (hx : x.key = (ks.getD pos key_node.zero).key) :
    ∀ j, ((ks.set pos x).getD j key_node.zero).key = (ks.getD j key_node.zero).key := by
  intro j
  by_cases hj : pos = j
  · subst hj
    rw [getD_set_eq _ _ hlen, hx]
  · rw [getD_set_ne _ _ hj]

/-- Changing the record at a live slot to one with the same key keeps a
leaf or internal node Good, as long as the new record is well formed. -/
theorem good_set_record {lo hi : Option Int} {hh : Nat} {b : Bool} {n pos : Nat}
    {ks : List key_node} {cs : List (Option mm_node)} {x : key_node}
    (hg : Good lo hi hh (mm_node.mk b n ks cs))
    (hpos : pos < n)
    (hx : x.key = (ks.getD pos key_node.zero).key)
    (hxrec : RecOK x) :
    Good lo hi hh (mm_node.mk b n (ks.set pos x) cs) := by
  cases hg with
  | leaf lo hi n ks hlen hn1 hn2 hsort hbnd hrec hstale =>
    have hk := getD_set_key (by omega) hx
    apply Good.leaf
    · rw [List.length_set, hlen]
    · exact hn1
    · exact hn2
    · intro i hi
      rw [hk i, hk (i + 1)]
      exact hsort i hi
    · intro i hi
      rw [hk i]
      exact hbnd i hi
    · intro i hi
      by_cases hip : pos = i
      · subst hip
        rw [getD_set_eq _ _ (by omega)]
        exact hxrec
      · rw [getD_set_ne _ _ hip]
        exact hrec i hi
    · rw [drop_set_of_lt _ (by omega)]
      exact hstale
  | node lo hi g n ks cs hlen hlenc hn1 hn2 hsort hbnd hrec hstale hstalec hkids hnn =>
    have hk := getD_set_key (by omega) hx
    have hbl : ∀ i, bndL lo (ks.set pos x) i = bndL lo ks i := by
      intro i
      cases i with
      | zero => rfl
      | succ m =>
        rw [bndL, bndL]
        congr 1
        exact hk m
    have hbh : ∀ i, bndH hi (ks.set pos x) n i = bndH hi ks n i := by
      intro i
      by_cases hieq : i = n
      · subst hieq
        rw [bndH, if_pos rfl, bndH, if_pos rfl]
      · rw [bndH, if_neg hieq, bndH, if_neg hieq]
        congr 1
        exact hk i
    apply Good.node
    · rw [List.length_set, hlen]
    · exact hlenc
    · exact hn1
    · exact hn2
    · intro i hi
      rw [hk i, hk (i + 1)]
      exact hsort i hi
    · intro i hi
      rw [hk i]
      exact hbnd i hi
    · intro i hi
      by_cases hip : pos = i
      · subst hip
        rw [getD_set_eq _ _ (by omega)]
        exact hxrec
      · rw [getD_set_ne _ _ hip]
        exact hrec i hi
    · rw [drop_set_of_lt _ (by omega)]
      exact hstale
    · exact hstalec
    · intro i c hile hci
      rw [hbl i, hbh i]
      exact hkids i c hile hci
    · exact hnn

theorem take_split_at {l : List α} {i n : Nat} (d : α) (hi : i < n) (hn : n ≤ l.length) :
    l.take n = l.take i ++ l.getD i d :: (l.take n).drop (i + 1) := by
  conv_lhs => rw [← List.take_append_drop i (l.take n)]
  rw [List.take_take, Nat.min_eq_left (by omega), take_drop_cons d hi hn]

theorem inter_child_replace_last {n : Nat} {ks : List key_node} {cs : List (Option mm_node)}
    (X : Option mm_node) (hkn : n ≤ ks.length) (hcn : n + 1 ≤ cs.length) :
    inter (ks.take n) ((cs.set n X).take (n + 1)) =
      inter (ks.take n) (cs.take n) ++ entA X := by
  rw [List.set_take, List.set_eq_take_cons_drop _ (by rw [List.length_take]; omega),
    List.take_take, Nat.min_eq_left (by omega),
    List.drop_eq_nil_of_le (by rw [List.length_take]; omega)]
  have h1 : inter (ks.take n ++ []) (cs.take n ++ X :: []) =
      inter (ks.take n) (cs.take n) ++ inter [] (X :: []) :=
    inter_append (by rw [List.length_take, List.length_take]; omega)
  rw [List.append_nil] at h1
  rw [h1, inter_nil_cons]

theorem inter_child_replace {pos n : Nat} {ks : List key_node} {cs : List (Option mm_node)}
    (X : Option mm_node) (hkn : n ≤ ks.length) (hcn : n + 1 ≤ cs.length) (hpos : pos < n) :
    inter (ks.take n) ((cs.set pos X).take (n + 1)) =
      inter (ks.take pos) (cs.take pos) ++ (entA X ++ ks.getD pos key_node.zero ::
        inter ((ks.take n).drop (pos + 1)) ((cs.take (n + 1)).drop (pos + 1))) := by
  rw [List.set_take, List.set_eq_take_cons_drop _ (by rw [List.length_take]; omega),
    List.take_take, Nat.min_eq_left (by omega)]
  conv_lhs => enter [1]; rw [take_split_at key_node.zero hpos hkn]
  rw [inter_append (by rw [List.length_take, List.length_take]; omega), inter_cons_cons]

/-- The insert path: with create set, on a Good subtree in whose open
key interval the query falls, searchAndInsert succeeds, keeps the
subtree Good at the same height, and rewrites the in-order records by
upsert, provided there is room: the node is not full, or it is internal
and its scan child is not full (what a fresh split guarantees for the
rescan of the code). -/
theorem searchAndInsert_insert {u : key_node → key_node}
    (hukey : ∀ r, (u r).key = r.key)
    (hurec : ∀ r, RecOK r → RecOK (u r))
    (hufresh : ∀ k : Int, RecOK (u (key_node.mk k [] 0))) :
    ∀ (M : Nat) {lo hi : Option Int} {hh : Nat} {node : mm_node} {key : Int},
    2 * nheight node + descendFull node key ≤ M →
    Good lo hi hh node →
    (node.nKeys < MAX_KEYS ∨ (node.isLeaf = false ∧ descendFull node key = 0)) →
    loLt lo key → hiGt hi key →
    ∃ res nd2 a, searchAndInsert u node key true = some (res, nd2, a) ∧
      Good lo hi hh nd2 ∧ entries nd2 = upsert u key (entries node) := by
  intro M
  induction M with
  | zero =>
    intro lo hi hh node key hM hg hroom hlo hhi
    exfalso
    have h1 := nheight_eq node
    omega
  | succ M ih =>
    intro lo hi hh node key hM hg hroom hlo hhi
    have hM500 : MAX_KEYS = 500 := rfl
    cases hg with
    | leaf lo hi n ks hlen hn1 hn2 hsort hbnd hrec hstale =>
      have hnfull : n < MAX_KEYS := by
        rcases hroom with h | ⟨habs, h2⟩
        · simpa using h
        · simp at habs
      by_cases hf : searchInNode (mm_node.mk true n ks (List.replicate (MAX_KEYS + 1) none))
            key < (mm_node.mk true n ks (List.replicate (MAX_KEYS + 1) none)).nKeys ∧
          ((mm_node.mk true n ks (List.replicate (MAX_KEYS + 1) none)).kNodes.getD
            (searchInNode (mm_node.mk true n ks (List.replicate (MAX_KEYS + 1) none)) key)
            key_node.zero).key = key
      · -- found in place: replace the record at the scan position
        have hf2 := hf
        simp only [searchInNode_mk, mm_node.nKeys_mk, mm_node.kNodes_mk] at hf2
        obtain ⟨hf1, hfk⟩ := hf2
        refine ⟨some (u (ks.getD (searchInKeys key (ks.take n)) key_node.zero)),
          mm_node.mk true n (ks.set (searchInKeys key (ks.take n))
            (u (ks.getD (searchInKeys key (ks.take n)) key_node.zero)))
            (List.replicate (MAX_KEYS + 1) none), 0, ?_, ?_, ?_⟩
        · rw [searchAndInsert_found _ _ _ _ hf]
          rfl
        · exact good_set_record
            (Good.leaf lo hi n ks hlen hn1 hn2 hsort hbnd hrec hstale) hf1
            (hukey _) (hurec _ (hrec _ hf1))
        · rw [entries_leaf, entries_leaf, List.set_take]
          have hposlen : searchInKeys key (ks.take n) < (ks.take n).length := by
            rw [List.length_take]
            omega
          rw [upsert_found u hposlen (by rw [getD_take _ hf1]; exact hfk)
            (fun j hj => searchInKeys_before hj), getD_take _ hf1]
      · -- not found: shift and create the record at the scan position
        have hf2 := hf
        simp only [searchInNode_mk, mm_node.nKeys_mk, mm_node.kNodes_mk] at hf2
        have hposle : searchInKeys key (ks.take n) ≤ n := by
          have hle := searchInKeys_le_length key (ks.take n)
          rw [List.length_take] at hle
          omega
        have hgt : ∀ j, searchInKeys key (ks.take n) ≤ j → j < n →
            key < (ks.getD j key_node.zero).key := by
          intro j h1 h2
          have hposn : searchInKeys key (ks.take n) < n := by omega
          have hat : key ≤ ((ks.take n).getD (searchInKeys key (ks.take n))
              key_node.zero).key :=
            searchInKeys_at (by rw [List.length_take]; omega)
          rw [getD_take key_node.zero hposn] at hat
          have hne : (ks.getD (searchInKeys key (ks.take n)) key_node.zero).key ≠ key :=
            fun hcon => hf2 ⟨hposn, hcon⟩
          rcases Nat.eq_or_lt_of_le h1 with h3 | h3
          · rw [← h3]
            omega
          · have hst := sort_trans hsort _ j h3 h2
            omega
        have hlt : ∀ j, j < searchInKeys key (ks.take n) →
            (ks.getD j key_node.zero).key < key := by
          intro j hj
          have hbef := searchInKeys_before hj
          rwa [getD_take key_node.zero (by omega)] at hbef
        have hclosed : (memmoveL ks (searchInKeys key (ks.take n) + 1)
              (searchInKeys key (ks.take n)) (n - searchInKeys key (ks.take n))).set
              (searchInKeys key (ks.take n)) (u { key_node.zero with key := key }) =
            ks.take (searchInKeys key (ks.take n)) ++ [u { key_node.zero with key := key }]
              ++ (ks.drop (searchInKeys key (ks.take n))).take
                  (n - searchInKeys key (ks.take n))
              ++ ks.drop (n + 1) := by
          rw [memmoveL, set_writeL_at _ (by omega)]
          have h1 : ((ks.drop (searchInKeys key (ks.take n))).take
              (n - searchInKeys key (ks.take n))).length = n - searchInKeys key (ks.take n) := by
            rw [List.length_take, List.length_drop]
            omega
          rw [h1, show searchInKeys key (ks.take n) + 1 +
            (n - searchInKeys key (ks.take n)) = n + 1 by omega]
        have hA : (ks.take (searchInKeys key (ks.take n))).length =
            searchInKeys key (ks.take n) := by
          rw [List.length_take]
          omega
        have hC : ((ks.drop (searchInKeys key (ks.take n))).take
            (n - searchInKeys key (ks.take n))).length = n - searchInKeys key (ks.take n) := by
          rw [List.length_take, List.length_drop]
          omega
        have hAB : (ks.take (searchInKeys key (ks.take n))
            ++ [u { key_node.zero with key := key }]).length =
            searchInKeys key (ks.take n) + 1 := by
          rw [List.length_append, hA, List.length_singleton]
        have hABC : ((ks.take (searchInKeys key (ks.take n))
            ++ [u { key_node.zero with key := key }])
            ++ (ks.drop (searchInKeys key (ks.take n))).take
                (n - searchInKeys key (ks.take n))).length = n + 1 := by
          rw [List.length_append, hAB, hC]
          omega
        have hfreshkey : (u { key_node.zero with key := key }).key = key := by
          rw [hukey]
        have hgk_lt : ∀ j, j < searchInKeys key (ks.take n) →
            (ks.take (searchInKeys key (ks.take n)) ++ [u { key_node.zero with key := key }]
              ++ (ks.drop (searchInKeys key (ks.take n))).take
                  (n - searchInKeys key (ks.take n))
              ++ ks.drop (n + 1)).getD j key_node.zero = ks.getD j key_node.zero := by
          intro j hj
          rw [getD_append_left _ (by rw [hABC]; omega),
            getD_append_left _ (by rw [hAB]; omega),
            getD_append_left _ (by rw [hA]; omega), getD_take _ hj]
        have hgk_eq :
            (ks.take (searchInKeys key (ks.take n)) ++ [u { key_node.zero with key := key }]
              ++ (ks.drop (searchInKeys key (ks.take n))).take
                  (n - searchInKeys key (ks.take n))
              ++ ks.drop (n + 1)).getD (searchInKeys key (ks.take n)) key_node.zero =
            u { key_node.zero with key := key } := by
          rw [getD_append_left _ (by rw [hABC]; omega),
            getD_append_left _ (by rw [hAB]; omega),
            getD_append_right _ (by rw [hA]), hA, Nat.sub_self, List.getD_cons_zero]
        have hgk_mid : ∀ j, searchInKeys key (ks.take n) < j → j ≤ n →
            (ks.take (searchInKeys key (ks.take n)) ++ [u { key_node.zero with key := key }]
              ++ (ks.drop (searchInKeys key (ks.take n))).take
                  (n - searchInKeys key (ks.take n))
              ++ ks.drop (n + 1)).getD j key_node.zero = ks.getD (j - 1) key_node.zero := by
          intro j hj1 hj2
          rw [getD_append_left _ (by rw [hABC]; omega),
            getD_append_right _ (by rw [hAB]; omega), hAB, getD_take _ (by omega), getD_drop]
          congr 1
          omega
        refine ⟨some (u { key_node.zero with key := key }),
          mm_node.mk true (n + 1) ((memmoveL ks (searchInKeys key (ks.take n) + 1)
            (searchInKeys key (ks.take n)) (n - searchInKeys key (ks.take n))).set
            (searchInKeys key (ks.take n)) (u { key_node.zero with key := key }))
            (List.replicate (MAX_KEYS + 1) none), 0, ?_, ?_, ?_⟩
        · rw [searchAndInsert_leaf_create _ _ _ hf rfl]
          rfl
        · rw [hclosed]
          apply Good.leaf
          · rw [List.length_append, List.length_append, List.length_append, hA,
              List.length_singleton, hC, List.length_drop]
            omega
          · omega
          · omega
          · intro i hi
            rcases Nat.lt_trichotomy (i + 1) (searchInKeys key (ks.take n)) with h1 | h1 | h1
            · rw [hgk_lt i (by omega), hgk_lt (i + 1) (by omega)]
              exact hsort i (by omega)
            · rw [hgk_lt i (by omega), h1, hgk_eq, hfreshkey]
              exact hlt i (by omega)
            · rcases Nat.eq_or_lt_of_le (show searchInKeys key (ks.take n) ≤ i by omega)
                with h2 | h2
              · rw [← h2, hgk_eq, hfreshkey,
                  hgk_mid (searchInKeys key (ks.take n) + 1) (by omega) (by omega),
                  show searchInKeys key (ks.take n) + 1 - 1 =
                    searchInKeys key (ks.take n) by omega]
                exact hgt _ (by omega) (by omega)
              · rw [hgk_mid i (by omega) (by omega), hgk_mid (i + 1) (by omega) (by omega),
                  show i + 1 - 1 = (i - 1) + 1 by omega]
                exact hsort (i - 1) (by omega)
          · intro i hi
            rcases Nat.lt_trichotomy i (searchInKeys key (ks.take n)) with h1 | h1 | h1
            · rw [hgk_lt i h1]
              exact hbnd i (by omega)
            · rw [h1, hgk_eq, hfreshkey]
              exact ⟨hlo, hhi⟩
            · rw [hgk_mid i (by omega) (by omega)]
              exact hbnd (i - 1) (by omega)
          · intro i hi
            rcases Nat.lt_trichotomy i (searchInKeys key (ks.take n)) with h1 | h1 | h1
            · rw [hgk_lt i h1]
              exact hrec i (by omega)
            · rw [h1, hgk_eq]
              exact hufresh key
            · rw [hgk_mid i (by omega) (by omega)]
              exact hrec (i - 1) (by omega)
          · rw [List.drop_left' hABC, ← List.drop_drop, hstale, List.drop_replicate]
            congr 1
        · rw [entries_leaf, entries_leaf, hclosed, List.take_left' hABC]
          have hdecomp : ks.take n = ks.take (searchInKeys key (ks.take n)) ++
              (ks.take n).drop (searchInKeys key (ks.take n)) := by
            conv_lhs => rw [← List.take_append_drop (searchInKeys key (ks.take n)) (ks.take n)]
            rw [List.take_take, Nat.min_eq_left (by omega)]
          conv_rhs => rw [hdecomp]
          rw [upsert_append_left u ?hpre]
          case hpre =>
            intro r hr
            rcases mem_take_index key_node.zero hr with ⟨j, hj, hjl, hjeq⟩
            rw [← hjeq]
            exact hlt j hj
          rw [upsert_all_gt u ?hsuf]
          case hsuf =>
            intro r hr
            rcases mem_take_drop_index key_node.zero hr with ⟨j, hj1, hj2, hj3, hjeq⟩
            rw [← hjeq]
            exact hgt j hj1 hj2
          rw [List.drop_take, List.append_assoc, List.singleton_append]
          rfl
      | node lo hi g n ks cs hlen hlenc hn1 hn2 hsort hbnd hrec hstale hstalec hkids hnn =>
        have hposle : searchInKeys key (ks.take n) ≤ n := by
          have hle := searchInKeys_le_length key (ks.take n)
          rw [List.length_take] at hle
          omega
        by_cases hf : searchInNode (mm_node.mk false n ks cs) key
              < (mm_node.mk false n ks cs).nKeys ∧
            ((mm_node.mk false n ks cs).kNodes.getD
              (searchInNode (mm_node.mk false n ks cs) key) key_node.zero).key = key
        · -- found in place at an internal node
          have hf2 := hf
          simp only [searchInNode_mk, mm_node.nKeys_mk, mm_node.kNodes_mk] at hf2
          obtain ⟨hf1, hfk⟩ := hf2
          have hblo : loLt (bndL lo ks (searchInKeys key (ks.take n))) key := by
            cases hpos : searchInKeys key (ks.take n) with
            | zero =>
              rw [bndL]
              exact hlo
            | succ m =>
              rw [bndL]
              simp only [loLt_some]
              have hm : m < searchInKeys key (ks.take n) := by omega
              have hbef := searchInKeys_before hm
              rw [getD_take key_node.zero (by omega)] at hbef
              exact hbef
          refine ⟨some (u (ks.getD (searchInKeys key (ks.take n)) key_node.zero)),
            mm_node.mk false n (ks.set (searchInKeys key (ks.take n))
              (u (ks.getD (searchInKeys key (ks.take n)) key_node.zero))) cs, 0, ?_, ?_, ?_⟩
          · rw [searchAndInsert_found _ _ _ _ hf]
            rfl
          · exact good_set_record
              (Good.node lo hi g n ks cs hlen hlenc hn1 hn2 hsort hbnd hrec hstale
                hstalec hkids hnn)
              hf1 (hukey _) (hurec _ (hrec _ hf1))
          · simp only [entries_node]
            rw [List.set_take, List.set_eq_take_cons_drop _ (by rw [List.length_take]; omega),
              List.take_take, Nat.min_eq_left (by omega)]
            conv_lhs =>
              enter [2]
              rw [take_split_at (none : Option mm_node)
                (show searchInKeys key (ks.take n) < n + 1 by omega) (by omega)]
            rw [inter_append (by rw [List.length_take, List.length_take]; omega),
              inter_cons_cons]
            have hsp1 : inter (ks.take n) (cs.take (n + 1)) =
                inter (ks.take (searchInKeys key (ks.take n)))
                    (cs.take (searchInKeys key (ks.take n))) ++
                  inter ((ks.take n).drop (searchInKeys key (ks.take n)))
                    ((cs.take (n + 1)).drop (searchInKeys key (ks.take n))) :=
              inter_split (by omega) (by omega) (by omega)
            have hun : inter ((ks.take n).drop (searchInKeys key (ks.take n)))
                  ((cs.take (n + 1)).drop (searchInKeys key (ks.take n))) =
                entA (cs.getD (searchInKeys key (ks.take n)) none) ++
                  (ks.getD (searchInKeys key (ks.take n)) key_node.zero) ::
                  inter ((ks.take n).drop (searchInKeys key (ks.take n) + 1))
                    ((cs.take (n + 1)).drop (searchInKeys key (ks.take n) + 1)) :=
              inter_take_unfold hf1 (by omega) (by omega)
            conv_rhs => rw [hsp1, hun]
            rw [upsert_append_left u (fun r hr =>
              inter_prefix_keys_lt hsort hkids hposle hblo r hr)]
            cases hcn : cs.getD (searchInKeys key (ks.take n)) none with
            | none => exact absurd hcn (hnn _ hposle)
            | some c =>
              rw [entA_some]
              have hcgood := hkids _ c hposle hcn
              have hchild : ∀ r, r ∈ entries c → r.key < key := by
                intro r hr
                have hb := ((good_entries hcgood).2.1 r hr).2.1
                rw [bndH, if_neg (by omega)] at hb
                simp only [hiGt_some] at hb
                omega
              rw [upsert_append_left u hchild, upsert_cons, if_neg (by omega),
                if_pos hfk]
        · -- not found: split the full scan child, or descend
          have hf2 := hf
          simp only [searchInNode_mk, mm_node.nKeys_mk, mm_node.kNodes_mk] at hf2
          have hidx : searchInKeys key (ks.take n) = n ∨
              (searchInKeys key (ks.take n) < n ∧
                key < (ks.getD (searchInKeys key (ks.take n)) key_node.zero).key) := by
            rcases Nat.eq_or_lt_of_le hposle with heq | hlt
            · exact Or.inl heq
            · right
              refine ⟨hlt, ?_⟩
              have hat : key ≤ ((ks.take n).getD (searchInKeys key (ks.take n))
                  key_node.zero).key :=
                searchInKeys_at (by rw [List.length_take]; omega)
              rw [getD_take key_node.zero hlt] at hat
              have hne : (ks.getD (searchInKeys key (ks.take n)) key_node.zero).key ≠ key :=
                fun hcon => hf2 ⟨hlt, hcon⟩
              omega
          have hblo : loLt (bndL lo ks (searchInKeys key (ks.take n))) key := by
            cases hpos : searchInKeys key (ks.take n) with
            | zero =>
              rw [bndL]
              exact hlo
            | succ m =>
              rw [bndL]
              simp only [loLt_some]
              have hm : m < searchInKeys key (ks.take n) := by omega
              have hbef := searchInKeys_before hm
              rw [getD_take key_node.zero (by omega)] at hbef
              exact hbef
          have hbhi : hiGt (bndH hi ks n (searchInKeys key (ks.take n))) key := by
            rcases hidx with heq | ⟨hlt, hklt⟩
            · rw [bndH, if_pos heq]
              exact hhi
            · rw [bndH, if_neg (by omega)]
              simp only [hiGt_some]
              exact hklt
          cases hcn : cs.getD (searchInKeys key (ks.take n)) none with
          | none => exact absurd hcn (hnn _ hposle)
          | some c =>
            have hcgood := hkids _ c hposle hcn
            obtain ⟨hcL, hcC, hcn1, hcn2⟩ := good_lengths hcgood
            by_cases hcf : c.nKeys = MAX_KEYS
            · -- the scan child is full: split it, then recurse on the new parent
              have hd1 : descendFull (mm_node.mk false n ks cs) key = 1 :=
                descendFull_eq_one rfl hcn hcf
              have hnfull : n < MAX_KEYS := by
                rcases hroom with h | ⟨h2, h3⟩
                · simpa using h
                · omega
              obtain ⟨p2, hsp⟩ : ∃ p2, splitNode (mm_node.mk false n ks cs)
                  (searchInKeys key (ks.take n)) = some p2 := ⟨_, splitNode_eq hcn⟩
              have hg2 : Good lo hi (g + 1) (mm_node.mk false n ks cs) :=
                Good.node lo hi g n ks cs hlen hlenc hn1 hn2 hsort hbnd hrec hstale
                  hstalec hkids hnn
              obtain ⟨hp2good, hp2ent, hp2leaf, hp2n⟩ :=
                splitNode_good hg2 hposle hnfull hcn hcf hsp
              have hmeas : 2 * nheight p2 + descendFull p2 key <
                  2 * nheight (mm_node.mk false n ks cs) +
                    descendFull (mm_node.mk false n ks cs) key :=
                split_measure rfl hcn hcf hsp
              have hdf0 : descendFull p2 key = 0 :=
                split_descendFull (show (mm_node.mk false n ks cs).isLeaf = false from rfl)
                  hcn hcf hsp
              obtain ⟨res, nd2, a, hxeq, hxgood, hxent⟩ :=
                ih (by omega) hp2good (Or.inr ⟨hp2leaf, hdf0⟩) hlo hhi
              refine ⟨res, nd2, a + 1, ?_, hxgood, ?_⟩
              · rw [searchAndInsert_split u (mm_node.mk false n ks cs) key true c p2
                  hf rfl hcn ⟨rfl, hcf⟩ hsp, hxeq]
                rfl
              · rw [hxent, hp2ent]
            · -- the scan child has room: descend into it
              have hcnfull : c.nKeys < MAX_KEYS := by omega
              have hmeas : 2 * nheight c + descendFull c key ≤ M := by
                have h1 : nheight c < kheight cs + 1 := nheight_lt_of_getD hcn
                have h2 := descendFull_le_one c key
                have h3 := descendFull_le_one (mm_node.mk false n ks cs) key
                have h4 : nheight (mm_node.mk false n ks cs) = kheight cs + 1 := by
                  rw [nheight_eq, mm_node.kids_mk]
                omega
              obtain ⟨res, nd2, a, hxeq, hxgood, hxent⟩ :=
                ih hmeas hcgood (Or.inl hcnfull) hblo hbhi
              refine ⟨res, mm_node.mk false n ks
                (cs.set (searchInKeys key (ks.take n)) (some nd2)), a, ?_, ?_, ?_⟩
              · rw [searchAndInsert_descend u (mm_node.mk false n ks cs) key true c
                  hf rfl hcn (by simp [hcf]), hxeq]
                rfl
              · apply Good.node
                · exact hlen
                · rw [List.length_set, hlenc]
                · exact hn1
                · exact hn2
                · exact hsort
                · exact hbnd
                · exact hrec
                · exact hstale
                · rw [drop_set_of_lt _ (by omega)]
                  exact hstalec
                · intro i c2 hile hci
                  by_cases hip : searchInKeys key (ks.take n) = i
                  · subst hip
                    rw [getD_set_eq _ _ (by omega)] at hci
                    have hc2 := (Option.some.inj hci).symm
                    subst hc2
                    exact hxgood
                  · rw [getD_set_ne _ _ hip] at hci
                    exact hkids i c2 hile hci
                · intro i hile
                  by_cases hip : searchInKeys key (ks.take n) = i
                  · subst hip
                    rw [getD_set_eq _ _ (by omega)]
                    simp
                  · rw [getD_set_ne _ _ hip]
                    exact hnn i hile
              · simp only [entries_node]
                rcases hidx with hpn | ⟨hlt, hklt⟩
                · rw [hpn]
                  rw [inter_child_replace_last (some nd2) (by omega) (by omega),
                    entA_some, hxent]
                  have hsp1 : inter (ks.take n) (cs.take (n + 1)) =
                      inter (ks.take n) (cs.take n) ++
                        inter ((ks.take n).drop n) ((cs.take (n + 1)).drop n) :=
                    inter_split (by omega) (by omega) (by omega)
                  have hlast : inter ((ks.take n).drop n) ((cs.take (n + 1)).drop n) =
                      entA (cs.getD n none) := inter_take_last (by omega) (by omega)
                  have hcnn : cs.getD n none = some c := hpn ▸ hcn
                  have hblo2 : loLt (bndL lo ks n) key := hpn ▸ hblo
                  conv_rhs => rw [hsp1, hlast]
                  rw [hcnn, entA_some]
                  rw [upsert_append_left u (fun r hr =>
                    inter_prefix_keys_lt hsort hkids (le_refl n) hblo2 r hr)]
                · rw [inter_child_replace (some nd2) (by omega) (by omega) hlt,
                    entA_some, hxent]
                  have hsp1 : inter (ks.take n) (cs.take (n + 1)) =
                      inter (ks.take (searchInKeys key (ks.take n)))
                          (cs.take (searchInKeys key (ks.take n))) ++
                        inter ((ks.take n).drop (searchInKeys key (ks.take n)))
                          ((cs.take (n + 1)).drop (searchInKeys key (ks.take n))) :=
                    inter_split (by omega) (by omega) (by omega)
                  have hun : inter ((ks.take n).drop (searchInKeys key (ks.take n)))
                        ((cs.take (n + 1)).drop (searchInKeys key (ks.take n))) =
                      entA (cs.getD (searchInKeys key (ks.take n)) none) ++
                        (ks.getD (searchInKeys key (ks.take n)) key_node.zero) ::
                        inter ((ks.take n).drop (searchInKeys key (ks.take n) + 1))
                          ((cs.take (n + 1)).drop (searchInKeys key (ks.take n) + 1)) :=
                    inter_take_unfold hlt (by omega) (by omega)
                  conv_rhs => rw [hsp1, hun]
                  rw [hcn, entA_some]
                  rw [upsert_append_left u (fun r hr =>
                    inter_prefix_keys_lt hsort hkids hposle hblo r hr)]
                  have hgt2 : ∀ r, r ∈ (ks.getD (searchInKeys key (ks.take n))
                      key_node.zero) :: inter ((ks.take n).drop
                        (searchInKeys key (ks.take n) + 1))
                      ((cs.take (n + 1)).drop (searchInKeys key (ks.take n) + 1)) →
                      key < r.key := by
                    intro r hr
                    rcases List.mem_cons.mp hr with h1 | h1
                    · rw [h1]
                      exact hklt
                    · have hgt3 : loLt (bndL lo ks (searchInKeys key (ks.take n) + 1))
                          r.key :=
                        inter_suffix_keys_gt (by omega) hsort hbnd hkids (by omega) r h1
                      rw [bndL] at hgt3
                      simp only [loLt_some] at hgt3
                      omega
                  rw [upsert_append_right u hgt2 (good_entries hcgood).1]

/-!  The multimap level: the tree invariant of the public interface and
the abstract contents. -/

/-- Reachable tree states: no root, or a Good root over the unbounded
key interval. -/
def TreeInv (mm : multimap) : Prop :=
  mm.root = none ∨ ∃ h root, mm.root = some root ∧ Good none none h root

/-- The abstract contents of a multimap: the in-order records of the
root subtree. -/
def Abs (mm : multimap) : List key_node :=
  match mm.root with
  | none => []
  | some root => entries root

@[simp] theorem Abs_none : Abs ⟨none⟩ = [] := rfl

@[simp] theorem Abs_some (root : mm_node) : Abs ⟨some root⟩ = entries root := rfl

/-- find_node with create unset on a nonempty tree is the pure lookup:
the record lookupE finds, the same tree, no allocation. -/
theorem find_node_lookup {mm : multimap} {h : Nat} {root : mm_node} {key : Int}
    (hr : mm.root = some root) (hg : Good none none h root) :
    find_node mm key false (fun r => r) =
      some (FindResult.ofPtr (lookupE (entries root) key), mm, 0) := by
  cases mm with
  | mk r =>
    have hr2 : r = some root := hr
    subst hr2
    simp only [find_node]
    rw [if_neg (by simp)]
    rw [searchAndInsert_lookup hg (loLt_none key) (hiGt_none key)]
    rfl

/-- Growing a new root over a full old root: the artificial zero-key
parent built by find_node, split at position 0, is Good one level
higher with the same records. -/
theorem root_grow_good {h : Nat} {root root2 : mm_node}
    (hg : Good none none h root) (hfull : root.nKeys = MAX_KEYS)
    (hsp : splitNode (mm_node.mk false 0 (List.replicate MAX_KEYS key_node.zero)
      ((List.replicate (MAX_KEYS + 1) none).set 0 (some root))) 0 = some root2) :
    Good none none (h + 1) root2 ∧ entries root2 = entries root ∧
    root2.nKeys = 1 ∧ root2.isLeaf = false := by
  have hM : MAX_KEYS = 500 := rfl
  obtain ⟨hE2good, hYgood, hseplo, hsephi, hseprec, hentE, hE2n, hYn, hE2lf, hYlf⟩ :=
    good_split hg hfull
  have hget0 : (mm_node.mk false 0 (List.replicate MAX_KEYS key_node.zero)
      ((List.replicate (MAX_KEYS + 1) none).set 0 (some root))).kids.getD 0 none =
      some root :=
    getD_set_eq _ _ (by rw [List.length_replicate]; omega)
  rw [splitNode_eq hget0] at hsp
  simp only [mm_node.isLeaf_mk, mm_node.nKeys_mk, mm_node.kNodes_mk, mm_node.kids_mk] at hsp
  rw [hfull, show MAX_KEYS / 2 = 250 by norm_num [MAX_KEYS]] at hsp
  have hmv1 : memmoveL (List.replicate MAX_KEYS key_node.zero) (0 + 1) 0 (0 - 0) =
      List.replicate MAX_KEYS key_node.zero := by
    rw [memmoveL, List.take_zero, writeL_nil_seg]
  have hmv2 : memmoveL ((List.replicate (MAX_KEYS + 1) (none : Option mm_node)).set 0
        (some root)) (0 + 2) (0 + 1) (0 - 0) =
      (List.replicate (MAX_KEYS + 1) (none : Option mm_node)).set 0 (some root) := by
    rw [memmoveL, List.take_zero, writeL_nil_seg]
  rw [hmv1, hmv2] at hsp
  have hp2 := (Option.some.inj hsp).symm
  subst hp2
  -- the key array: separator record then zeros
  have hks2 : (List.replicate MAX_KEYS key_node.zero).set 0
      (root.kNodes.getD 250 key_node.zero) =
      root.kNodes.getD 250 key_node.zero :: List.replicate (MAX_KEYS - 1) key_node.zero := by
    rw [List.set_eq_take_cons_drop _ (by rw [List.length_replicate]; omega),
      List.take_zero, List.nil_append, List.drop_replicate]
  -- the child array: the two halves then nulls
  have hcs2 : (((List.replicate (MAX_KEYS + 1) (none : Option mm_node)).set 0
        (some root)).set (0 + 1) (some (splitYounger root))).set 0 (some (splitElder root)) =
      some (splitElder root) :: some (splitYounger root) ::
        List.replicate (MAX_KEYS - 1) none := by
    have e1 : List.replicate (MAX_KEYS + 1) (none : Option mm_node) =
        none :: none :: List.replicate (MAX_KEYS - 1) none := rfl
    rw [e1]
    rfl
  rw [hks2, hcs2]
  have hgd0 : (root.kNodes.getD 250 key_node.zero ::
      List.replicate (MAX_KEYS - 1) key_node.zero).getD 0 key_node.zero =
      root.kNodes.getD 250 key_node.zero := List.getD_cons_zero
  refine ⟨?_, ?_, rfl, rfl⟩
  · apply Good.node
    · rw [List.length_cons, List.length_replicate]
      omega
    · rw [List.length_cons, List.length_cons, List.length_replicate]
      omega
    · omega
    · omega
    · intro i hi
      omega
    · intro i hi
      have hi0 : i = 0 := by omega
      subst hi0
      rw [hgd0]
      exact ⟨loLt_none _, hiGt_none _⟩
    · intro i hi
      have hi0 : i = 0 := by omega
      subst hi0
      rw [hgd0]
      exact hseprec
    · rw [List.drop_succ_cons, List.drop_zero]
    · rw [List.drop_succ_cons, List.drop_succ_cons, List.drop_zero]
    · intro i c hile hci
      rcases Nat.le_one_iff_eq_zero_or_eq_one.mp hile with hi0 | hi1
      · subst hi0
        rw [List.getD_cons_zero] at hci
        have hc2 := (Option.some.inj hci).symm
        subst hc2
        rw [bndL, bndH, if_neg (by omega), hgd0]
        exact hE2good
      · subst hi1
        rw [List.getD_cons_succ, List.getD_cons_zero] at hci
        have hc2 := (Option.some.inj hci).symm
        subst hc2
        rw [bndL, bndH, if_pos rfl, hgd0]
        exact hYgood
    · intro i hile
      rcases Nat.le_one_iff_eq_zero_or_eq_one.mp hile with hi0 | hi1
      · subst hi0
        simp
      · subst hi1
        simp
  · rw [entries_node]
    have ht1 : (root.kNodes.getD 250 key_node.zero ::
        List.replicate (MAX_KEYS - 1) key_node.zero).take 1 =
        [root.kNodes.getD 250 key_node.zero] := by
      rw [List.take_succ_cons, List.take_zero]
    have ht2 : (some (splitElder root) :: some (splitYounger root) ::
        List.replicate (MAX_KEYS - 1) (none : Option mm_node)).take (1 + 1) =
        [some (splitElder root), some (splitYounger root)] := by
      rw [List.take_succ_cons, List.take_succ_cons, List.take_zero]
    rw [ht1, ht2]
    rw [show ([some (splitElder root), some (splitYounger root)] :
        List (Option mm_node)) = some (splitElder root) ::
        some (splitYounger root) :: [] from rfl]
    rw [inter_cons_cons, inter_nil_cons, entA_some, entA_some]
    exact hentE.symm

/-- One mm_add_value on a reachable state succeeds, keeps the state
reachable and nonempty, and upserts an appended value into the abstract
contents. -/
theorem mm_add_value_good {mm : multimap} (key value : Int)
    (hinv : TreeInv mm) :
    ∃ mm2 : multimap, mm_add_value mm key value = some mm2 ∧ TreeInv mm2 ∧
      mm2.root ≠ none ∧ Abs mm2 = upsert (appendValue value) key (Abs mm) := by
  have hukey : ∀ r, (appendValue value r).key = r.key := appendValue_key value
  have hurec : ∀ r, RecOK r → RecOK (appendValue value r) := RecOK_appendValue value
  have hufresh : ∀ k : Int, RecOK (appendValue value (key_node.mk k [] 0)) :=
    fun k => (RecOK_appendValue_fresh value k).1
  rcases hinv with hnone | ⟨h, root, hr, hg⟩
  · -- empty tree: a fresh root leaf is built around the new record
    cases mm with
    | mk r =>
      have hr2 : r = none := hnone
      subst hr2
      refine ⟨⟨some (mm_node.mk true 1
        ((List.replicate MAX_KEYS key_node.zero).set 0
          (appendValue value { key_node.zero with key := key }))
        (List.replicate (MAX_KEYS + 1) none))⟩, rfl, ?_, by simp, ?_⟩
      · right
        refine ⟨0, _, rfl, ?_⟩
        have hset : (List.replicate MAX_KEYS key_node.zero).set 0
            (appendValue value { key_node.zero with key := key }) =
            appendValue value { key_node.zero with key := key } ::
              List.replicate (MAX_KEYS - 1) key_node.zero := by
          rw [List.set_eq_take_cons_drop _ (by rw [List.length_replicate, MAX_KEYS]; omega),
            List.take_zero, List.nil_append, List.drop_replicate]
        rw [hset]
        apply Good.leaf
        · rw [List.length_cons, List.length_replicate, MAX_KEYS]
        · omega
        · rw [MAX_KEYS]
          omega
        · intro i hi
          omega
        · intro i hi
          exact ⟨loLt_none _, hiGt_none _⟩
        · intro i hi
          have hi0 : i = 0 := by omega
          subst hi0
          rw [List.getD_cons_zero]
          exact hufresh key
        · rw [List.drop_succ_cons, List.drop_zero]
      · have hset : (List.replicate MAX_KEYS key_node.zero).set 0
            (appendValue value { key_node.zero with key := key }) =
            appendValue value { key_node.zero with key := key } ::
              List.replicate (MAX_KEYS - 1) key_node.zero := by
          rw [List.set_eq_take_cons_drop _ (by rw [List.length_replicate, MAX_KEYS]; omega),
            List.take_zero, List.nil_append, List.drop_replicate]
        rw [Abs_some, entries_leaf, hset, List.take_succ_cons, List.take_zero, Abs_none,
          upsert_nil]
        rfl
  · -- nonempty tree
    cases mm with
    | mk r =>
      have hr2 : r = some root := hr
      subst hr2
      obtain ⟨hrL, hrC, hrn1, hrn2⟩ := good_lengths hg
      by_cases hfull : root.nKeys = MAX_KEYS
      · -- full root: grow a new root, split, then insert
        obtain ⟨root2, hsp⟩ : ∃ root2, splitNode (mm_node.mk false 0
            (List.replicate MAX_KEYS key_node.zero)
            ((List.replicate (MAX_KEYS + 1) none).set 0 (some root))) 0 = some root2 :=
          ⟨_, splitNode_eq (getD_set_eq _ _ (by rw [List.length_replicate]; omega))⟩
        obtain ⟨hg2, hent2, hn2eq, hlf2⟩ := root_grow_good hg hfull hsp
        obtain ⟨res, nd2, a, hxeq, hxgood, hxent⟩ :=
          searchAndInsert_insert hukey hurec hufresh
            (2 * nheight root2 + descendFull root2 key) (le_refl _) hg2
            (Or.inl (by rw [hn2eq, MAX_KEYS]; omega)) (loLt_none key) (hiGt_none key)
        refine ⟨⟨some nd2⟩, ?_, Or.inr ⟨h + 1, nd2, rfl, hxgood⟩, by simp, ?_⟩
        · rw [mm_add_value]
          simp only [find_node]
          rw [if_pos ⟨hfull, by trivial⟩]
          simp only [hsp]
          rw [hxeq]
          rfl
        · rw [Abs_some, Abs_some, hxent, hent2]
      · -- root with room: insert directly
        obtain ⟨res, nd2, a, hxeq, hxgood, hxent⟩ :=
          searchAndInsert_insert hukey hurec hufresh
            (2 * nheight root + descendFull root key) (le_refl _) hg
            (Or.inl (by omega)) (loLt_none key) (hiGt_none key)
        refine ⟨⟨some nd2⟩, ?_, Or.inr ⟨h, nd2, rfl, hxgood⟩, by simp, ?_⟩
        · rw [mm_add_value]
          simp only [find_node]
          rw [if_neg (by simp [hfull]), hxeq]
          rfl
        · rw [Abs_some, Abs_some, hxent]

/-- Running a sequence of adds from a reachable state succeeds and
folds the upserts over the abstract contents. -/
theorem runAdds_good : ∀ (ps : List (Int × Int)) (mm : multimap), TreeInv mm →
    ∃ mm2, runAdds ps mm = some mm2 ∧ TreeInv mm2 ∧
      (mm2.root = none ↔ (mm.root = none ∧ ps = [])) ∧
      Abs mm2 = List.foldl (fun l p => upsert (appendValue p.2) p.1 l) (Abs mm) ps := by
  intro ps
  induction ps with
  | nil =>
    intro mm hinv
    exact ⟨mm, rfl, hinv, by simp, rfl⟩
  | cons p rest ihp =>
    intro mm hinv
    obtain ⟨k, v⟩ := p
    obtain ⟨mm1, h1eq, h1inv, h1ne, h1abs⟩ := mm_add_value_good k v hinv
    obtain ⟨mm2, h2eq, h2inv, h2none, h2abs⟩ := ihp mm1 h1inv
    refine ⟨mm2, ?_, h2inv, ?_, ?_⟩
    · rw [runAdds]
      simp only [h1eq]
      exact h2eq
    · simp only [h2none]
      constructor
      · intro hcon
        exact absurd hcon.1 h1ne
      · intro hcon
        cases hcon.2
    · rw [h2abs, h1abs, List.foldl_cons]

/-!  The traverse bridge: on a Good subtree the index loop of
mm_traverse_helper delivers exactly the pairs of the in-order records. -/

/-- The pairs a traverse of a record sequence delivers, in order. -/
def pairsOf : List key_node → List (Int × Int)
  | [] => []
  | r :: rs => kNode_traverse r ++ pairsOf rs

@[simp] theorem pairsOf_nil : pairsOf [] = [] := by rw [pairsOf]

@[simp] theorem pairsOf_cons (r : key_node) (rs : List key_node) :
    pairsOf (r :: rs) = kNode_traverse r ++ pairsOf rs := by rw [pairsOf]

theorem pairsOf_append (l1 l2 : List key_node) :
    pairsOf (l1 ++ l2) = pairsOf l1 ++ pairsOf l2 := by
  induction l1 with
  | nil => simp
  | cons r rs ih => simp [ih]

/-- On a Good subtree the traverse helper succeeds and delivers the
pairs of the in-order records. -/
theorem traverse_good {lo hi : Option Int} {hh : Nat} {nd : mm_node}
    (hg : Good lo hi hh nd) :
    mm_traverse_helper nd = some (pairsOf (entries nd)) := by
  induction hg with
  | leaf lo hi n ks hlen hn1 hn2 hsort hbnd hrec hstale =>
    have main : ∀ d i, i + d = n →
        travGo (mm_node.mk true n ks (List.replicate (MAX_KEYS + 1) none)) i =
          some (pairsOf ((ks.take n).drop i)) := by
      intro d
      induction d with
      | zero =>
        intro i hieq
        rw [travGo]
        simp only [mm_node.isLeaf_mk, mm_node.nKeys_mk]
        rw [if_neg (show ¬ i < n by omega),
          if_true,
          List.drop_eq_nil_of_le (by rw [List.length_take]; omega)]
        rfl
      | succ d2 ihd =>
        intro i hieq
        rw [travGo]
        simp only [mm_node.isLeaf_mk, mm_node.nKeys_mk, mm_node.kNodes_mk]
        rw [if_pos (show i < n by omega), if_true]
        have hih := ihd (i + 1) (by omega)
        simp only [hih]
        have hsplit : (ks.take n).drop i =
            ks.getD i key_node.zero :: (ks.take n).drop (i + 1) :=
          take_drop_cons key_node.zero (by omega) (by omega)
        rw [hsplit, pairsOf_cons]
    rw [mm_traverse_helper, entries_leaf]
    have h0 := main n 0 (by omega)
    rwa [List.drop_zero] at h0
  | node lo hi g n ks cs hlen hlenc hn1 hn2 hsort hbnd hrec hstale hstalec hkids hnn IH =>
    have main : ∀ d i, i + d = n →
        travGo (mm_node.mk false n ks cs) i =
          some (pairsOf (inter ((ks.take n).drop i) ((cs.take (n + 1)).drop i))) := by
      intro d
      induction d with
      | zero =>
        intro i hieq
        have hin : n = i := by omega
        subst hin
        rw [travGo]
        simp only [mm_node.isLeaf_mk, mm_node.nKeys_mk, mm_node.kids_mk]
        rw [if_neg (show ¬ n < n by omega),
          if_neg Bool.false_ne_true]
        cases hcn : cs.getD n none with
        | none => exact absurd hcn (hnn n (by omega))
        | some c =>
          simp only [hcn]
          rw [IH n c (by omega) hcn, inter_take_last (by omega) (by omega), hcn, entA_some]
      | succ d2 ihd =>
        intro i hieq
        rw [travGo]
        simp only [mm_node.isLeaf_mk, mm_node.nKeys_mk, mm_node.kNodes_mk, mm_node.kids_mk]
        rw [if_pos (show i < n by omega),
          if_neg Bool.false_ne_true]
        cases hcn : cs.getD i none with
        | none => exact absurd hcn (hnn i (by omega))
        | some c =>
          simp only [hcn]
          rw [IH i c (by omega) hcn]
          have hih := ihd (i + 1) (by omega)
          simp only [hih]
          have hun : inter ((ks.take n).drop i) ((cs.take (n + 1)).drop i) =
              entA (cs.getD i none) ++ (ks.getD i key_node.zero) ::
                inter ((ks.take n).drop (i + 1)) ((cs.take (n + 1)).drop (i + 1)) :=
            inter_take_unfold (by omega) (by omega) (by omega)
          rw [hun, hcn, entA_some, pairsOf_append, pairsOf_cons]
          rw [List.append_assoc]
    rw [mm_traverse_helper, entries_node]
    have h0 := main n 0 (by omega)
    rwa [List.drop_zero, List.drop_zero] at h0

/-!  Per-key contents: the value list stored under one key, how an
upsert of mm_add_value changes it, and how the pairs of a traverse
report it. -/

/-- The values stored under one key in a record sequence. -/
def valsOf (l : List key_node) (k : Int) : List Int :=
  match lookupE l k with
  | none => []
  | some r => r.values

@[simp] theorem valsOf_nil (k : Int) : valsOf [] k = [] := by rw [valsOf, lookupE_nil]

theorem valsOf_of_lookup_none {l : List key_node} {k : Int} (h : lookupE l k = none) :
    valsOf l k = [] := by rw [valsOf, h]

theorem valsOf_of_lookup_some {l : List key_node} {k : Int} {r : key_node}
    (h : lookupE l k = some r) : valsOf l k = r.values := by rw [valsOf, h]

/-- Lookup of a different key is unchanged by an upsert. -/
theorem lookupE_upsert_ne {k k2 : Int} (u : key_node → key_node)
    (huk : ∀ r, (u r).key = r.key) (hne : k2 ≠ k) :
    ∀ l : List key_node, lookupE (upsert u k l) k2 = lookupE l k2 := by
  intro l
  induction l with
  | nil =>
    rw [upsert_nil, lookupE_cons, lookupE_nil, if_neg (by rw [huk]; exact fun h => hne h.symm)]
  | cons r rs ih =>
    rw [upsert_cons]
    by_cases h1 : k < r.key
    · rw [if_pos h1, lookupE_cons, if_neg (by rw [huk]; exact fun h => hne h.symm)]
    · rw [if_neg h1]
      by_cases h2 : r.key = k
      · rw [if_pos h2, lookupE_cons, lookupE_cons, huk,
          if_neg (by rw [h2]; exact fun h => hne h.symm),
          if_neg (by rw [h2]; exact fun h => hne h.symm)]
      · rw [if_neg h2, lookupE_cons, lookupE_cons, ih]

/-- Upsert of an absent key makes it findable with the fresh record. -/
theorem lookupE_upsert_self_none {k : Int} (u : key_node → key_node)
    (huk : ∀ r, (u r).key = r.key) :
    ∀ l : List key_node, lookupE l k = none →
      lookupE (upsert u k l) k = some (u (key_node.mk k [] 0)) := by
  intro l
  induction l with
  | nil =>
    intro h
    rw [upsert_nil, lookupE_cons, if_pos (huk _)]
  | cons r rs ih =>
    intro h
    rw [lookupE_cons] at h
    by_cases h2 : r.key = k
    · rw [if_pos h2] at h
      cases h
    · rw [if_neg h2] at h
      rw [upsert_cons]
      by_cases h1 : k < r.key
      · rw [if_pos h1, lookupE_cons, if_pos (huk _)]
      · rw [if_neg h1, if_neg h2, lookupE_cons, if_neg h2]
        exact ih h

/-- Upsert of a present key updates its record in place. -/
theorem lookupE_upsert_self_some {k : Int} (u : key_node → key_node)
    (huk : ∀ r, (u r).key = r.key) :
    ∀ l : List key_node, l.Pairwise (fun a b => a.key < b.key) →
      ∀ r0, lookupE l k = some r0 →
      lookupE (upsert u k l) k = some (u r0) := by
  intro l
  induction l with
  | nil =>
    intro hpair r0 h
    rw [lookupE_nil] at h
    cases h
  | cons r rs ih =>
    intro hpair r0 h
    rw [List.pairwise_cons] at hpair
    rw [lookupE_cons] at h
    by_cases h2 : r.key = k
    · rw [if_pos h2] at h
      have hr0 := Option.some.inj h
      subst hr0
      rw [upsert_cons, if_neg (by omega), if_pos h2, lookupE_cons, if_pos (by rw [huk]; exact h2)]
    · rw [if_neg h2] at h
      rw [upsert_cons]
      by_cases h1 : k < r.key
      · exfalso
        obtain ⟨hmem, hkey⟩ := lookupE_some_mem h
        have := hpair.1 r0 hmem
        omega
      · rw [if_neg h1, if_neg h2, lookupE_cons, if_neg h2]
        exact ih hpair.2 r0 h

/-- How one mm_add_value upsert changes the per-key value lists: the
target key gains the appended value at the end, every other key is
untouched. -/
theorem valsOf_upsert {l : List key_node} (hpair : l.Pairwise (fun a b => a.key < b.key))
    (v k k2 : Int) :
    valsOf (upsert (appendValue v) k l) k2 =
      if k2 = k then valsOf l k ++ [v] else valsOf l k2 := by
  by_cases h : k2 = k
  · rw [if_pos h]
    subst h
    cases hl : lookupE l k2 with
    | none =>
      rw [valsOf_of_lookup_none hl, List.nil_append,
        valsOf_of_lookup_some (lookupE_upsert_self_none (appendValue v)
          (appendValue_key v) l hl), appendValue_values]
      rfl
    | some r0 =>
      rw [valsOf_of_lookup_some hl,
        valsOf_of_lookup_some (lookupE_upsert_self_some (appendValue v)
          (appendValue_key v) l hpair r0 hl), appendValue_values]
  · rw [if_neg h, valsOf, valsOf, lookupE_upsert_ne (appendValue v) (appendValue_key v) h l]

/-- The contains_pair scan finds a value iff it is in the buffer. -/
theorem scanVals_mem (value : Int) : ∀ l : List Int, scanVals value l = decide (value ∈ l) := by
  intro l
  induction l with
  | nil => rw [scanVals]; simp
  | cons v rest ih =>
    rw [scanVals]
    by_cases h : v = value
    · rw [if_pos h]
      subst h
      simp
    · rw [if_neg h, ih]
      refine decide_eq_decide.mpr ?_
      rw [List.mem_cons]
      constructor
      · exact Or.inr
      · rintro (he | hm)
        · exact absurd he.symm h
        · exact hm

/-- Every traverse pair comes from a record of the sequence. -/
theorem mem_pairsOf {l : List key_node} {p : Int × Int} (h : p ∈ pairsOf l) :
    ∃ r ∈ l, p.1 = r.key ∧ p.2 ∈ r.values := by
  induction l with
  | nil => simp at h
  | cons r rs ih =>
    rw [pairsOf_cons, List.mem_append] at h
    cases h with
    | inl h1 =>
      rw [kNode_traverse, List.mem_map] at h1
      obtain ⟨v, hv, hpv⟩ := h1
      exact ⟨r, List.mem_cons_self r rs, by rw [← hpv], by rw [← hpv]; exact hv⟩
    | inr h2 =>
      obtain ⟨r2, hr2, hp⟩ := ih h2
      exact ⟨r2, List.mem_cons_of_mem r hr2, hp⟩

/-- The traverse pairs of a single record, filtered at its own key,
are all of them. -/
theorem kNode_filter_eq {r : key_node} {k : Int} (h : r.key = k) :
    (kNode_traverse r).filter (fun p => decide (p.1 = k)) = kNode_traverse r := by
  rw [List.filter_eq_self]
  intro p hp
  rw [kNode_traverse, List.mem_map] at hp
  obtain ⟨v, hv, hpv⟩ := hp
  rw [← hpv]
  simp [h]

/-- The traverse pairs of a single record, filtered at another key,
are none. -/
theorem kNode_filter_ne {r : key_node} {k : Int} (h : r.key ≠ k) :
    (kNode_traverse r).filter (fun p => decide (p.1 = k)) = [] := by
  rw [List.filter_eq_nil_iff]
  intro p hp
  rw [kNode_traverse, List.mem_map] at hp
  obtain ⟨v, hv, hpv⟩ := hp
  rw [← hpv]
  simp [h]

/-- Filtering the traverse pairs at a key no record carries gives
nothing. -/
theorem pairsOf_filter_none {k : Int} :
    ∀ {l : List key_node}, (∀ r ∈ l, r.key ≠ k) →
      (pairsOf l).filter (fun p => decide (p.1 = k)) = [] := by
  intro l
  induction l with
  | nil => intro h; simp
  | cons r rs ih =>
    intro h
    rw [pairsOf_cons, List.filter_append, kNode_filter_ne (h r (List.mem_cons_self r rs)),
      List.nil_append]
    exact ih (fun r2 hr2 => h r2 (List.mem_cons_of_mem r hr2))

/-- Filtering the traverse pairs of a sorted record sequence at one
key gives exactly the values stored under that key, paired with it. -/
theorem pairsOf_filter {k : Int} :
    ∀ {l : List key_node}, l.Pairwise (fun a b => a.key < b.key) →
      (pairsOf l).filter (fun p => decide (p.1 = k)) =
        (valsOf l k).map (fun v => (k, v)) := by
  intro l
  induction l with
  | nil => intro h; simp
  | cons r rs ih =>
    intro hpair
    rw [List.pairwise_cons] at hpair
    rw [pairsOf_cons, List.filter_append]
    by_cases h : r.key = k
    · rw [kNode_filter_eq h,
        pairsOf_filter_none (fun r2 hr2 => by have := hpair.1 r2 hr2; omega),
        List.append_nil, valsOf_of_lookup_some (l := r :: rs) (by rw [lookupE_cons, if_pos h]),
        kNode_traverse, h]
    · rw [kNode_filter_ne h, List.nil_append, ih hpair.2]
      have : valsOf (r :: rs) k = valsOf rs k := by
        rw [valsOf, valsOf, lookupE_cons, if_neg h]
      rw [this]

/-- Each mm_add_value upsert adds exactly one traverse pair. -/
theorem pairsOf_length_upsert (v k : Int) :
    ∀ l : List key_node,
      (pairsOf (upsert (appendValue v) k l)).length = (pairsOf l).length + 1 := by
  intro l
  induction l with
  | nil =>
    rw [upsert_nil, pairsOf_cons, pairsOf_nil, List.length_append, kNode_traverse,
      appendValue_values, List.length_map]
    rfl
  | cons r rs ih =>
    rw [upsert_cons]
    by_cases h1 : k < r.key
    · rw [if_pos h1, pairsOf_cons, pairsOf_cons, List.length_append, List.length_append,
        kNode_traverse, appendValue_values, List.length_map]
      simp only [List.length_append, List.length_nil, List.length_cons, kNode_traverse,
        List.length_map]
      omega
    · rw [if_neg h1]
      by_cases h2 : r.key = k
      · rw [if_pos h2, pairsOf_cons, pairsOf_cons, List.length_append, List.length_append,
          kNode_traverse, kNode_traverse, appendValue_values, List.length_map,
          List.length_map, List.length_append]
        simp only [List.length_cons, List.length_nil]
        omega
      · rw [if_neg h2, pairsOf_cons, pairsOf_cons, List.length_append, List.length_append, ih]
        omega

/-- The traverse pairs of a sorted record sequence are sorted by key. -/
theorem pairsOf_pairwise :
    ∀ {l : List key_node}, l.Pairwise (fun a b => a.key < b.key) →
      (pairsOf l).Pairwise (fun a b => a.1 ≤ b.1) := by
  intro l
  induction l with
  | nil => intro h; simp
  | cons r rs ih =>
    intro hpair
    rw [List.pairwise_cons] at hpair
    rw [pairsOf_cons, List.pairwise_append]
    refine ⟨?_, ih hpair.2, ?_⟩
    · rw [kNode_traverse, List.pairwise_map]
      have htriv : ∀ l2 : List Int, List.Pairwise (fun a b : Int => r.key ≤ r.key) l2 := by
        intro l2
        induction l2 with
        | nil => exact List.Pairwise.nil
        | cons x xs ih2 => exact List.Pairwise.cons (fun y hy => le_refl _) ih2
      exact htriv r.values
    · intro a ha b hb
      rw [kNode_traverse, List.mem_map] at ha
      obtain ⟨va, hva, hpa⟩ := ha
      obtain ⟨r2, hr2, hb1, hb2⟩ := mem_pairsOf hb
      rw [← hpa]
      show r.key ≤ b.1
      rw [hb1]
      exact le_of_lt (hpair.1 r2 hr2)

/-- The abstract contents of a reachable multimap are sorted by key. -/
theorem Abs_pairwise {mm : multimap} (hinv : TreeInv mm) :
    (Abs mm).Pairwise (fun a b => a.key < b.key) := by
  rcases hinv with hnone | ⟨h, root, hr, hg⟩
  · rw [Abs, hnone]
    exact List.Pairwise.nil
  · rw [Abs, hr]
    exact (good_entries hg).2.2

/-- Running adds from a reachable state: the per-key value lists gain
exactly the added values for that key, in order. -/
theorem runAdds_valsOf : ∀ (ps : List (Int × Int)) (mm : multimap), TreeInv mm →
    ∀ mm2, runAdds ps mm = some mm2 →
    ∀ k, valsOf (Abs mm2) k =
      valsOf (Abs mm) k ++ (ps.filter (fun p => decide (p.1 = k))).map (fun p => p.2) := by
  intro ps
  induction ps with
  | nil =>
    intro mm hinv mm2 hrun k
    rw [runAdds] at hrun
    have h := Option.some.inj hrun
    subst h
    rw [List.filter_nil, List.map_nil, List.append_nil]
  | cons p rest ih =>
    intro mm hinv mm2 hrun k
    obtain ⟨k1, v1⟩ := p
    obtain ⟨mm1, h1eq, h1inv, h1ne, h1abs⟩ := mm_add_value_good k1 v1 hinv
    rw [runAdds] at hrun
    simp only [h1eq] at hrun
    have hrest := ih mm1 h1inv mm2 hrun k
    rw [hrest, h1abs, valsOf_upsert (Abs_pairwise hinv) v1 k1 k]
    by_cases hk : k = k1
    · subst hk
      rw [if_pos rfl, List.filter_cons,
        if_pos (show decide (((k, v1) : Int × Int).1 = k) = true by simp),
        List.map_cons, List.append_assoc, List.singleton_append]
    · rw [if_neg hk, List.filter_cons,
        if_neg (show ¬ decide (((k1, v1) : Int × Int).1 = k) = true by
          simp only [decide_eq_true_eq]
          exact fun h => hk h.symm)]

/-- Running adds from a reachable state: the total number of traverse
pairs grows by exactly the number of adds. -/
theorem runAdds_length : ∀ (ps : List (Int × Int)) (mm : multimap), TreeInv mm →
    ∀ mm2, runAdds ps mm = some mm2 →
      (pairsOf (Abs mm2)).length = (pairsOf (Abs mm)).length + ps.length := by
  intro ps
  induction ps with
  | nil =>
    intro mm hinv mm2 hrun
    rw [runAdds] at hrun
    have h := Option.some.inj hrun
    subst h
    rfl
  | cons p rest ih =>
    intro mm hinv mm2 hrun
    obtain ⟨k1, v1⟩ := p
    obtain ⟨mm1, h1eq, h1inv, h1ne, h1abs⟩ := mm_add_value_good k1 v1 hinv
    rw [runAdds] at hrun
    simp only [h1eq] at hrun
    have hrest := ih mm1 h1inv mm2 hrun
    rw [hrest, h1abs, pairsOf_length_upsert v1 k1 (Abs mm), List.length_cons]
    omega

/-- clear_multimap always leaves the empty handle. -/
theorem clear_multimap_eq (mm : multimap) : clear_multimap mm = ⟨none⟩ := by
  rw [clear_multimap]
  cases mm.root with
  | none => rfl
  | some r => rfl

/-- One completed public operation preserves reachability. -/
theorem applyOp_inv {mm mm1 : multimap} {op : MMOp} (hinv : TreeInv mm)
    (happ : applyOp mm op = some mm1) : TreeInv mm1 := by
  cases op with
  | addValue k v =>
    obtain ⟨mm2, h1eq, h1inv, h1ne, h1abs⟩ := mm_add_value_good k v hinv
    rw [applyOp, h1eq] at happ
    have h := Option.some.inj happ
    subst h
    exact h1inv
  | containsKey k =>
    rw [applyOp] at happ
    cases hck : mm_contains_key mm k with
    | none =>
      rw [hck] at happ
      cases happ
    | some b =>
      rw [hck] at happ
      have h := Option.some.inj happ
      subst h
      exact hinv
  | containsPair k v =>
    rw [applyOp] at happ
    cases hcp : mm_contains_pair mm k v with
    | none =>
      rw [hcp] at happ
      cases happ
    | some b =>
      rw [hcp] at happ
      have h := Option.some.inj happ
      subst h
      exact hinv
  | clearAll =>
    rw [applyOp, clear_multimap_eq] at happ
    have h := Option.some.inj happ
    subst h
    exact Or.inl rfl

/-- A completed run of public operations preserves reachability. -/
theorem runOps_inv : ∀ (ops : List MMOp) (mm : multimap), TreeInv mm →
    ∀ mm2, runOps ops mm = some mm2 → TreeInv mm2 := by
  intro ops
  induction ops with
  | nil =>
    intro mm hinv mm2 hrun
    rw [runOps] at hrun
    have h := Option.some.inj hrun
    subst h
    exact hinv
  | cons op rest ih =>
    intro mm hinv mm2 hrun
    rw [runOps] at hrun
    cases happ : applyOp mm op with
    | none =>
      rw [happ] at hrun
      cases hrun
    | some mm1 =>
      rw [happ] at hrun
      exact ih mm1 (applyOp_inv hinv happ) mm2 hrun

/-!  The per-node shape conditions of the spec, stated directly on the
node structure, and the equal-depth condition on leaves. -/

/-- The local shape of one node as the spec states it: key count within
the fanout, keys strictly increasing, an internal node with exactly
nKeys + 1 non-empty children, and a leaf with no children at all. -/
def localWF (nd : mm_node) : Prop :=
  nd.nKeys ≤ MAX_KEYS ∧
  (∀ i, i + 1 < nd.nKeys →
    (nd.kNodes.getD i key_node.zero).key < (nd.kNodes.getD (i + 1) key_node.zero).key) ∧
  (nd.isLeaf = false →
    (∀ i, i ≤ nd.nKeys → nd.kids.getD i none ≠ none) ∧
    (∀ i, nd.nKeys < i → nd.kids.getD i none = none)) ∧
  (nd.isLeaf = true → ∀ i, nd.kids.getD i none = none)

/-- Every node of a subtree satisfies the local shape conditions. -/
inductive AllWF : mm_node → Prop where
  | mk (nd : mm_node) (hloc : localWF nd)
      (hkids : ∀ c : mm_node, some c ∈ nd.kids → AllWF c) : AllWF nd

/-- All leaves of a subtree lie at one equal depth: a leaf has depth 0,
and every child of an internal node lies one level lower. -/
inductive EqDepth : Nat → mm_node → Prop where
  | leaf (nd : mm_node) (h : nd.isLeaf = true) : EqDepth 0 nd
  | node (d : Nat) (nd : mm_node) (h : nd.isLeaf = false)
      (hkids : ∀ c : mm_node, some c ∈ nd.kids → EqDepth d c) : EqDepth (d + 1) nd

/-- A non-none member of a child array sits at some index. -/
theorem mem_some_index {cs : List (Option mm_node)} {c : mm_node} (h : some c ∈ cs) :
    ∃ j, j < cs.length ∧ cs.getD j none = some c := by
  obtain ⟨j, hj, hje⟩ := List.getElem_of_mem h
  exact ⟨j, hj, by rw [getD_eq_getElem none hj, hje]⟩

/-- Child slots past the live range of a Good internal node are none. -/
theorem stale_getD_none {cs : List (Option mm_node)} {n j : Nat}
    (hlenc : cs.length = MAX_KEYS + 1)
    (hstalec : cs.drop (n + 1) = List.replicate (MAX_KEYS - n) none)
    (hj : j < cs.length) (hjn : n < j) : cs.getD j none = none := by
  have h2 : cs.getD j none = (cs.drop (n + 1)).getD (j - (n + 1)) none := by
    rw [getD_drop, show n + 1 + (j - (n + 1)) = j from by omega]
  rw [h2, hstalec]
  exact getD_replicate none none (by omega)

/-- Every node of a Good subtree satisfies the local shape conditions. -/
theorem good_allWF {lo hi : Option Int} {hh : Nat} {nd : mm_node} (hg : Good lo hi hh nd) :
    AllWF nd := by
  induction hg with
  | leaf lo hi n ks hlen hn1 hn2 hsort hbnd hrec hstale =>
    refine AllWF.mk _ ⟨hn2, hsort, ?_, ?_⟩ ?_
    · intro hcon
      exact Bool.noConfusion hcon
    · intro _ i
      exact getD_replicate_self i (MAX_KEYS + 1) none
    · intro c hc
      simp only [mm_node.kids_mk] at hc
      have h1 := List.eq_of_mem_replicate hc
      cases h1
  | node lo hi h n ks cs hlen hlenc hn1 hn2 hsort hbnd hrec hstale hstalec hkids hnn ih =>
    refine AllWF.mk _ ⟨hn2, hsort, ?_, ?_⟩ ?_
    · intro _
      refine ⟨hnn, ?_⟩
      intro i hi
      simp only [mm_node.kids_mk, mm_node.nKeys_mk] at hi ⊢
      by_cases hlt : i < cs.length
      · exact stale_getD_none hlenc hstalec hlt hi
      · exact List.getD_eq_default _ _ (by omega)
    · intro hcon
      exact Bool.noConfusion hcon
    · intro c hc
      simp only [mm_node.kids_mk] at hc
      obtain ⟨j, hj, hje⟩ := mem_some_index hc
      by_cases hjn : j ≤ n
      · exact ih j c hjn hje
      · exfalso
        have h1 := stale_getD_none hlenc hstalec hj (by omega)
        rw [hje] at h1
        cases h1

/-- All leaves of a Good subtree lie at the Good height. -/
theorem good_eqDepth {lo hi : Option Int} {hh : Nat} {nd : mm_node} (hg : Good lo hi hh nd) :
    EqDepth hh nd := by
  induction hg with
  | leaf lo hi n ks hlen hn1 hn2 hsort hbnd hrec hstale =>
    exact EqDepth.leaf _ rfl
  | node lo hi h n ks cs hlen hlenc hn1 hn2 hsort hbnd hrec hstale hstalec hkids hnn ih =>
    refine EqDepth.node h _ rfl ?_
    intro c hc
    simp only [mm_node.kids_mk] at hc
    obtain ⟨j, hj, hje⟩ := mem_some_index hc
    by_cases hjn : j ≤ n
    · exact ih j c hjn hje
    · exfalso
      have h1 := stale_getD_none hlenc hstalec hj (by omega)
      rw [hje] at h1
      cases h1

/-- C1: after a nonempty completed sequence of add_value calls on a
fresh multimap, mm_traverse succeeds and delivers exactly one pair per
add_value call (duplicates preserved), in ascending key order, and the
pairs carrying any one key are exactly the values added under that key
in insertion order. -/
theorem C1_traverse_delivers_adds (p : Int × Int) (ps : List (Int × Int)) (mm2 : multimap)
    (hrun : runAdds (p :: ps) init_multimap = some mm2) :
    ∃ out, mm_traverse mm2 = some out ∧
      out.length = (p :: ps).length ∧
      out.Pairwise (fun a b => a.1 ≤ b.1) ∧
      ∀ k : Int, out.filter (fun q => decide (q.1 = k)) =
        ((p :: ps).filter (fun q => decide (q.1 = k))).map (fun q => (k, q.2)) := by
  have hinv0 : TreeInv init_multimap := Or.inl rfl
  obtain ⟨mm2', hrun', hinv', hroot', habs'⟩ := runAdds_good (p :: ps) init_multimap hinv0
  rw [hrun'] at hrun
  have he := Option.some.inj hrun
  subst he
  rcases hinv' with hnone | ⟨h, root, hr, hg⟩
  · exact absurd (hroot'.mp hnone).2 (by simp)
  · have habs : Abs mm2' = entries root := by rw [Abs, hr]
    have hpair := (good_entries hg).2.2
    refine ⟨pairsOf (entries root), ?_, ?_, ?_, ?_⟩
    · cases mm2' with
      | mk r =>
        have hr2 : r = some root := hr
        subst hr2
        rw [mm_traverse]
        exact traverse_good hg
    · have hlen := runAdds_length (p :: ps) init_multimap hinv0 mm2' hrun'
      rw [habs] at hlen
      have h0 : (pairsOf (Abs init_multimap)).length = 0 := rfl
      rw [hlen, h0]
      omega
    · exact pairsOf_pairwise hpair
    · intro k
      rw [pairsOf_filter hpair]
      have hv := runAdds_valsOf (p :: ps) init_multimap hinv0 mm2' hrun' k
      rw [habs] at hv
      rw [hv, show valsOf (Abs init_multimap) k = [] from rfl, List.nil_append,
        List.map_map]
      rfl

/-- C1 counterexample: on the empty add sequence the claim fails: no
pair was ever added, yet the traverse dereferences the absent root
(modelled by none) instead of delivering zero pairs. -/
theorem C1_counterexample :
    runAdds [] init_multimap = some init_multimap ∧ mm_traverse init_multimap = none :=
  ⟨rfl, rfl⟩

/-- C1 witness: a concrete one-add run. -/
theorem C1_witness :
    ∃ mm2, runAdds [((5 : Int), (100 : Int))] init_multimap = some mm2 ∧
      ∃ out, mm_traverse mm2 = some out ∧ out.length = 1 ∧
        out.Pairwise (fun a b => a.1 ≤ b.1) ∧
        ∀ k : Int, out.filter (fun q => decide (q.1 = k)) =
          ([((5 : Int), (100 : Int))].filter (fun q => decide (q.1 = k))).map
            (fun q => (k, q.2)) := by
  obtain ⟨mm2, hrun⟩ : ∃ mm2, runAdds [((5 : Int), (100 : Int))] init_multimap = some mm2 :=
    ⟨_, rfl⟩
  obtain ⟨out, h1, h2, h3, h4⟩ := C1_traverse_delivers_adds (5, 100) [] mm2 hrun
  exact ⟨mm2, hrun, out, h1, h2, h3, h4⟩

/-- C2: after every completed run of public operations from a fresh
multimap, the tree is empty, or every node of it satisfies the local
shape conditions localWF (key count at most the fanout MAX_KEYS, keys
strictly increasing, an internal node with exactly nKeys + 1 non-empty
children) and all leaves lie at one equal depth. -/
theorem C2_node_invariants (ops : List MMOp) (mm : multimap)
    (hrun : runOps ops init_multimap = some mm) :
    mm.root = none ∨ ∃ rt d, mm.root = some rt ∧ AllWF rt ∧ EqDepth d rt := by
  have hinv := runOps_inv ops init_multimap (Or.inl rfl) mm hrun
  rcases hinv with hnone | ⟨h, root, hr, hg⟩
  · exact Or.inl hnone
  · exact Or.inr ⟨root, h, hr, good_allWF hg, good_eqDepth hg⟩

/-- C2 witness: a concrete one-operation run. -/
theorem C2_witness :
    ∃ mm, runOps [MMOp.addValue 5 100] init_multimap = some mm ∧
      (mm.root = none ∨ ∃ rt d, mm.root = some rt ∧ AllWF rt ∧ EqDepth d rt) := by
  obtain ⟨mm, hrun⟩ : ∃ mm, runOps [MMOp.addValue 5 100] init_multimap = some mm := ⟨_, rfl⟩
  exact ⟨mm, hrun, C2_node_invariants [MMOp.addValue 5 100] mm hrun⟩

/-- C9: on every reachable tree state the contains lookups are
read-only: find_node without create returns the same multimap with
zero alloc_node calls (nothing allocated, no node split, no record
created, no field modified), and mm_contains_key is exactly a
predicate of the returned pointer. -/
theorem C9_contains_read_only (mm : multimap) (key : Int) (hinv : TreeInv mm) :
    ∃ res, find_node mm key false (fun r => r) = some (res, mm, 0) ∧
      mm_contains_key mm key = some (decide (res ≠ FindResult.nullPtr)) := by
  rcases hinv with hnone | ⟨h, root, hr, hg⟩
  · cases mm with
    | mk r =>
      have hr2 : r = none := hnone
      subst hr2
      exact ⟨FindResult.dangling, rfl, rfl⟩
  · have hfind : find_node mm key false (fun r => r) =
        some (FindResult.ofPtr (lookupE (entries root) key), mm, 0) := find_node_lookup hr hg
    refine ⟨FindResult.ofPtr (lookupE (entries root) key), hfind, ?_⟩
    rw [mm_contains_key, hfind]
    rfl

/-- C9 witness: the empty multimap is reachable. -/
theorem C9_witness :
    TreeInv init_multimap ∧
    ∃ res, find_node init_multimap 7 false (fun r => r) = some (res, init_multimap, 0) ∧
      mm_contains_key init_multimap 7 = some (decide (res ≠ FindResult.nullPtr)) :=
  ⟨Or.inl rfl, C9_contains_read_only init_multimap 7 (Or.inl rfl)⟩

/-- C5: after a completed sequence of add_value calls on a fresh
multimap, mm_contains_key and mm_contains_pair answer true for every
added pair, and mm_contains_pair answers false for any value never
added under a key that was added. -/
theorem C5_contains_after_adds (ps : List (Int × Int)) (mm2 : multimap)
    (hrun : runAdds ps init_multimap = some mm2) :
    (∀ k v, (k, v) ∈ ps →
      mm_contains_key mm2 k = some true ∧ mm_contains_pair mm2 k v = some true) ∧
    (∀ k v', (∃ v, (k, v) ∈ ps) → (k, v') ∉ ps →
      mm_contains_pair mm2 k v' = some false) := by
  have hinv0 : TreeInv init_multimap := Or.inl rfl
  obtain ⟨mm2', hrun', hinv', hroot', habs'⟩ := runAdds_good ps init_multimap hinv0
  rw [hrun'] at hrun
  have he := Option.some.inj hrun
  subst he
  have hvals := runAdds_valsOf ps init_multimap hinv0 mm2' hrun'
  have main : ∀ k v, (k, v) ∈ ps → ∃ hh root r, mm2'.root = some root ∧
      Good none none hh root ∧ lookupE (entries root) k = some r ∧
      r.values = (ps.filter (fun p => decide (p.1 = k))).map (fun p => p.2) := by
    intro k v hkv
    have hne : ps ≠ [] := by
      intro hc
      subst hc
      simp at hkv
    rcases hinv' with hnone | ⟨hh, root, hr, hg⟩
    · exact absurd (hroot'.mp hnone).2 hne
    · have hv := hvals k
      rw [show valsOf (Abs init_multimap) k = [] from rfl, List.nil_append] at hv
      have hmem : v ∈ (ps.filter (fun p => decide (p.1 = k))).map (fun p => p.2) :=
        List.mem_map.mpr ⟨(k, v), List.mem_filter.mpr ⟨hkv, by simp⟩, rfl⟩
      cases hl : lookupE (Abs mm2') k with
      | none =>
        exfalso
        rw [valsOf_of_lookup_none hl] at hv
        rw [← hv] at hmem
        simp at hmem
      | some r =>
        rw [valsOf_of_lookup_some hl] at hv
        rw [Abs, hr] at hl
        exact ⟨hh, root, r, hr, hg, hl, hv⟩
  constructor
  · intro k v hkv
    obtain ⟨hh, root, r, hr, hg, hl, hrv⟩ := main k v hkv
    have hfind : find_node mm2' k false (fun r => r) =
        some (FindResult.ofPtr (lookupE (entries root) k), mm2', 0) := find_node_lookup hr hg
    rw [hl] at hfind
    have hmem : v ∈ r.values := by
      rw [hrv]
      exact List.mem_map.mpr ⟨(k, v), List.mem_filter.mpr ⟨hkv, by simp⟩, rfl⟩
    constructor
    · rw [mm_contains_key, hfind]
      rfl
    · rw [mm_contains_pair, hfind]
      show some (scanVals v r.values) = some true
      rw [scanVals_mem]
      exact congrArg some (decide_eq_true hmem)
  · intro k v' hpresent hnotin
    obtain ⟨v, hkv⟩ := hpresent
    obtain ⟨hh, root, r, hr, hg, hl, hrv⟩ := main k v hkv
    have hfind : find_node mm2' k false (fun r => r) =
        some (FindResult.ofPtr (lookupE (entries root) k), mm2', 0) := find_node_lookup hr hg
    rw [hl] at hfind
    have hnmem : v' ∉ r.values := by
      rw [hrv]
      intro hmem
      obtain ⟨q, hqf, hq2⟩ := List.mem_map.mp hmem
      obtain ⟨hq1, hqd⟩ := List.mem_filter.mp hqf
      have hqk : q.1 = k := of_decide_eq_true hqd
      have hqe : q = (k, v') := by
        rw [← hqk, ← hq2]
      rw [hqe] at hq1
      exact hnotin hq1
    rw [mm_contains_pair, hfind]
    show some (scanVals v' r.values) = some false
    rw [scanVals_mem]
    exact congrArg some (decide_eq_false hnmem)

/-- C5 witness: the single-pair scenario of the spec. -/
theorem C5_witness :
    ∃ mm2, runAdds [((5 : Int), (100 : Int))] init_multimap = some mm2 ∧
      mm_contains_key mm2 5 = some true ∧ mm_contains_pair mm2 5 100 = some true ∧
      mm_contains_pair mm2 5 101 = some false := by
  obtain ⟨mm2, hrun⟩ : ∃ mm2, runAdds [((5 : Int), (100 : Int))] init_multimap = some mm2 :=
    ⟨_, rfl⟩
  have h := C5_contains_after_adds [((5 : Int), (100 : Int))] mm2 hrun
  refine ⟨mm2, hrun, (h.1 5 100 (by simp)).1, (h.1 5 100 (by simp)).2, ?_⟩
  refine h.2 5 101 ⟨100, by simp⟩ ?_
  intro hc
  simp at hc

/-- C6: after every completed sequence of add_value calls on a fresh
multimap, every key record in the tree holds at least one value and a
buffer whose allocated byte length is a positive whole multiple of
LINE_SIZE with room for all stored values (nVals * VAL_SIZE ≤ alloced,
not a strict inequality); and one append grows the buffer by exactly
one LINE_SIZE exactly when the headroom of the current least multiple
of LINE_SIZE is smaller than one value, the first append allocating
exactly LINE_SIZE bytes. -/
theorem C6_buffer_sizing (ps : List (Int × Int)) (mm2 : multimap) (rt : mm_node)
    (hrun : runAdds ps init_multimap = some mm2) (hrt : mm2.root = some rt) :
    (∀ r, r ∈ entries rt → r.values ≠ [] ∧ r.alloced % LINE_SIZE = 0 ∧ 0 < r.alloced ∧
      r.values.length * VAL_SIZE ≤ r.alloced) ∧
    (∀ v k : Int, (appendValue v (key_node.mk k [] 0)).alloced = LINE_SIZE) ∧
    (∀ (v : Int) (r : key_node), RecOK r →
      ((appendValue v r).alloced = r.alloced + LINE_SIZE ↔
        r.alloced - r.values.length * VAL_SIZE < VAL_SIZE)) := by
  have hinv0 : TreeInv init_multimap := Or.inl rfl
  obtain ⟨mm2', hrun', hinv', hroot', habs'⟩ := runAdds_good ps init_multimap hinv0
  rw [hrun'] at hrun
  have he := Option.some.inj hrun
  subst he
  refine ⟨?_, ?_, ?_⟩
  · intro r hr
    rcases hinv' with hnone | ⟨hh, root, hro, hg⟩
    · rw [hnone] at hrt
      cases hrt
    · rw [hro] at hrt
      have hroot : root = rt := Option.some.inj hrt
      subst hroot
      have hrec := ((good_entries hg).2.1 r hr).2.2
      obtain ⟨hne, hall⟩ := hrec
      obtain ⟨hmod, hle, hpos⟩ := RecOK_bounds r ⟨hne, hall⟩
      exact ⟨hne, hmod, hpos, hle⟩
  · intro v k
    exact (RecOK_appendValue_fresh v k).2
  · intro v r hrec
    obtain ⟨hne, hall⟩ := hrec
    rw [appendValue_alloced, ← hall]
    by_cases hc : r.alloced - r.values.length * VAL_SIZE < VAL_SIZE
    · rw [if_pos hc]
      exact ⟨fun _ => hc, fun _ => rfl⟩
    · rw [if_neg hc]
      constructor
      · intro hcon
        have : LINE_SIZE = 0 := by omega
        rw [LINE_SIZE] at this
        cases this
      · intro hcon
        exact absurd hcon hc

/-- C6 counterexample: sixteen appends under one key fill the buffer
exactly: the record reaches nVals = 16 with alloced = 64 = LINE_SIZE,
and 16 * VAL_SIZE = 64 is not strictly smaller than the allocated
length, refuting the strict inequality of the claim. -/
theorem C6_counterexample :
    ∃ mm rt r, runAdds (List.replicate 16 ((5 : Int), (100 : Int))) init_multimap = some mm ∧
      mm.root = some rt ∧ lookupE (entries rt) 5 = some r ∧
      r.values.length = 16 ∧ r.alloced = 64 ∧
      ¬ r.values.length * VAL_SIZE < r.alloced := by
  obtain ⟨mm, hrun, hinv, hroot, habs⟩ :=
    runAdds_good (List.replicate 16 ((5 : Int), (100 : Int))) init_multimap (Or.inl rfl)
  rcases hinv with hnone | ⟨hh, root, hr, hg⟩
  · exact absurd (hroot.mp hnone).2 (by decide)
  · have hv := runAdds_valsOf (List.replicate 16 ((5 : Int), (100 : Int))) init_multimap
      (Or.inl rfl) mm hrun 5
    have hfm : ((List.replicate 16 ((5 : Int), (100 : Int))).filter
        (fun p => decide (p.1 = 5))).map (fun p => p.2) = List.replicate 16 (100 : Int) := by
      decide
    rw [show valsOf (Abs init_multimap) 5 = [] from rfl, List.nil_append, hfm] at hv
    cases hl : lookupE (Abs mm) 5 with
    | none =>
      rw [valsOf_of_lookup_none hl] at hv
      exact absurd hv (by decide)
    | some r =>
      rw [valsOf_of_lookup_some hl] at hv
      rw [Abs, hr] at hl
      have hmem := (lookupE_some_mem hl).1
      obtain ⟨hne, hall⟩ := ((good_entries hg).2.1 r hmem).2.2
      have hlen : r.values.length = 16 := by
        rw [hv]
        exact List.length_replicate 16 100
      have ha : r.alloced = 64 := by
        rw [hall, hlen]
        exact allocFill_zero_unique (16 * VAL_SIZE) 64 (by decide) (by decide) (by decide)
      refine ⟨mm, root, r, hrun, hr, hl, hlen, ha, ?_⟩
      rw [hlen, ha]
      decide

/-- C6 witness: a concrete one-add run. -/
theorem C6_witness :
    ∃ mm2 rt, runAdds [((5 : Int), (100 : Int))] init_multimap = some mm2 ∧
      mm2.root = some rt ∧
      (∀ r, r ∈ entries rt → r.values ≠ [] ∧ r.alloced % LINE_SIZE = 0 ∧ 0 < r.alloced ∧
        r.values.length * VAL_SIZE ≤ r.alloced) ∧
      (∀ v k : Int, (appendValue v (key_node.mk k [] 0)).alloced = LINE_SIZE) := by
  have h2 : runAdds [((5 : Int), (100 : Int))] init_multimap =
      some (⟨some (mm_node.mk true 1
        ((List.replicate MAX_KEYS key_node.zero).set 0
          (appendValue 100 { key_node.zero with key := 5 }))
        (List.replicate (MAX_KEYS + 1) none))⟩ : multimap) := rfl
  have h := C6_buffer_sizing [((5 : Int), (100 : Int))] _ _ h2 rfl
  exact ⟨_, _, h2, rfl, h.1, h.2.1⟩

/-- C10: over states with a root present, every key record stored in
the tree holds at least one value and a non-null (positive-length)
buffer, and mm_contains_key answers true only for keys some add_value
call has populated.  (On the reachable empty state the answer-true
part fails, see the counterexample: the dangling find_node pointer
makes mm_contains_key answer true for every key.) -/
theorem C10_populated_records (ops : List MMOp) (mm : multimap) (rt : mm_node)
    (hrun : runOps ops init_multimap = some mm) (hrt : mm.root = some rt) :
    (∀ r, r ∈ entries rt → r.values ≠ [] ∧ 0 < r.alloced) ∧
    (∀ (ps : List (Int × Int)) (mm2 : multimap) (rt2 : mm_node) (k : Int),
      runAdds ps init_multimap = some mm2 → mm2.root = some rt2 →
      mm_contains_key mm2 k = some true → ∃ v, (k, v) ∈ ps) := by
  constructor
  · have hinv := runOps_inv ops init_multimap (Or.inl rfl) mm hrun
    rcases hinv with hnone | ⟨hh, root, hro, hg⟩
    · rw [hnone] at hrt
      cases hrt
    · rw [hro] at hrt
      have he := Option.some.inj hrt
      subst he
      intro r hr
      obtain ⟨hne, hall⟩ := ((good_entries hg).2.1 r hr).2.2
      exact ⟨hne, (RecOK_bounds r ⟨hne, hall⟩).2.2⟩
  · intro ps mm2 rt2 k hruna hrt2 hck
    obtain ⟨mm2', hrun', hinv', hroot', habs'⟩ := runAdds_good ps init_multimap (Or.inl rfl)
    rw [hrun'] at hruna
    have he := Option.some.inj hruna
    subst he
    rcases hinv' with hnone | ⟨hh, root, hro, hg⟩
    · rw [hnone] at hrt2
      cases hrt2
    · have hfind : find_node mm2' k false (fun r => r) =
          some (FindResult.ofPtr (lookupE (entries root) k), mm2', 0) := find_node_lookup hro hg
      rw [mm_contains_key, hfind] at hck
      cases hl : lookupE (entries root) k with
      | none =>
        rw [hl] at hck
        have hb : decide (FindResult.nullPtr ≠ FindResult.nullPtr) = true :=
          Option.some.inj hck
        exact absurd hb (by decide)
      | some r =>
        have hv := runAdds_valsOf ps init_multimap (Or.inl rfl) mm2' hrun' k
        rw [show valsOf (Abs init_multimap) k = [] from rfl, List.nil_append] at hv
        have hl2 : lookupE (Abs mm2') k = some r := by
          rw [Abs, hro]
          exact hl
        rw [valsOf_of_lookup_some hl2] at hv
        have hmem := (lookupE_some_mem hl).1
        obtain ⟨hne, hall⟩ := ((good_entries hg).2.1 r hmem).2.2
        rw [hv] at hne
        obtain ⟨x, hx⟩ := List.exists_mem_of_ne_nil _ hne
        obtain ⟨q, hqf, hq2⟩ := List.mem_map.mp hx
        obtain ⟨hq1, hqd⟩ := List.mem_filter.mp hqf
        have hqk : q.1 = k := of_decide_eq_true hqd
        refine ⟨q.2, ?_⟩
        have hqe : (k, q.2) = q := by
          rw [← hqk]
        rw [hqe]
        exact hq1

/-- C10 counterexample: on the reachable empty multimap nothing was
ever added and no record exists, yet mm_contains_key answers true (for
key 7, and likewise for every key): the claim that contains_key can
answer true only for populated keys fails on the empty tree. -/
theorem C10_counterexample :
    runOps [] init_multimap = some init_multimap ∧
    Abs init_multimap = [] ∧
    mm_contains_key init_multimap 7 = some true :=
  ⟨rfl, rfl, by rfl⟩

/-- C10 witness: a concrete one-operation run with a root present. -/
theorem C10_witness :
    ∃ mm rt, runOps [MMOp.addValue 5 100] init_multimap = some mm ∧
      mm.root = some rt ∧
      (∀ r, r ∈ entries rt → r.values ≠ [] ∧ 0 < r.alloced) ∧
      (∀ (ps : List (Int × Int)) (mm2 : multimap) (rt2 : mm_node) (k : Int),
        runAdds ps init_multimap = some mm2 → mm2.root = some rt2 →
        mm_contains_key mm2 k = some true → ∃ v, (k, v) ∈ ps) := by
  have h2 : runOps [MMOp.addValue 5 100] init_multimap =
      some (⟨some (mm_node.mk true 1
        ((List.replicate MAX_KEYS key_node.zero).set 0
          (appendValue 100 { key_node.zero with key := 5 }))
        (List.replicate (MAX_KEYS + 1) none))⟩ : multimap) := rfl
  have h := C10_populated_records [MMOp.addValue 5 100] _ _ h2 rfl
  exact ⟨_, _, h2, rfl, h.1, h.2⟩

end BTreeC